import Mathlib

/-!
Verification of `algorithms/string/suffix_automaton.py`.

The Python module defines a `State` record (fields `next` — a dict from
character to state index, `link` — an integer suffix link with `-1` as the
undefined sentinel, and `len` — the length of the longest substring of the
state's class) and a `SuffixAutomaton` class holding a list `states` and an
integer `last`, with operations `extend` (online construction, one character
at a time, with the clone/split case) and `longest_common_substring`.

The embedding below mirrors the source statement by statement.  Python dicts
become association lists (`findTr` / `setTr`), list indexing becomes
`Option`-valued access, and the two unbounded `while` loops walking suffix
links become fuel-indexed recursions returning `none` on fuel exhaustion or
on any out-of-bounds access; adequacy of the fuel and unreachability of every
error branch are proved, not assumed.
-/

namespace SufAuto

/-- Transition dictionary lookup: Python `d[ch]` / `ch in d` / `d.get(ch, None)`. -/
def findTr : List (Char × Nat) → Char → Option Nat
  | [], _ => none
  | (a, v) :: rest, c => if a = c then some v else findTr rest c

/-- Transition dictionary update: Python `d[ch] = v`. -/
def setTr : List (Char × Nat) → Char → Nat → List (Char × Nat)
  | [], c, v => [(c, v)]
  | (a, w) :: rest, c, v => if a = c then (c, v) :: rest else (a, w) :: setTr rest c v

/-- Python `class State`: `next = {}`, `link = -1`, `len = 0`. -/
structure State where
  next : List (Char × Nat)
  link : Int
  len : Nat
deriving DecidableEq

/-- A fresh state as produced by `State()`. -/
def State.mkNew : State := { next := [], link := -1, len := 0 }

/-- Python `class SuffixAutomaton`: a list of states and the index `last`. -/
structure SuffixAutomaton where
  states : List State
  last : Nat
deriving DecidableEq

/-- `states[p]` for a signed index as used with the `-1` sentinel guard. -/
def getSt (sts : List State) (p : Int) : Option State :=
  if 0 ≤ p then sts[p.toNat]? else none

/-- In-place update of state `n` (Python mutates `self.states[n]`). -/
def setSt (sts : List State) (n : Nat) (f : State → State) : List State :=
  match sts[n]? with
  | some st => sts.set n (f st)
  | none => sts

/-- First `while` loop of `extend`:
`while p != -1 and ch not in self.states[p].next: self.states[p].next[ch] = cur; p = self.states[p].link`. -/
def addLoop (ch : Char) (cur : Nat) : Nat → List State → Int → Option (List State × Int)
  | 0, _, _ => none
  | fuel + 1, sts, p =>
    if p = -1 then some (sts, p)
    else
      match getSt sts p with
      | none => none
      | some st =>
        match findTr st.next ch with
        | some _ => some (sts, p)
        | none =>
          addLoop ch cur fuel
            (setSt sts p.toNat (fun s => { s with next := setTr s.next ch cur })) st.link

/-- Second `while` loop of `extend`:
`while p != -1 and self.states[p].next.get(ch, None) == q: self.states[p].next[ch] = clone; p = self.states[p].link`. -/
def redirectLoop (ch : Char) (q clone : Nat) : Nat → List State → Int → Option (List State × Int)
  | 0, _, _ => none
  | fuel + 1, sts, p =>
    if p = -1 then some (sts, p)
    else
      match getSt sts p with
      | none => none
      | some st =>
        if findTr st.next ch = some q then
          redirectLoop ch q clone fuel
            (setSt sts p.toNat (fun s => { s with next := setTr s.next ch clone })) st.link
        else some (sts, p)

/-- `SuffixAutomaton.extend(self, ch)`, with explicit loop fuel. -/
def extend (fuel : Nat) (A : SuffixAutomaton) (ch : Char) : Option SuffixAutomaton := do
  let cur := A.states.length
  let sts0 := A.states ++ [State.mkNew]
  let lastSt ← sts0[A.last]?
  let sts1 := setSt sts0 cur (fun st => { st with len := lastSt.len + 1 })
  let r1 ← addLoop ch cur fuel sts1 (Int.ofNat A.last)
  let sts2 := r1.1
  let p := r1.2
  if p = -1 then
    pure { states := setSt sts2 cur (fun st => { st with link := 0 }), last := cur }
  else do
    let pst ← getSt sts2 p
    let q ← findTr pst.next ch
    let qst ← sts2[q]?
    if pst.len + 1 = qst.len then
      pure { states := setSt sts2 cur (fun st => { st with link := Int.ofNat q }), last := cur }
    else do
      let clone := sts2.length
      let sts3 := sts2 ++ [{ next := qst.next, link := qst.link, len := pst.len + 1 }]
      let r2 ← redirectLoop ch q clone fuel sts3 p
      let sts4 := setSt r2.1 q (fun st => { st with link := Int.ofNat clone })
      let sts5 := setSt sts4 cur (fun st => { st with link := Int.ofNat clone })
      pure { states := sts5, last := cur }

/-- `extend` with the fuel bound used throughout: always sufficient on
automata reachable from construction (proved below). -/
def extendAuto (A : SuffixAutomaton) (ch : Char) : Option SuffixAutomaton :=
  extend (A.states.length + 3) A ch

/-- The automaton produced by `SuffixAutomaton.__init__` before any `extend`. -/
def initSAM : SuffixAutomaton := { states := [State.mkNew], last := 0 }

/-- `SuffixAutomaton(s)`: construct by calling `extend` once per character. -/
def build (s : List Char) : Option SuffixAutomaton :=
  s.foldlM extendAuto initSAM

/-- The transition walk from a state, consuming a word symbol by symbol
through the `next` maps; `none` when some transition is missing. -/
def walkFrom (sts : List State) : Nat → List Char → Option Nat
  | v, [] => some v
  | v, c :: w => do
    let st ← sts[v]?
    let j ← findTr st.next c
    walkFrom sts j w

/-- Inner `while` loop of `longest_common_substring`:
`while v != -1 and ch not in self.states[v].next: v = self.states[v].link; if v != -1: l = self.states[v].len`.
The automaton is threaded through unchanged, mirroring that the Python body
only reads `self`. -/
def lcsWalk (ch : Char) : Nat → SuffixAutomaton → Int → Nat →
    Option (SuffixAutomaton × Int × Nat)
  | 0, _, _, _ => none
  | fuel + 1, A, v, l =>
    if v = -1 then pure (A, v, l)
    else do
      let st ← getSt A.states v
      match findTr st.next ch with
      | some _ => pure (A, v, l)
      | none =>
        let v2 := st.link
        if v2 = -1 then lcsWalk ch fuel A v2 l
        else do
          let st2 ← getSt A.states v2
          lcsWalk ch fuel A v2 st2.len

/-- One iteration of the `for ch in t` loop of `longest_common_substring`. -/
def lcsStep (fuel : Nat) (acc : SuffixAutomaton × Int × Nat × Nat) (ch : Char) :
    Option (SuffixAutomaton × Int × Nat × Nat) := do
  let r ← lcsWalk ch fuel acc.1 acc.2.1 acc.2.2.1
  let best := acc.2.2.2
  if r.2.1 = -1 then pure (r.1, 0, 0, best)
  else do
    let st ← getSt r.1.states r.2.1
    let j ← findTr st.next ch
    pure (r.1, Int.ofNat j, r.2.2 + 1, max best (r.2.2 + 1))

/-- `SuffixAutomaton.longest_common_substring(self, t)`, returning the final
automaton alongside the result `best`. -/
def lcsRun (A : SuffixAutomaton) (t : List Char) : Option (SuffixAutomaton × Nat) := do
  let r ← t.foldlM (lcsStep (A.states.length + 3)) (A, 0, 0, 0)
  pure (r.1, r.2.2.2)

/-- The value returned by `longest_common_substring`. -/
def longest_common_substring (A : SuffixAutomaton) (t : List Char) : Option Nat :=
  (lcsRun A t).map (fun r => r.2)

/-- The suffix of `w` of length `m`. -/
def takeSuffix (w : List Char) (m : Nat) : List Char := w.drop (w.length - m)

/-- Brute-force reference: the length of the longest contiguous substring of
`t` that is also a substring of `s`, by scanning all start/end pairs. -/
def refLCS (s t : List Char) : Nat :=
  ((List.range (t.length + 1)).map (fun j =>
    ((List.range (j + 1)).map (fun i =>
      if (t.take j).drop i <:+: s then j - i else 0)).foldr max 0)).foldr max 0

/-- Total number of transition entries of the automaton. -/
def edgeCount (A : SuffixAutomaton) : Nat :=
  (A.states.map (fun st => st.next.length)).sum

/-! ### Basic lemmas about the dictionary and state-list primitives -/

theorem findTr_setTr_self (m : List (Char × Nat)) (c : Char) (v : Nat) :
    findTr (setTr m c v) c = some v := by
  induction m with
  | nil => simp [setTr, findTr]
  | cons hd tl ih =>
    obtain ⟨a, w⟩ := hd
    by_cases h : a = c
    · simp [setTr, findTr, h]
    · simp [setTr, findTr, h, ih]

theorem findTr_setTr_ne (m : List (Char × Nat)) {c c' : Char} (v : Nat) (h : c' ≠ c) :
    findTr (setTr m c v) c' = findTr m c' := by
  have h' : ¬ c = c' := fun hh => h hh.symm
  induction m with
  | nil => simp [setTr, findTr, h']
  | cons hd tl ih =>
    obtain ⟨a, w⟩ := hd
    by_cases hac : a = c
    · subst hac
      simp [setTr, findTr, h']
    · simp only [setTr, if_neg hac, findTr]
      by_cases hac' : a = c'
      · simp [hac']
      · simp [hac', ih]

theorem findTr_setTr (m : List (Char × Nat)) (c c' : Char) (v : Nat) :
    findTr (setTr m c v) c' = if c' = c then some v else findTr m c' := by
  by_cases h : c' = c
  · subst h; simp [findTr_setTr_self]
  · simp [h, findTr_setTr_ne m v h]

theorem length_setTr (m : List (Char × Nat)) (c : Char) (v : Nat) :
    (setTr m c v).length = if (findTr m c).isSome then m.length else m.length + 1 := by
  induction m with
  | nil => simp [setTr, findTr]
  | cons hd tl ih =>
    obtain ⟨a, w⟩ := hd
    by_cases h : a = c
    · simp [setTr, findTr, h]
    · simp [setTr, findTr, h, ih]
      split <;> rfl

theorem mem_setTr {m : List (Char × Nat)} {c : Char} {v : Nat} {e : Char × Nat}
    (he : e ∈ setTr m c v) : e = (c, v) ∨ e ∈ m := by
  induction m with
  | nil => simpa [setTr] using he
  | cons hd tl ih =>
    obtain ⟨a, w⟩ := hd
    by_cases h : a = c
    · simp [setTr, h] at he
      rcases he with he | he
      · exact Or.inl (by simp [he])
      · exact Or.inr (by simp [he])
    · simp [setTr, h] at he
      rcases he with he | he
      · exact Or.inr (by simp [he])
      · rcases ih he with h1 | h1
        · exact Or.inl h1
        · exact Or.inr (by simp [h1])

theorem findTr_mem {m : List (Char × Nat)} {c : Char} {v : Nat}
    (h : findTr m c = some v) : (c, v) ∈ m := by
  induction m with
  | nil => simp [findTr] at h
  | cons hd tl ih =>
    obtain ⟨a, w⟩ := hd
    by_cases hac : a = c
    · subst hac
      simp [findTr] at h
      simp [h]
    · simp [findTr, hac] at h
      simp [ih h]

theorem nodup_keys_setTr {m : List (Char × Nat)} (h : (m.map Prod.fst).Nodup)
    (c : Char) (v : Nat) : ((setTr m c v).map Prod.fst).Nodup := by
  induction m with
  | nil => simp [setTr]
  | cons hd tl ih =>
    obtain ⟨a, w⟩ := hd
    simp only [List.map_cons, List.nodup_cons] at h
    by_cases hac : a = c
    · subst hac
      have hs : setTr ((a, w) :: tl) a v = (a, v) :: tl := by
        simp [setTr]
      rw [hs]
      simp only [List.map_cons, List.nodup_cons]
      exact h
    · simp only [setTr, if_neg hac, List.map_cons, List.nodup_cons]
      refine ⟨?_, ih h.2⟩
      intro hmem
      rcases List.mem_map.mp hmem with ⟨e, he, hfst⟩
      rcases mem_setTr he with he2 | he2
      · subst he2
        exact hac hfst.symm
      · exact h.1 (List.mem_map.mpr ⟨e, he2, hfst⟩)

theorem getSt_ofNat (sts : List State) (n : Nat) : getSt sts (Int.ofNat n) = sts[n]? := by
  simp [getSt]

theorem getSt_neg {p : Int} (sts : List State) (h : p < 0) : getSt sts p = none := by
  simp [getSt, not_le.mpr h]

theorem getSt_eq_some {sts : List State} {p : Int} {st : State}
    (h : getSt sts p = some st) : 0 ≤ p ∧ sts[p.toNat]? = some st := by
  by_cases hp : 0 ≤ p
  · exact ⟨hp, by simpa [getSt, hp] using h⟩
  · simp [getSt, hp] at h

theorem length_setSt (sts : List State) (n : Nat) (f : State → State) :
    (setSt sts n f).length = sts.length := by
  unfold setSt
  split <;> simp

theorem setSt_getElem_self {sts : List State} {n : Nat} {st : State}
    (h : sts[n]? = some st) (f : State → State) :
    (setSt sts n f)[n]? = some (f st) := by
  have hn : n < sts.length := (List.getElem?_eq_some_iff.mp h).1
  simp [setSt, h, List.getElem?_set_self hn]

theorem setSt_getElem_ne {sts : List State} {n m : Nat} (f : State → State) (h : m ≠ n) :
    (setSt sts n f)[m]? = sts[m]? := by
  unfold setSt
  split
  · exact List.getElem?_set_ne (fun hh => h hh.symm)
  · rfl

theorem setSt_getElem {sts : List State} {n m : Nat} (f : State → State) :
    (setSt sts n f)[m]? = if m = n then (sts[m]?).map f else sts[m]? := by
  by_cases h : m = n
  · subst h
    cases hm : sts[m]? with
    | none => simp [setSt, hm]
    | some st => simp [setSt_getElem_self hm f, hm]
  · simp [setSt_getElem_ne f h, h]

theorem setSt_map_eq {sts : List State} {n : Nat} {f : State → State} {α : Type}
    (g : State → α) (hg : ∀ s, g (f s) = g s) (i : Nat) :
    ((setSt sts n f)[i]?).map g = (sts[i]?).map g := by
  rw [setSt_getElem]
  split
  · cases sts[i]? with
    | none => rfl
    | some st => simp [hg]
  · rfl

/-! ### Frame lemmas: the while loops modify only `next` fields -/

theorem addLoop_frame {ch : Char} {cur : Nat} {fuel : Nat} {sts : List State} {p : Int}
    {sts' : List State} {p' : Int} (h : addLoop ch cur fuel sts p = some (sts', p')) :
    sts'.length = sts.length ∧
    ∀ i : Nat, (sts'[i]?).map (fun s => (s.len, s.link)) =
      (sts[i]?).map (fun s => (s.len, s.link)) := by
  induction fuel generalizing sts p with
  | zero => simp [addLoop] at h
  | succ fuel ih =>
    rw [addLoop] at h
    split at h
    · simp only [Option.some.injEq, Prod.mk.injEq] at h
      obtain ⟨h1, h2⟩ := h
      subst h1
      exact ⟨rfl, fun i => rfl⟩
    · split at h
      · exact absurd h (by simp)
      · split at h
        · simp only [Option.some.injEq, Prod.mk.injEq] at h
          obtain ⟨h1, h2⟩ := h
          subst h1
          exact ⟨rfl, fun i => rfl⟩
        · obtain ⟨h1, h2⟩ := ih h
          refine ⟨by rw [h1, length_setSt], fun i => ?_⟩
          rw [h2 i]
          refine setSt_map_eq _ ?_ i
          intro s
          rfl

theorem redirectLoop_frame {ch : Char} {q clone : Nat} {fuel : Nat} {sts : List State} {p : Int}
    {sts' : List State} {p' : Int} (h : redirectLoop ch q clone fuel sts p = some (sts', p')) :
    sts'.length = sts.length ∧
    ∀ i : Nat, (sts'[i]?).map (fun s => (s.len, s.link)) =
      (sts[i]?).map (fun s => (s.len, s.link)) := by
  induction fuel generalizing sts p with
  | zero => simp [redirectLoop] at h
  | succ fuel ih =>
    rw [redirectLoop] at h
    split at h
    · simp only [Option.some.injEq, Prod.mk.injEq] at h
      obtain ⟨h1, h2⟩ := h
      subst h1
      exact ⟨rfl, fun i => rfl⟩
    · split at h
      · exact absurd h (by simp)
      · split at h
        · obtain ⟨h1, h2⟩ := ih h
          refine ⟨by rw [h1, length_setSt], fun i => ?_⟩
          rw [h2 i]
          refine setSt_map_eq _ ?_ i
          intro s
          rfl
        · simp only [Option.some.injEq, Prod.mk.injEq] at h
          obtain ⟨h1, h2⟩ := h
          subst h1
          exact ⟨rfl, fun i => rfl⟩

/-! ### Destructuring a successful `extend` call -/

theorem setSt_concat (l : List State) (st : State) (f : State → State) :
    setSt (l ++ [st]) l.length f = l ++ [f st] := by
  unfold setSt
  rw [List.getElem?_concat_length]
  show (l ++ [st]).set l.length (f st) = l ++ [f st]
  rw [List.set_append_right _ _ (le_refl _)]
  simp

theorem extend_cases {fuel : Nat} {A : SuffixAutomaton} {ch : Char} {A' : SuffixAutomaton}
    (h : extend fuel A ch = some A') :
    ∃ lastSt sts2 p,
      (A.states ++ [State.mkNew])[A.last]? = some lastSt ∧
      addLoop ch A.states.length fuel
        (A.states ++ [{ next := [], link := -1, len := lastSt.len + 1 }]) (Int.ofNat A.last)
        = some (sts2, p) ∧
      A'.last = A.states.length ∧
      ((p = -1 ∧ A'.states = setSt sts2 A.states.length (fun st => { st with link := 0 }))
       ∨ (¬ p = -1 ∧ ∃ pst q qst,
            getSt sts2 p = some pst ∧
            findTr pst.next ch = some q ∧
            sts2[q]? = some qst ∧
            ((pst.len + 1 = qst.len ∧
              A'.states = setSt sts2 A.states.length (fun st => { st with link := Int.ofNat q }))
             ∨ (¬ pst.len + 1 = qst.len ∧ ∃ sts3 p2,
                  redirectLoop ch q sts2.length fuel
                    (sts2 ++ [{ next := qst.next, link := qst.link, len := pst.len + 1 }]) p
                    = some (sts3, p2) ∧
                  A'.states = setSt (setSt sts3 q
                      (fun st => { st with link := Int.ofNat sts2.length }))
                    A.states.length (fun st => { st with link := Int.ofNat sts2.length }))))) := by
  rw [extend] at h
  simp only [Option.bind_eq_bind, Option.bind_eq_some, Option.pure_def,
    Option.some.injEq] at h
  obtain ⟨lastSt, hlast, h⟩ := h
  rw [setSt_concat] at h
  obtain ⟨r1, hloop, h⟩ := h
  refine ⟨lastSt, r1.1, r1.2, hlast, hloop, ?_, ?_⟩
  · split at h
    · simp only [Option.some.injEq] at h
      rw [← h]
    · simp only [Option.bind_eq_some, Option.some.injEq] at h
      obtain ⟨pst, hp, q, hq, qst, hqst, h⟩ := h
      split at h
      · simp only [Option.some.injEq] at h
        rw [← h]
      · simp only [Option.bind_eq_some, Option.some.injEq] at h
        obtain ⟨r2, hred, h⟩ := h
        rw [← h]
  · split at h
    · next hp1 =>
      left
      simp only [Option.some.injEq] at h
      exact ⟨hp1, by rw [← h]⟩
    · next hp1 =>
      right
      simp only [Option.bind_eq_some, Option.some.injEq] at h
      obtain ⟨pst, hp, q, hq, qst, hqst, h⟩ := h
      refine ⟨hp1, pst, q, qst, hp, hq, hqst, ?_⟩
      split at h
      · next heq =>
        left
        simp only [Option.some.injEq] at h
        exact ⟨heq, by rw [← h]⟩
      · next heq =>
        right
        simp only [Option.bind_eq_some, Option.some.injEq] at h
        obtain ⟨r2, hred, h⟩ := h
        exact ⟨heq, r2.1, r2.2, hred, by rw [← h]⟩

/-! ### Projections of the pairwise frame maps -/

theorem map_len_of_pair {o o' : Option State}
    (h : o.map (fun s => (s.len, s.link)) = o'.map (fun s => (s.len, s.link))) :
    o.map State.len = o'.map State.len ∧ o.map State.link = o'.map State.link := by
  cases o <;> cases o' <;> simp_all [State.len, State.link]

theorem setSt_map_len (sts : List State) (n : Nat) (g : State → Int) (i : Nat) :
    ((setSt sts n fun st => { st with link := g st })[i]?).map State.len =
      (sts[i]?).map State.len := by
  refine setSt_map_eq _ ?_ i
  intro s
  rfl

/-- Claim C7: each successful `extend` call appends exactly one or two new
states, never removes a state, sets `last` to the first new index, and leaves
the `len` field of every pre-existing state unchanged (only `next` and `link`
of old states are ever rewritten). -/
theorem claim7_extend_frame {fuel : Nat} {A A' : SuffixAutomaton} {ch : Char}
    (h : extend fuel A ch = some A') :
    (A'.states.length = A.states.length + 1 ∨ A'.states.length = A.states.length + 2) ∧
    (∀ i : Nat, i < A.states.length →
      (A'.states[i]?).map State.len = (A.states[i]?).map State.len) ∧
    A'.last = A.states.length := by
  obtain ⟨lastSt, sts2, p, hlast, hloop, hlastIdx, hbr⟩ := extend_cases h
  obtain ⟨hlen2, hmap2⟩ := addLoop_frame hloop
  have hlen2' : sts2.length = A.states.length + 1 := by
    rw [hlen2]
    simp
  have hmap2' : ∀ i : Nat, i < A.states.length →
      (sts2[i]?).map State.len = (A.states[i]?).map State.len := by
    intro i hi
    have h1 := (map_len_of_pair (hmap2 i)).1
    rwa [List.getElem?_append_left hi] at h1
  rcases hbr with ⟨hp, hA⟩ | ⟨hp, pst, q, qst, hpst, hq, hqst, hbr2⟩
  · refine ⟨Or.inl (by rw [hA, length_setSt, hlen2']), ?_, hlastIdx⟩
    intro i hi
    rw [hA, setSt_map_len]
    exact hmap2' i hi
  · rcases hbr2 with ⟨heq, hA⟩ | ⟨heq, sts3, p2, hred, hA⟩
    · refine ⟨Or.inl (by rw [hA, length_setSt, hlen2']), ?_, hlastIdx⟩
      intro i hi
      rw [hA, setSt_map_len]
      exact hmap2' i hi
    · obtain ⟨hlen3, hmap3⟩ := redirectLoop_frame hred
      refine ⟨Or.inr ?_, ?_, hlastIdx⟩
      · rw [hA, length_setSt, length_setSt, hlen3]
        simp [hlen2']
      · intro i hi
        rw [hA, setSt_map_len, setSt_map_len]
        have h1 := (map_len_of_pair (hmap3 i)).1
        rw [List.getElem?_append_left (by omega : i < sts2.length)] at h1
        rw [h1]
        exact hmap2' i hi

/-- Claim C8: building from the empty string leaves exactly the single
initial state (length 0, sentinel link, no transitions) with `last` at it,
and every `longest_common_substring` query on that automaton returns 0. -/
theorem claim8_empty_build :
    build [] = some initSAM ∧
    initSAM.states = [{ next := [], link := -1, len := 0 }] ∧
    initSAM.last = 0 ∧
    ∀ t : List Char, longest_common_substring initSAM t = some 0 := by
  refine ⟨rfl, rfl, rfl, ?_⟩
  intro t
  have hstep : ∀ c : Char,
      lcsStep (initSAM.states.length + 3) (initSAM, 0, 0, 0) c = some (initSAM, 0, 0, 0) := by
    intro c
    rfl
  have hfold : ∀ t : List Char,
      t.foldlM (lcsStep (initSAM.states.length + 3)) (initSAM, 0, 0, 0) =
        some (initSAM, 0, 0, 0) := by
    intro t
    induction t with
    | nil => rfl
    | cons c t ih =>
      rw [List.foldlM_cons, hstep c]
      exact ih
  unfold longest_common_substring lcsRun
  rw [hfold t]
  rfl

/-- The inner query-walk loop returns the automaton it was given. -/
theorem lcsWalk_keeps {ch : Char} {fuel : Nat} {A : SuffixAutomaton} {v : Int} {l : Nat}
    {out : SuffixAutomaton × Int × Nat} (h : lcsWalk ch fuel A v l = some out) :
    out.1 = A := by
  induction fuel generalizing v l with
  | zero => simp [lcsWalk] at h
  | succ fuel ih =>
    rw [lcsWalk] at h
    split at h
    · simp only [Option.pure_def, Option.some.injEq] at h
      rw [← h]
    · simp only [Option.bind_eq_bind, Option.bind_eq_some] at h
      obtain ⟨st, hst, h⟩ := h
      split at h
      · simp only [Option.pure_def, Option.some.injEq] at h
        rw [← h]
      · split at h
        · exact ih h
        · simp only [Option.bind_eq_some] at h
          obtain ⟨st2, hst2, h⟩ := h
          exact ih h

/-- Claim C10: `longest_common_substring` is a pure query — the automaton it
returns is identical to the one it was called on. -/
theorem claim10_lcs_pure {A : SuffixAutomaton} {t : List Char}
    {r : SuffixAutomaton × Nat} (h : lcsRun A t = some r) : r.1 = A := by
  unfold lcsRun at h
  simp only [Option.bind_eq_bind, Option.bind_eq_some, Option.pure_def,
    Option.some.injEq] at h
  obtain ⟨acc, hacc, h⟩ := h
  suffices hk : ∀ (t : List Char) (a : SuffixAutomaton × Int × Nat × Nat)
      (b : SuffixAutomaton × Int × Nat × Nat),
      t.foldlM (lcsStep (A.states.length + 3)) a = some b → b.1 = a.1 by
    have := hk t (A, 0, 0, 0) acc hacc
    rw [← h]
    simpa using this
  intro t
  induction t with
  | nil =>
    intro a b hb
    simp only [List.foldlM_nil, Option.pure_def, Option.some.injEq] at hb
    rw [← hb]
  | cons c t ih =>
    intro a b hb
    rw [List.foldlM_cons] at hb
    simp only [Option.bind_eq_bind, Option.bind_eq_some] at hb
    obtain ⟨a1, ha1, hb⟩ := hb
    have h2 := ih a1 b hb
    rw [h2]
    unfold lcsStep at ha1
    simp only [Option.bind_eq_bind, Option.bind_eq_some, Option.pure_def,
      Option.some.injEq] at ha1
    obtain ⟨w, hw, ha1⟩ := ha1
    have hwk := lcsWalk_keeps hw
    split at ha1
    · simp only [Option.some.injEq] at ha1
      rw [← ha1]
      exact hwk
    · simp only [Option.bind_eq_some, Option.some.injEq] at ha1
      obtain ⟨st, hst, j, hj, ha1⟩ := ha1
      rw [← ha1]
      exact hwk

theorem claim7_extend_frame_witness :
    ((⟨[⟨[('a', 1)], -1, 0⟩, ⟨[], 0, 1⟩], 1⟩ : SuffixAutomaton).states.length =
        initSAM.states.length + 1 ∨
     (⟨[⟨[('a', 1)], -1, 0⟩, ⟨[], 0, 1⟩], 1⟩ : SuffixAutomaton).states.length =
        initSAM.states.length + 2) :=
  (claim7_extend_frame (show extend 4 initSAM 'a' = some (⟨[⟨[('a', 1)], -1, 0⟩, ⟨[], 0, 1⟩], 1⟩ : SuffixAutomaton) from rfl)).1

theorem claim10_lcs_pure_witness :
    ((initSAM, 0) : SuffixAutomaton × Nat).1 = initSAM :=
  claim10_lcs_pure (A := initSAM) (t := ['a']) (r := (initSAM, 0)) rfl

/-! ### Walk and suffix toolbox -/

theorem walk_nil (sts : List State) (v : Nat) : walkFrom sts v [] = some v := rfl

theorem walk_cons (sts : List State) (v : Nat) (c : Char) (w : List Char) :
    walkFrom sts v (c :: w) =
      (sts[v]?).bind (fun st => (findTr st.next c).bind (fun j => walkFrom sts j w)) := by
  rw [walkFrom]
  simp [Option.bind_eq_bind]

theorem walk_cons_some {sts : List State} {v : Nat} {c : Char} {w : List Char} {u : Nat}
    (h : walkFrom sts v (c :: w) = some u) :
    ∃ st j, sts[v]? = some st ∧ findTr st.next c = some j ∧ walkFrom sts j w = some u := by
  rw [walk_cons] at h
  simp only [Option.bind_eq_some] at h
  obtain ⟨st, hst, j, hj, h⟩ := h
  exact ⟨st, j, hst, hj, h⟩

theorem walk_append (sts : List State) (v : Nat) (w₁ w₂ : List Char) :
    walkFrom sts v (w₁ ++ w₂) =
      (walkFrom sts v w₁).bind (fun u => walkFrom sts u w₂) := by
  induction w₁ generalizing v with
  | nil => simp [walk_nil]
  | cons c w₁ ih =>
    rw [List.cons_append, walk_cons, walk_cons]
    cases hst : sts[v]? with
    | none => simp
    | some st =>
      simp only [Option.some_bind]
      cases hj : findTr st.next c with
      | none => simp
      | some j => simp [ih j]

theorem walk_snoc_some {sts : List State} {v : Nat} {w : List Char} {c : Char} {u : Nat}
    (h : walkFrom sts v (w ++ [c]) = some u) :
    ∃ m st, walkFrom sts v w = some m ∧ sts[m]? = some st ∧ findTr st.next c = some u := by
  rw [walk_append] at h
  simp only [Option.bind_eq_some] at h
  obtain ⟨m, hm, h⟩ := h
  obtain ⟨st, j, hst, hj, h2⟩ := walk_cons_some h
  rw [walk_nil] at h2
  simp only [Option.some.injEq] at h2
  subst h2
  exact ⟨m, st, hm, hst, hj⟩

theorem walk_snoc_of {sts : List State} {v : Nat} {w : List Char} {c : Char} {m u : Nat}
    {st : State} (hm : walkFrom sts v w = some m) (hst : sts[m]? = some st)
    (hj : findTr st.next c = some u) : walkFrom sts v (w ++ [c]) = some u := by
  rw [walk_append, hm]
  rw [Option.some_bind, walk_cons, hst]
  simp [hj, walk_nil]

/-- Targets of all transitions are within the state list. -/
def EdgesLT (sts : List State) : Prop :=
  ∀ (i : Nat) (st : State) (c : Char) (j : Nat),
    sts[i]? = some st → findTr st.next c = some j → j < sts.length

theorem walk_lt {sts : List State} (hE : EdgesLT sts) {v : Nat} (hv : v < sts.length)
    {w : List Char} {u : Nat} (h : walkFrom sts v w = some u) : u < sts.length := by
  induction w generalizing v with
  | nil => rw [walk_nil] at h; simp only [Option.some.injEq] at h; omega
  | cons c w ih =>
    obtain ⟨st, j, hst, hj, h⟩ := walk_cons_some h
    exact ih (hE v st c j hst hj) h

/-- Appending a state does not change walks that start inside the old list. -/
theorem walk_append_state {sts : List State} (hE : EdgesLT sts) (st0 : State)
    {v : Nat} (hv : v < sts.length) (w : List Char) :
    walkFrom (sts ++ [st0]) v w = walkFrom sts v w := by
  induction w generalizing v with
  | nil => rfl
  | cons c w ih =>
    rw [walk_cons, walk_cons, List.getElem?_append_left hv]
    cases hst : sts[v]? with
    | none => rfl
    | some st =>
      simp only [Option.some_bind]
      cases hj : findTr st.next c with
      | none => rfl
      | some j =>
        simp only [Option.some_bind]
        exact ih (hE v st c j hst hj)

theorem takeSuffix_suffix (w : List Char) (m : Nat) : takeSuffix w m <:+ w :=
  List.drop_suffix _ _

theorem takeSuffix_length {w : List Char} {m : Nat} (h : m ≤ w.length) :
    (takeSuffix w m).length = m := by
  simp [takeSuffix]
  omega

theorem takeSuffix_all (w : List Char) : takeSuffix w w.length = w := by
  simp [takeSuffix]

theorem takeSuffix_zero (w : List Char) : takeSuffix w 0 = [] := by
  simp [takeSuffix]

theorem eq_takeSuffix_of_suffix {w' w : List Char} (h : w' <:+ w) :
    w' = takeSuffix w w'.length := by
  rw [List.suffix_iff_eq_drop] at h
  exact h

theorem takeSuffix_of_suffix {w' w : List Char} (h : w' <:+ w) {m : Nat}
    (hm : m ≤ w'.length) : takeSuffix w' m = takeSuffix w m := by
  have h1 : takeSuffix w' m <:+ w := (takeSuffix_suffix w' m).trans h
  have h2 := eq_takeSuffix_of_suffix h1
  rwa [takeSuffix_length hm] at h2

theorem takeSuffix_suffix_of_le {w : List Char} {m m' : Nat} (h : m ≤ m') :
    takeSuffix w m <:+ takeSuffix w m' := by
  by_cases hm' : m' ≤ w.length
  · have h1 : takeSuffix w m = takeSuffix (takeSuffix w m') m := by
      rw [takeSuffix_of_suffix (takeSuffix_suffix w m')]
      rw [takeSuffix_length hm']
      exact h
    rw [h1]
    exact takeSuffix_suffix _ _
  · have h2 : takeSuffix w m' = w := by
      unfold takeSuffix
      have h3 : w.length - m' = 0 := by omega
      rw [h3]
      rfl
    rw [h2]
    exact takeSuffix_suffix _ _

theorem takeSuffix_snoc {w : List Char} {m : Nat} (h : m ≤ w.length) (c : Char) :
    takeSuffix (w ++ [c]) (m + 1) = takeSuffix w m ++ [c] := by
  unfold takeSuffix
  have h1 : (w ++ [c]).length - (m + 1) = w.length - m := by
    simp
  rw [h1, List.drop_append_of_le_length (by omega)]

theorem suffix_snoc_iff {w' w : List Char} {c : Char} :
    w' <:+ w ++ [c] ↔ w' = [] ∨ ∃ w₀, w₀ <:+ w ∧ w' = w₀ ++ [c] := by
  constructor
  · intro h
    cases w' using List.reverseRecOn with
    | nil => exact Or.inl rfl
    | append_singleton w₀ a =>
      right
      obtain ⟨u, hu⟩ := h
      have ha : a = c := by
        have := congrArg (fun l => l.getLast? ) hu
        simpa using this
      subst ha
      refine ⟨w₀, ⟨u, ?_⟩, rfl⟩
      have := congrArg (fun l => l.dropLast) hu
      simpa using this
  · intro h
    rcases h with h | ⟨w₀, hw₀, h⟩
    · subst h; exact List.nil_suffix
    · subst h
      obtain ⟨u, hu⟩ := hw₀
      exact ⟨u, by rw [← List.append_assoc, hu]⟩

theorem infix_snoc_iff {w s : List Char} {c : Char} :
    w <:+: s ++ [c] ↔ w <:+: s ∨ w <:+ s ++ [c] := by
  constructor
  · intro h
    obtain ⟨x, y, hxy⟩ := h
    cases y using List.reverseRecOn with
    | nil =>
      right
      exact ⟨x, by simpa using hxy⟩
    | append_singleton y₀ a =>
      left
      have h1 : (x ++ w ++ y₀) ++ [a] = s ++ [c] := by
        rw [← hxy]
        simp
      have h2 : x ++ w ++ y₀ = s := by
        have := congrArg (fun l => l.dropLast) h1
        simpa using this
      exact ⟨x, y₀, h2⟩
  · intro h
    rcases h with h | h
    · exact h.trans (List.infix_append [] s [c])
    · exact h.isInfix

/-! ### The construction invariant

`Inv A s wit` says the automaton `A` is a correct suffix automaton for the
word `s`, with `wit i` the longest string of state `i`.  All the substantive
claims follow from preservation of this invariant under `extend`. -/

structure Inv (A : SuffixAutomaton) (s : List Char) (wit : Nat → List Char) : Prop where
  posLen : 0 < A.states.length
  zeroSt : ∀ st : State, A.states[0]? = some st → st.len = 0 ∧ st.link = -1
  linkValid : ∀ (i : Nat) (st : State), A.states[i]? = some st → i ≠ 0 →
    0 ≤ st.link ∧ st.link.toNat < A.states.length
  linkLt : ∀ (i : Nat) (st stl : State), A.states[i]? = some st → i ≠ 0 →
    A.states[st.link.toNat]? = some stl → stl.len < st.len
  edgeValid : EdgesLT A.states
  lenIdx : ∀ (i : Nat) (st : State), A.states[i]? = some st → st.len ≤ i
  lastValid : A.last < A.states.length
  lastReach : walkFrom A.states 0 s = some A.last
  lastLen : ∀ st : State, A.states[A.last]? = some st → st.len = s.length
  witReach : ∀ i : Nat, i < A.states.length → walkFrom A.states 0 (wit i) = some i
  witLen : ∀ (i : Nat) (st : State), A.states[i]? = some st → (wit i).length = st.len
  witIn : ∀ i : Nat, i < A.states.length → wit i <:+: s
  reachSuffix : ∀ (i : Nat) (w : List Char), walkFrom A.states 0 w = some i → w <:+ wit i
  reachMin : ∀ (i : Nat) (st stl : State) (w : List Char), A.states[i]? = some st → i ≠ 0 →
    A.states[st.link.toNat]? = some stl → walkFrom A.states 0 w = some i → stl.len < w.length
  reachFull : ∀ (i : Nat) (st stl : State) (w : List Char), A.states[i]? = some st → i ≠ 0 →
    A.states[st.link.toNat]? = some stl → w <:+ wit i → stl.len < w.length →
    walkFrom A.states 0 w = some i
  linkSem : ∀ (i : Nat) (st stl : State), A.states[i]? = some st → i ≠ 0 →
    A.states[st.link.toNat]? = some stl →
    walkFrom A.states 0 (takeSuffix (wit i) stl.len) = some st.link.toNat
  complete : ∀ w : List Char, w <:+: s → (walkFrom A.states 0 w).isSome
  nodupNext : ∀ (i : Nat) (st : State), A.states[i]? = some st →
    (st.next.map Prod.fst).Nodup

namespace Inv

variable {A : SuffixAutomaton} {s : List Char} {wit : Nat → List Char}

theorem reach_lt (hI : Inv A s wit) {w : List Char} {i : Nat}
    (h : walkFrom A.states 0 w = some i) : i < A.states.length :=
  walk_lt hI.edgeValid hI.posLen h

theorem zero_lt (hI : Inv A s wit) : (0 : Nat) < A.states.length := hI.posLen

theorem stAt (hI : Inv A s wit) {i : Nat} (h : i < A.states.length) :
    ∃ st : State, A.states[i]? = some st := by
  exact ⟨A.states[i], (List.getElem?_eq_getElem h)⟩

theorem wit_zero (hI : Inv A s wit) : wit 0 = [] := by
  obtain ⟨st0, h0⟩ := hI.stAt hI.posLen
  have h1 := hI.witLen 0 st0 h0
  rw [(hI.zeroSt st0 h0).1] at h1
  exact List.length_eq_zero.mp h1

theorem wit_last (hI : Inv A s wit) : wit A.last = s := by
  obtain ⟨stl, hl⟩ := hI.stAt hI.lastValid
  have h1 : s <:+ wit A.last := hI.reachSuffix A.last s hI.lastReach
  have h2 : (wit A.last).length = s.length := by
    rw [hI.witLen A.last stl hl, hI.lastLen stl hl]
  exact (h1.eq_of_length (h2.symm)).symm

theorem wit_link (hI : Inv A s wit) {i : Nat} {st stl : State}
    (hst : A.states[i]? = some st) (hi : i ≠ 0)
    (hstl : A.states[st.link.toNat]? = some stl) :
    wit st.link.toNat = takeSuffix (wit i) stl.len := by
  have h1 := hI.linkSem i st stl hst hi hstl
  have h2 : takeSuffix (wit i) stl.len <:+ wit st.link.toNat :=
    hI.reachSuffix _ _ h1
  have hlen : stl.len ≤ (wit i).length := by
    rw [hI.witLen i st hst]
    exact le_of_lt (hI.linkLt i st stl hst hi hstl)
  have h3 : (takeSuffix (wit i) stl.len).length = (wit st.link.toNat).length := by
    rw [takeSuffix_length hlen, hI.witLen _ stl hstl]
  exact (h2.eq_of_length h3).symm

/-- Every suffix of a state's longest string is accepted by the automaton. -/
theorem suffix_reach (hI : Inv A s wit) : ∀ (n : Nat) (i : Nat) (st : State),
    A.states[i]? = some st → st.len ≤ n → ∀ w : List Char, w <:+ wit i →
    (walkFrom A.states 0 w).isSome := by
  intro n
  induction n with
  | zero =>
    intro i st hst hn w hw
    -- st.len = 0 forces wit i = [] so w = []
    have h1 : (wit i).length = 0 := by
      rw [hI.witLen i st hst]
      omega
    rw [List.length_eq_zero.mp h1] at hw
    rw [List.suffix_nil.mp hw]
    simp [walk_nil]
  | succ n ih =>
    intro i st hst hn w hw
    by_cases hi : i = 0
    · subst hi
      have h1 : (wit 0).length = 0 := by rw [hI.wit_zero]; rfl
      rw [hI.wit_zero] at hw
      rw [List.suffix_nil.mp hw]
      simp [walk_nil]
    · obtain ⟨hl0, hl1⟩ := hI.linkValid i st hst hi
      obtain ⟨stl, hstl⟩ := hI.stAt hl1
      by_cases hlen : stl.len < w.length
      · rw [hI.reachFull i st stl w hst hi hstl hw hlen]
        rfl
      · -- w is a suffix of the link's longest string
        have hwl : w <:+ wit st.link.toNat := by
          rw [hI.wit_link hst hi hstl]
          have h2 : w = takeSuffix (wit i) w.length := eq_takeSuffix_of_suffix hw
          rw [h2]
          exact takeSuffix_suffix_of_le (by omega)
        refine ih st.link.toNat stl hstl ?_ w hwl
        have := hI.linkLt i st stl hst hi hstl
        omega

theorem suffix_reach' (hI : Inv A s wit) {i : Nat} {st : State}
    (hst : A.states[i]? = some st) {w : List Char} (hw : w <:+ wit i) :
    (walkFrom A.states 0 w).isSome :=
  hI.suffix_reach st.len i st hst (le_refl _) w hw

/-- The language of the automaton is contained in the substrings of `s`. -/
theorem reach_infix (hI : Inv A s wit) {w : List Char} {i : Nat}
    (h : walkFrom A.states 0 w = some i) : w <:+: s := by
  have h1 := hI.reachSuffix i w h
  have h2 := hI.witIn i (hI.reach_lt h)
  exact h1.isInfix.trans h2

end Inv

/-! ### Characterizing the first `extend` loop -/

/-- The `len` stored at an index (0 when out of bounds). -/
def lenAt (sts : List State) (j : Nat) : Nat := ((sts[j]?).map State.len).getD 0

/-- Suffix links below `n` are valid, `-1` at the root, and strictly
decrease `len`. -/
def LinkOk (sts : List State) (n : Nat) : Prop :=
  (∀ st : State, sts[0]? = some st → st.link = -1) ∧
  ∀ (i : Nat) (st : State), i < n → sts[i]? = some st → i ≠ 0 →
    0 ≤ st.link ∧ st.link.toNat < n ∧
    ∀ stl : State, sts[st.link.toNat]? = some stl → stl.len < st.len

/-- The abstract trace of the first `while` loop of `extend`: starting at
`p`, the loop visits `vis` (all lacking a `c`-transition) and stops at `p₀`
(either `-1` or the first suffix-link ancestor with a `c`-transition). -/
inductive SeekChain (sts : List State) (c : Char) : Int → List Nat → Int → Prop
  | stop_neg : SeekChain sts c (-1) [] (-1)
  | stop_found : ∀ (p : Int) (st : State), 0 ≤ p → sts[p.toNat]? = some st →
      (findTr st.next c).isSome → SeekChain sts c p [] p
  | step : ∀ (p : Int) (st : State) (vis : List Nat) (p₀ : Int), 0 ≤ p →
      sts[p.toNat]? = some st → findTr st.next c = none →
      SeekChain sts c st.link vis p₀ → SeekChain sts c p (p.toNat :: vis) p₀

theorem seekChain_neg {sts : List State} {c : Char} {vis : List Nat} {p₀ : Int}
    (h : SeekChain sts c (-1) vis p₀) : vis = [] ∧ p₀ = -1 := by
  cases h with
  | stop_neg => exact ⟨rfl, rfl⟩
  | stop_found p st hp => exact absurd hp (by norm_num)
  | step p st vis p₀ hp => exact absurd hp (by norm_num)

theorem seekChain_exists {sts : List State} {n : Nat} (hL : LinkOk sts n)
    (hn : n ≤ sts.length) (c : Char) :
    ∀ (fuelm : Nat) (p : Int),
      (p = -1 ∨ (0 ≤ p ∧ p.toNat < n ∧ lenAt sts p.toNat < fuelm)) →
      ∃ vis p₀, SeekChain sts c p vis p₀ ∧ vis.length ≤ fuelm := by
  intro fuelm
  induction fuelm with
  | zero =>
    intro p hp
    rcases hp with hp | ⟨h0, h1, h2⟩
    · subst hp
      exact ⟨[], -1, SeekChain.stop_neg, by simp⟩
    · omega
  | succ m ih =>
    intro p hp
    rcases hp with hp | ⟨h0, h1, h2⟩
    · subst hp
      exact ⟨[], -1, SeekChain.stop_neg, by simp⟩
    · have hlt : p.toNat < sts.length := lt_of_lt_of_le h1 hn
      obtain ⟨st, hst⟩ : ∃ st : State, sts[p.toNat]? = some st :=
        ⟨sts[p.toNat], List.getElem?_eq_getElem hlt⟩
      cases hf : findTr st.next c with
      | some j =>
        exact ⟨[], p, SeekChain.stop_found p st h0 hst (by simp [hf]), by simp⟩
      | none =>
        by_cases hz : p.toNat = 0
        · have hlk : st.link = -1 := by
            apply hL.1
            rw [← hz]
            exact hst
          obtain ⟨vis, p₀, hSC, hle⟩ := ih st.link (Or.inl hlk)
          exact ⟨p.toNat :: vis, p₀, SeekChain.step p st vis p₀ h0 hst hf hSC, by
            simp
            omega⟩
        · obtain ⟨hlk0, hlk1, hlk2⟩ := hL.2 p.toNat st h1 hst hz
          have hlt2 : st.link.toNat < sts.length := lt_of_lt_of_le hlk1 hn
          obtain ⟨stl, hstl⟩ : ∃ stl : State, sts[st.link.toNat]? = some stl :=
            ⟨sts[st.link.toNat], List.getElem?_eq_getElem hlt2⟩
          have hlen : lenAt sts st.link.toNat < m := by
            have h3 := hlk2 stl hstl
            have h4 : lenAt sts st.link.toNat = stl.len := by
              simp [lenAt, hstl]
            have h5 : lenAt sts p.toNat = st.len := by
              simp [lenAt, hst]
            omega
          obtain ⟨vis, p₀, hSC, hle⟩ := ih st.link (Or.inr ⟨hlk0, hlk1, hlen⟩)
          exact ⟨p.toNat :: vis, p₀, SeekChain.step p st vis p₀ h0 hst hf hSC, by
            simp
            omega⟩

theorem seekChain_props {sts : List State} {c : Char} {n : Nat} (hL : LinkOk sts n)
    (hn : n ≤ sts.length) :
    ∀ {p : Int} {vis : List Nat} {p₀ : Int}, SeekChain sts c p vis p₀ →
    (p = -1 ∨ (0 ≤ p ∧ p.toNat < n)) →
    (∀ e ∈ vis, e < n ∧ lenAt sts e ≤ lenAt sts p.toNat) ∧
    List.Pairwise (fun a b => lenAt sts b < lenAt sts a) vis ∧
    (p₀ = -1 ∨ (0 ≤ p₀ ∧ p₀.toNat < n)) ∧
    (0 ≤ p₀ → (∀ e ∈ vis, lenAt sts p₀.toNat < lenAt sts e) ∧
      lenAt sts p₀.toNat ≤ lenAt sts p.toNat) := by
  intro p vis p₀ hSC
  induction hSC with
  | stop_neg =>
    intro hp
    refine ⟨by simp, by simp, Or.inl rfl, ?_⟩
    intro h0
    exact absurd h0 (by norm_num)
  | stop_found p st hp0 hst hfind =>
    intro hp
    rcases hp with hp | hp
    · omega
    · exact ⟨by simp, by simp, Or.inr hp, fun _ => ⟨by simp, le_refl _⟩⟩
  | step p st vis p₀ hp0 hst hfind hSC ih =>
    intro hp
    rcases hp with hp | ⟨hge, hlt⟩
    · omega
    by_cases hz : p.toNat = 0
    · have hlk : st.link = -1 := by
        apply hL.1
        rw [← hz]
        exact hst
      rw [hlk] at hSC
      obtain ⟨hv, hP⟩ := seekChain_neg hSC
      subst hv
      subst hP
      refine ⟨?_, by simp, Or.inl rfl, ?_⟩
      · intro e he
        simp at he
        subst he
        exact ⟨hlt, le_refl _⟩
      · intro h0
        exact absurd h0 (by norm_num)
    · obtain ⟨hlk0, hlk1, hlk2⟩ := hL.2 p.toNat st hlt hst hz
      obtain ⟨stl, hstl⟩ : ∃ stl : State, sts[st.link.toNat]? = some stl :=
        ⟨sts[st.link.toNat], List.getElem?_eq_getElem (lt_of_lt_of_le hlk1 hn)⟩
      have hll : lenAt sts st.link.toNat < lenAt sts p.toNat := by
        have h3 := hlk2 stl hstl
        simp [lenAt, hstl, hst]
        exact h3
      obtain ⟨ih1, ih2, ih3, ih4⟩ := ih (Or.inr ⟨hlk0, hlk1⟩)
      refine ⟨?_, ?_, ih3, ?_⟩
      · intro e he
        rcases List.mem_cons.mp he with he | he
        · subst he
          exact ⟨hlt, le_refl _⟩
        · obtain ⟨he1, he2⟩ := ih1 e he
          exact ⟨he1, by omega⟩
      · rw [List.pairwise_cons]
        refine ⟨?_, ih2⟩
        intro e he
        obtain ⟨he1, he2⟩ := ih1 e he
        omega
      · intro h0
        obtain ⟨iha, ihb⟩ := ih4 h0
        refine ⟨?_, by omega⟩
        intro e he
        rcases List.mem_cons.mp he with he | he
        · subst he
          omega
        · exact iha e he

theorem addLoop_succ_neg {c : Char} {cur fuel : Nat} {cl : List State} :
    addLoop c cur (fuel + 1) cl (-1) = some (cl, -1) := by
  rw [addLoop]
  simp

theorem addLoop_succ_found {c : Char} {cur fuel : Nat} {cl : List State} {p : Int}
    {st : State} {j : Nat} (hp : ¬ p = -1) (hst : getSt cl p = some st)
    (hj : findTr st.next c = some j) :
    addLoop c cur (fuel + 1) cl p = some (cl, p) := by
  rw [addLoop, if_neg hp, hst]
  simp [hj]

theorem addLoop_succ_step {c : Char} {cur fuel : Nat} {cl : List State} {p : Int}
    {st : State} (hp : ¬ p = -1) (hst : getSt cl p = some st)
    (hj : findTr st.next c = none) :
    addLoop c cur (fuel + 1) cl p =
      addLoop c cur fuel (setSt cl p.toNat (fun s => { s with next := setTr s.next c cur }))
        st.link := by
  rw [addLoop, if_neg hp, hst]
  simp [hj]

theorem addLoop_run {c : Char} (cur : Nat) {base : List State} :
    ∀ {p : Int} {vis : List Nat} {p₀ : Int}, SeekChain base c p vis p₀ →
    ∀ {fuel : Nat}, vis.length < fuel →
    vis.Nodup → (0 ≤ p₀ → p₀.toNat ∉ vis) →
    ∀ {cl : List State}, cl.length = base.length →
    (∀ j : Nat, (j ∈ vis ∨ (0 ≤ p₀ ∧ p₀.toNat = j)) → cl[j]? = base[j]?) →
    ∃ sts2, addLoop c cur fuel cl p = some (sts2, p₀) ∧
      sts2.length = base.length ∧
      (∀ j : Nat, j ∉ vis → sts2[j]? = cl[j]?) ∧
      (∀ j : Nat, j ∈ vis → ∃ st : State, base[j]? = some st ∧ findTr st.next c = none ∧
        sts2[j]? = some { st with next := setTr st.next c cur }) := by
  intro p vis p₀ hSC
  induction hSC with
  | stop_neg =>
    intro fuel hfuel hnd hp₀ cl hcl hag
    match fuel, hfuel with
    | fuel + 1, _ =>
      exact ⟨cl, addLoop_succ_neg, hcl, fun j _ => rfl, fun j hj => absurd hj (by simp)⟩
  | stop_found p st hp0 hst hfind =>
    intro fuel hfuel hnd hp₀ cl hcl hag
    match fuel, hfuel with
    | fuel + 1, _ =>
      have hcl_p : getSt cl p = some st := by
        unfold getSt
        rw [if_pos hp0]
        rw [hag p.toNat (Or.inr ⟨hp0, rfl⟩)]
        exact hst
      obtain ⟨j, hj⟩ := Option.isSome_iff_exists.mp hfind
      exact ⟨cl, addLoop_succ_found (by omega) hcl_p hj, hcl, fun j _ => rfl,
        fun j hj => absurd hj (by simp)⟩
  | step p st vis p₀ hp0 hst hfind hSC ih =>
    intro fuel hfuel hnd hp₀ cl hcl hag
    match fuel, hfuel with
    | fuel + 1, hfuel =>
      have hcl_p : getSt cl p = some st := by
        unfold getSt
        rw [if_pos hp0]
        rw [hag p.toNat (Or.inl (List.mem_cons_self _ _))]
        exact hst
      have hnotv : p.toNat ∉ vis := (List.nodup_cons.mp hnd).1
      have hnd' : vis.Nodup := (List.nodup_cons.mp hnd).2
      have hp₀' : 0 ≤ p₀ → p₀.toNat ∉ vis := by
        intro h0
        have := hp₀ h0
        simp at this
        exact this.2
      set cl' := setSt cl p.toNat (fun s => { s with next := setTr s.next c cur }) with hcl'
      have hcl'len : cl'.length = base.length := by
        rw [hcl', length_setSt]
        exact hcl
      have hag' : ∀ j : Nat, (j ∈ vis ∨ (0 ≤ p₀ ∧ p₀.toNat = j)) → cl'[j]? = base[j]? := by
        intro j hj
        have hne : j ≠ p.toNat := by
          rcases hj with hj | ⟨h0, hj⟩
          · intro h
            subst h
            exact hnotv hj
          · intro h
            subst h
            have hmem := hp₀ h0
            rw [hj] at hmem
            exact hmem (List.mem_cons_self _ _)
        rw [hcl', setSt_getElem_ne _ hne]
        apply hag
        rcases hj with hj | hj
        · exact Or.inl (List.mem_cons_of_mem _ hj)
        · exact Or.inr hj
      have hfuel' : vis.length < fuel := by
        simp at hfuel
        omega
      obtain ⟨sts2, hrun, hlen2, hsame2, hmod2⟩ := ih hfuel' hnd' hp₀' hcl'len hag'
      refine ⟨sts2, ?_, hlen2, ?_, ?_⟩
      · rw [addLoop_succ_step (by omega) hcl_p hfind]
        exact hrun
      · intro j hj
        have hj1 : j ∉ vis := fun h => hj (List.mem_cons_of_mem _ h)
        have hj2 : j ≠ p.toNat := fun h => hj (h ▸ List.mem_cons_self _ _)
        rw [hsame2 j hj1, hcl', setSt_getElem_ne _ hj2]
      · intro j hj
        rcases List.mem_cons.mp hj with hj | hj
        · subst hj
          refine ⟨st, hst, hfind, ?_⟩
          rw [hsame2 _ hnotv, hcl']
          have hclst : cl[p.toNat]? = some st := by
            rw [hag p.toNat (Or.inl (List.mem_cons_self _ _))]
            exact hst
          exact setSt_getElem_self hclst _
        · exact hmod2 j hj

/-! ### Characterizing the second (redirect) `extend` loop -/

/-- Abstract trace of the redirect loop: visits `vis` (all with `c`-edge to
`q`), stops at the first ancestor without such an edge (or `-1`). -/
inductive RedirChain (sts : List State) (c : Char) (q : Nat) : Int → List Nat → Int → Prop
  | stop_neg : RedirChain sts c q (-1) [] (-1)
  | stop_other : ∀ (p : Int) (st : State), 0 ≤ p → sts[p.toNat]? = some st →
      ¬ findTr st.next c = some q → RedirChain sts c q p [] p
  | step : ∀ (p : Int) (st : State) (vis : List Nat) (p₀ : Int), 0 ≤ p →
      sts[p.toNat]? = some st → findTr st.next c = some q →
      RedirChain sts c q st.link vis p₀ → RedirChain sts c q p (p.toNat :: vis) p₀

theorem redirChain_neg {sts : List State} {c : Char} {q : Nat} {vis : List Nat} {p₀ : Int}
    (h : RedirChain sts c q (-1) vis p₀) : vis = [] ∧ p₀ = -1 := by
  cases h with
  | stop_neg => exact ⟨rfl, rfl⟩
  | stop_other p st hp => exact absurd hp (by norm_num)
  | step p st vis p₀ hp => exact absurd hp (by norm_num)

theorem redirChain_exists {sts : List State} {n : Nat} (hL : LinkOk sts n)
    (hn : n ≤ sts.length) (c : Char) (q : Nat) :
    ∀ (fuelm : Nat) (p : Int),
      (p = -1 ∨ (0 ≤ p ∧ p.toNat < n ∧ lenAt sts p.toNat < fuelm)) →
      ∃ vis p₀, RedirChain sts c q p vis p₀ ∧ vis.length ≤ fuelm := by
  intro fuelm
  induction fuelm with
  | zero =>
    intro p hp
    rcases hp with hp | ⟨h0, h1, h2⟩
    · subst hp
      exact ⟨[], -1, RedirChain.stop_neg, by simp⟩
    · omega
  | succ m ih =>
    intro p hp
    rcases hp with hp | ⟨h0, h1, h2⟩
    · subst hp
      exact ⟨[], -1, RedirChain.stop_neg, by simp⟩
    · have hlt : p.toNat < sts.length := lt_of_lt_of_le h1 hn
      obtain ⟨st, hst⟩ : ∃ st : State, sts[p.toNat]? = some st :=
        ⟨sts[p.toNat], List.getElem?_eq_getElem hlt⟩
      by_cases hf : findTr st.next c = some q
      · by_cases hz : p.toNat = 0
        · have hlk : st.link = -1 := by
            apply hL.1
            rw [← hz]
            exact hst
          obtain ⟨vis, p₀, hRC, hle⟩ := ih st.link (Or.inl hlk)
          exact ⟨p.toNat :: vis, p₀, RedirChain.step p st vis p₀ h0 hst hf hRC, by
            simp
            omega⟩
        · obtain ⟨hlk0, hlk1, hlk2⟩ := hL.2 p.toNat st h1 hst hz
          obtain ⟨stl, hstl⟩ : ∃ stl : State, sts[st.link.toNat]? = some stl :=
            ⟨sts[st.link.toNat], List.getElem?_eq_getElem (lt_of_lt_of_le hlk1 hn)⟩
          have hlen : lenAt sts st.link.toNat < m := by
            have h3 := hlk2 stl hstl
            have h4 : lenAt sts st.link.toNat = stl.len := by simp [lenAt, hstl]
            have h5 : lenAt sts p.toNat = st.len := by simp [lenAt, hst]
            omega
          obtain ⟨vis, p₀, hRC, hle⟩ := ih st.link (Or.inr ⟨hlk0, hlk1, hlen⟩)
          exact ⟨p.toNat :: vis, p₀, RedirChain.step p st vis p₀ h0 hst hf hRC, by
            simp
            omega⟩
      · exact ⟨[], p, RedirChain.stop_other p st h0 hst hf, by simp⟩

theorem redirChain_props {sts : List State} {c : Char} {q : Nat} {n : Nat} (hL : LinkOk sts n)
    (hn : n ≤ sts.length) :
    ∀ {p : Int} {vis : List Nat} {p₀ : Int}, RedirChain sts c q p vis p₀ →
    (p = -1 ∨ (0 ≤ p ∧ p.toNat < n)) →
    (∀ e ∈ vis, e < n ∧ lenAt sts e ≤ lenAt sts p.toNat) ∧
    List.Pairwise (fun a b => lenAt sts b < lenAt sts a) vis ∧
    (p₀ = -1 ∨ (0 ≤ p₀ ∧ p₀.toNat < n)) ∧
    (0 ≤ p₀ → (∀ e ∈ vis, lenAt sts p₀.toNat < lenAt sts e) ∧
      lenAt sts p₀.toNat ≤ lenAt sts p.toNat) := by
  intro p vis p₀ hRC
  induction hRC with
  | stop_neg =>
    intro hp
    refine ⟨by simp, by simp, Or.inl rfl, ?_⟩
    intro h0
    exact absurd h0 (by norm_num)
  | stop_other p st hp0 hst hfind =>
    intro hp
    rcases hp with hp | hp
    · omega
    · exact ⟨by simp, by simp, Or.inr hp, fun _ => ⟨by simp, le_refl _⟩⟩
  | step p st vis p₀ hp0 hst hfind hRC ih =>
    intro hp
    rcases hp with hp | ⟨hge, hlt⟩
    · omega
    by_cases hz : p.toNat = 0
    · have hlk : st.link = -1 := by
        apply hL.1
        rw [← hz]
        exact hst
      rw [hlk] at hRC
      obtain ⟨hv, hP⟩ := redirChain_neg hRC
      subst hv
      subst hP
      refine ⟨?_, by simp, Or.inl rfl, ?_⟩
      · intro e he
        simp at he
        subst he
        exact ⟨hlt, le_refl _⟩
      · intro h0
        exact absurd h0 (by norm_num)
    · obtain ⟨hlk0, hlk1, hlk2⟩ := hL.2 p.toNat st hlt hst hz
      obtain ⟨stl, hstl⟩ : ∃ stl : State, sts[st.link.toNat]? = some stl :=
        ⟨sts[st.link.toNat], List.getElem?_eq_getElem (lt_of_lt_of_le hlk1 hn)⟩
      have hll : lenAt sts st.link.toNat < lenAt sts p.toNat := by
        have h3 := hlk2 stl hstl
        simp [lenAt, hstl, hst]
        exact h3
      obtain ⟨ih1, ih2, ih3, ih4⟩ := ih (Or.inr ⟨hlk0, hlk1⟩)
      refine ⟨?_, ?_, ih3, ?_⟩
      · intro e he
        rcases List.mem_cons.mp he with he | he
        · subst he
          exact ⟨hlt, le_refl _⟩
        · obtain ⟨he1, he2⟩ := ih1 e he
          exact ⟨he1, by omega⟩
      · rw [List.pairwise_cons]
        refine ⟨?_, ih2⟩
        intro e he
        obtain ⟨he1, he2⟩ := ih1 e he
        omega
      · intro h0
        obtain ⟨iha, ihb⟩ := ih4 h0
        refine ⟨?_, by omega⟩
        intro e he
        rcases List.mem_cons.mp he with he | he
        · subst he
          omega
        · exact iha e he

theorem redirectLoop_succ_neg {c : Char} {q clone fuel : Nat} {cl : List State} :
    redirectLoop c q clone (fuel + 1) cl (-1) = some (cl, -1) := by
  rw [redirectLoop]
  simp

theorem redirectLoop_succ_other {c : Char} {q clone fuel : Nat} {cl : List State} {p : Int}
    {st : State} (hp : ¬ p = -1) (hst : getSt cl p = some st)
    (hj : ¬ findTr st.next c = some q) :
    redirectLoop c q clone (fuel + 1) cl p = some (cl, p) := by
  rw [redirectLoop, if_neg hp, hst]
  simp [hj]

theorem redirectLoop_succ_step {c : Char} {q clone fuel : Nat} {cl : List State} {p : Int}
    {st : State} (hp : ¬ p = -1) (hst : getSt cl p = some st)
    (hj : findTr st.next c = some q) :
    redirectLoop c q clone (fuel + 1) cl p =
      redirectLoop c q clone fuel
        (setSt cl p.toNat (fun s => { s with next := setTr s.next c clone })) st.link := by
  rw [redirectLoop, if_neg hp, hst]
  simp [hj]

theorem redirectLoop_run {c : Char} {q : Nat} (clone : Nat) {base : List State} :
    ∀ {p : Int} {vis : List Nat} {p₀ : Int}, RedirChain base c q p vis p₀ →
    ∀ {fuel : Nat}, vis.length < fuel →
    vis.Nodup → (0 ≤ p₀ → p₀.toNat ∉ vis) →
    ∀ {cl : List State}, cl.length = base.length →
    (∀ j : Nat, (j ∈ vis ∨ (0 ≤ p₀ ∧ p₀.toNat = j)) → cl[j]? = base[j]?) →
    ∃ sts2, redirectLoop c q clone fuel cl p = some (sts2, p₀) ∧
      sts2.length = base.length ∧
      (∀ j : Nat, j ∉ vis → sts2[j]? = cl[j]?) ∧
      (∀ j : Nat, j ∈ vis → ∃ st : State, base[j]? = some st ∧ findTr st.next c = some q ∧
        sts2[j]? = some { st with next := setTr st.next c clone }) := by
  intro p vis p₀ hRC
  induction hRC with
  | stop_neg =>
    intro fuel hfuel hnd hp₀ cl hcl hag
    match fuel, hfuel with
    | fuel + 1, _ =>
      exact ⟨cl, redirectLoop_succ_neg, hcl, fun j _ => rfl, fun j hj => absurd hj (by simp)⟩
  | stop_other p st hp0 hst hfind =>
    intro fuel hfuel hnd hp₀ cl hcl hag
    match fuel, hfuel with
    | fuel + 1, _ =>
      have hcl_p : getSt cl p = some st := by
        unfold getSt
        rw [if_pos hp0]
        rw [hag p.toNat (Or.inr ⟨hp0, rfl⟩)]
        exact hst
      exact ⟨cl, redirectLoop_succ_other (by omega) hcl_p hfind, hcl, fun j _ => rfl,
        fun j hj => absurd hj (by simp)⟩
  | step p st vis p₀ hp0 hst hfind hRC ih =>
    intro fuel hfuel hnd hp₀ cl hcl hag
    match fuel, hfuel with
    | fuel + 1, hfuel =>
      have hcl_p : getSt cl p = some st := by
        unfold getSt
        rw [if_pos hp0]
        rw [hag p.toNat (Or.inl (List.mem_cons_self _ _))]
        exact hst
      have hnotv : p.toNat ∉ vis := (List.nodup_cons.mp hnd).1
      have hnd' : vis.Nodup := (List.nodup_cons.mp hnd).2
      have hp₀' : 0 ≤ p₀ → p₀.toNat ∉ vis := by
        intro h0
        have := hp₀ h0
        simp at this
        exact this.2
      set cl' := setSt cl p.toNat (fun s => { s with next := setTr s.next c clone }) with hcl'
      have hcl'len : cl'.length = base.length := by
        rw [hcl', length_setSt]
        exact hcl
      have hag' : ∀ j : Nat, (j ∈ vis ∨ (0 ≤ p₀ ∧ p₀.toNat = j)) → cl'[j]? = base[j]? := by
        intro j hj
        have hne : j ≠ p.toNat := by
          rcases hj with hj | ⟨h0, hj⟩
          · intro h
            subst h
            exact hnotv hj
          · intro h
            subst h
            have hmem := hp₀ h0
            rw [hj] at hmem
            exact hmem (List.mem_cons_self _ _)
        rw [hcl', setSt_getElem_ne _ hne]
        apply hag
        rcases hj with hj | hj
        · exact Or.inl (List.mem_cons_of_mem _ hj)
        · exact Or.inr hj
      have hfuel' : vis.length < fuel := by
        simp at hfuel
        omega
      obtain ⟨sts2, hrun, hlen2, hsame2, hmod2⟩ := ih hfuel' hnd' hp₀' hcl'len hag'
      refine ⟨sts2, ?_, hlen2, ?_, ?_⟩
      · rw [redirectLoop_succ_step (by omega) hcl_p hfind]
        exact hrun
      · intro j hj
        have hj1 : j ∉ vis := fun h => hj (List.mem_cons_of_mem _ h)
        have hj2 : j ≠ p.toNat := fun h => hj (h ▸ List.mem_cons_self _ _)
        rw [hsame2 j hj1, hcl', setSt_getElem_ne _ hj2]
      · intro j hj
        rcases List.mem_cons.mp hj with hj | hj
        · subst hj
          refine ⟨st, hst, hfind, ?_⟩
          rw [hsame2 _ hnotv, hcl']
          have hclst : cl[p.toNat]? = some st := by
            rw [hag p.toNat (Or.inl (List.mem_cons_self _ _))]
            exact hst
          exact setSt_getElem_self hclst _
        · exact hmod2 j hj

/-! ### Walks after adding edges into a fresh sink (first loop) -/

/-- `mod` is `base` with a `c`-edge to the edgeless, in-edgeless state `cur`
added at each state in `vis`. -/
structure SinkAdd (base mod : List State) (c : Char) (cur : Nat) (vis : List Nat) : Prop where
  hlen : mod.length = base.length
  hsame : ∀ j : Nat, j ∉ vis → mod[j]? = base[j]?
  hmod : ∀ j ∈ vis, ∃ st : State, base[j]? = some st ∧ findTr st.next c = none ∧
    mod[j]? = some { st with next := setTr st.next c cur }
  hsink : ∃ sk : State, base[cur]? = some sk ∧ sk.next = []
  hNoIn : ∀ (i : Nat) (st : State) (a : Char) (j : Nat), base[i]? = some st →
    findTr st.next a = some j → j ≠ cur
  hcurNin : cur ∉ vis

namespace SinkAdd

variable {base mod : List State} {c : Char} {cur : Nat} {vis : List Nat}

theorem preserve (H : SinkAdd base mod c cur vis) :
    ∀ (w : List Char) (v u : Nat), walkFrom base v w = some u → walkFrom mod v w = some u := by
  intro w
  induction w with
  | nil => intro v u h; exact h
  | cons a w ih =>
    intro v u h
    obtain ⟨st, j, hst, hj, h⟩ := walk_cons_some h
    by_cases hv : v ∈ vis
    · obtain ⟨st', hst', hnone, hmodv⟩ := H.hmod v hv
      rw [hst] at hst'
      simp only [Option.some.injEq] at hst'
      subst hst'
      have ha : a ≠ c := by
        intro h'
        subst h'
        rw [hnone] at hj
        cases hj
      rw [walk_cons, hmodv]
      simp only [Option.some_bind]
      rw [findTr_setTr_ne _ _ ha, hj]
      simp only [Option.some_bind]
      exact ih j u h
    · rw [walk_cons, H.hsame v hv, hst]
      simp only [Option.some_bind]
      rw [hj]
      simp only [Option.some_bind]
      exact ih j u h

theorem target_ne (H : SinkAdd base mod c cur vis) :
    ∀ (w : List Char) (v u : Nat), v ≠ cur → walkFrom base v w = some u → u ≠ cur := by
  intro w
  induction w with
  | nil =>
    intro v u hv h
    rw [walk_nil] at h
    simp only [Option.some.injEq] at h
    omega
  | cons a w ih =>
    intro v u hv h
    obtain ⟨st, j, hst, hj, h⟩ := walk_cons_some h
    exact ih j u (H.hNoIn v st a j hst hj) h

theorem into_sink (H : SinkAdd base mod c cur vis) {v e : Nat} {w₁ : List Char}
    (he : e ∈ vis) (hw : walkFrom base v w₁ = some e) :
    walkFrom mod v (w₁ ++ [c]) = some cur := by
  have h1 := H.preserve w₁ v e hw
  obtain ⟨st, hst, hnone, hmodv⟩ := H.hmod e he
  exact walk_snoc_of h1 hmodv (by simp [findTr_setTr_self])

theorem reflect (H : SinkAdd base mod c cur vis) :
    ∀ (w : List Char) (v u : Nat), v ≠ cur → walkFrom mod v w = some u →
      walkFrom base v w = some u ∨
      (u = cur ∧ ∃ w₁ e, e ∈ vis ∧ walkFrom base v w₁ = some e ∧ w = w₁ ++ [c]) := by
  intro w
  induction w with
  | nil =>
    intro v u hv h
    exact Or.inl h
  | cons a w ih =>
    intro v u hv h
    obtain ⟨st₂, j, hst₂, hj, h⟩ := walk_cons_some h
    by_cases hvv : v ∈ vis
    · obtain ⟨st, hst, hnone, hmodv⟩ := H.hmod v hvv
      rw [hmodv] at hst₂
      simp only [Option.some.injEq] at hst₂
      subst hst₂
      by_cases hac : a = c
      · subst hac
        rw [findTr_setTr_self] at hj
        simp only [Option.some.injEq] at hj
        subst hj
        -- we stepped into the sink; the walk can only stop here
        obtain ⟨sk, hsk, hsknil⟩ := H.hsink
        have hskm : mod[cur]? = some sk := by
          rw [H.hsame cur H.hcurNin]
          exact hsk
        cases w with
        | nil =>
          rw [walk_nil] at h
          simp only [Option.some.injEq] at h
          subst h
          exact Or.inr ⟨rfl, [], v, hvv, walk_nil _ _, rfl⟩
        | cons b w' =>
          obtain ⟨stc, j', hstc, hj', h⟩ := walk_cons_some h
          rw [hskm] at hstc
          simp only [Option.some.injEq] at hstc
          subst hstc
          rw [hsknil] at hj'
          cases hj'
      · rw [findTr_setTr_ne _ _ hac] at hj
        have hjne : j ≠ cur := H.hNoIn v st a j hst hj
        rcases ih j u hjne h with h1 | ⟨h1, w₁, e, he, hwe, hw⟩
        · refine Or.inl ?_
          rw [walk_cons, hst]
          simp only [Option.some_bind]
          rw [hj]
          simp only [Option.some_bind]
          exact h1
        · subst hw
          exact Or.inr ⟨h1, a :: w₁, e, he, by
            rw [walk_cons, hst]
            simp only [Option.some_bind]
            rw [hj]
            simp only [Option.some_bind]
            exact hwe, rfl⟩
    · rw [H.hsame v hvv] at hst₂
      have hjne : j ≠ cur := H.hNoIn v st₂ a j hst₂ hj
      rcases ih j u hjne h with h1 | ⟨h1, w₁, e, he, hwe, hw⟩
      · refine Or.inl ?_
        rw [walk_cons, hst₂]
        simp only [Option.some_bind]
        rw [hj]
        simp only [Option.some_bind]
        exact h1
      · subst hw
        refine Or.inr ⟨h1, a :: w₁, e, he, ?_, rfl⟩
        rw [walk_cons, hst₂]
        simp only [Option.some_bind]
        rw [hj]
        simp only [Option.some_bind]
        exact hwe

/-- Complete characterization of walks ending in the sink. -/
theorem sink_iff (H : SinkAdd base mod c cur vis) {v : Nat} (hv : v ≠ cur) (w : List Char) :
    walkFrom mod v w = some cur ↔
      ∃ w₁ e, e ∈ vis ∧ walkFrom base v w₁ = some e ∧ w = w₁ ++ [c] := by
  constructor
  · intro h
    rcases H.reflect w v cur hv h with h1 | ⟨h1, w₁, e, he, hwe, hw⟩
    · exact absurd rfl (H.target_ne w v cur hv h1)
    · exact ⟨w₁, e, he, hwe, hw⟩
  · intro ⟨w₁, e, he, hwe, hw⟩
    subst hw
    exact H.into_sink he hwe

/-- Walks not ending in the sink are exactly the old walks. -/
theorem old_iff (H : SinkAdd base mod c cur vis) {v u : Nat} (hv : v ≠ cur) (hu : u ≠ cur)
    (w : List Char) : walkFrom mod v w = some u ↔ walkFrom base v w = some u := by
  constructor
  · intro h
    rcases H.reflect w v u hv h with h1 | ⟨h1, _⟩
    · exact h1
    · exact absurd h1 hu
  · exact H.preserve w v u

end SinkAdd

/-! ### Walks after cloning `q` and redirecting chain edges (second loop) -/

/-- `mod` is `base` with the `c`-edges of the states in `vis` (all pointing
to `q`) redirected to `clone`, where `clone` has the same outgoing edges as
`q` and no incoming edges. -/
structure CloneRedir (base mod : List State) (c : Char) (q clone : Nat) (vis : List Nat) : Prop where
  hlen : mod.length = base.length
  hsame : ∀ j : Nat, j ∉ vis → mod[j]? = base[j]?
  hmod : ∀ j ∈ vis, ∃ st : State, base[j]? = some st ∧ findTr st.next c = some q ∧
    mod[j]? = some { st with next := setTr st.next c clone }
  hclone : ∃ cst qst : State, base[clone]? = some cst ∧ base[q]? = some qst ∧
    cst.next = qst.next
  hNoInClone : ∀ (i : Nat) (st : State) (a : Char) (j : Nat), base[i]? = some st →
    findTr st.next a = some j → j ≠ clone
  hqNin : q ∉ vis
  hcloneNin : clone ∉ vis
  hqne : q ≠ clone

namespace CloneRedir

variable {base mod : List State} {c : Char} {q clone : Nat} {vis : List Nat}

theorem clone_step (H : CloneRedir base mod c q clone vis) (a : Char) (w : List Char) :
    walkFrom mod clone (a :: w) = walkFrom mod q (a :: w) := by
  obtain ⟨cst, qst, hcst, hqst, hnext⟩ := H.hclone
  rw [walk_cons, walk_cons, H.hsame clone H.hcloneNin, H.hsame q H.hqNin, hcst, hqst]
  simp only [Option.some_bind]
  rw [hnext]

theorem preserveC (H : CloneRedir base mod c q clone vis) :
    ∀ (w : List Char) (v u : Nat), walkFrom base v w = some u →
      ∃ u', walkFrom mod v w = some u' ∧ (u' = u ∨ (u = q ∧ u' = clone)) := by
  intro w
  induction w with
  | nil =>
    intro v u h
    exact ⟨u, h, Or.inl rfl⟩
  | cons a w ih =>
    intro v u h
    obtain ⟨st, j, hst, hj, h⟩ := walk_cons_some h
    by_cases hv : v ∈ vis
    · obtain ⟨st', hst', hcq, hmodv⟩ := H.hmod v hv
      rw [hst] at hst'
      simp only [Option.some.injEq] at hst'
      subst hst'
      by_cases hac : a = c
      · subst hac
        rw [hcq] at hj
        simp only [Option.some.injEq] at hj
        subst hj
        cases w with
        | nil =>
          rw [walk_nil] at h
          simp only [Option.some.injEq] at h
          subst h
          refine ⟨clone, ?_, Or.inr ⟨rfl, rfl⟩⟩
          rw [walk_cons, hmodv]
          simp only [Option.some_bind]
          rw [findTr_setTr_self]
          simp [walk_nil]
        | cons b w' =>
          obtain ⟨u', hu', hmerge⟩ := ih q u h
          refine ⟨u', ?_, hmerge⟩
          rw [walk_cons, hmodv]
          simp only [Option.some_bind]
          rw [findTr_setTr_self]
          simp only [Option.some_bind]
          rw [H.clone_step b w']
          exact hu'
      · rw [walk_cons, hmodv]
        simp only [Option.some_bind]
        rw [findTr_setTr_ne _ _ hac, hj]
        simp only [Option.some_bind]
        exact ih j u h
    · obtain ⟨u', hu', hmerge⟩ := ih j u h
      refine ⟨u', ?_, hmerge⟩
      rw [walk_cons, H.hsame v hv, hst]
      simp only [Option.some_bind]
      rw [hj]
      simp only [Option.some_bind]
      exact hu'

theorem reflectC (H : CloneRedir base mod c q clone vis) :
    ∀ (w : List Char) (v u' : Nat), walkFrom mod v w = some u' →
      ∃ u, walkFrom base v w = some u ∧ (u = u' ∨ (u' = clone ∧ u = q)) := by
  intro w
  induction w with
  | nil =>
    intro v u' h
    exact ⟨u', h, Or.inl rfl⟩
  | cons a w ih =>
    intro v u' h
    obtain ⟨st₂, j, hst₂, hj, h⟩ := walk_cons_some h
    by_cases hv : v ∈ vis
    · obtain ⟨st, hst, hcq, hmodv⟩ := H.hmod v hv
      rw [hmodv] at hst₂
      simp only [Option.some.injEq] at hst₂
      subst hst₂
      by_cases hac : a = c
      · subst hac
        rw [findTr_setTr_self] at hj
        simp only [Option.some.injEq] at hj
        subst hj
        cases w with
        | nil =>
          rw [walk_nil] at h
          simp only [Option.some.injEq] at h
          subst h
          refine ⟨q, ?_, Or.inr ⟨rfl, rfl⟩⟩
          rw [walk_cons, hst]
          simp only [Option.some_bind]
          rw [hcq]
          simp [walk_nil]
        | cons b w' =>
          rw [H.clone_step b w'] at h
          obtain ⟨u, hu, hmerge⟩ := ih q u' h
          refine ⟨u, ?_, hmerge⟩
          rw [walk_cons, hst]
          simp only [Option.some_bind]
          rw [hcq]
          simp only [Option.some_bind]
          exact hu
      · rw [findTr_setTr_ne _ _ hac] at hj
        obtain ⟨u, hu, hmerge⟩ := ih j u' h
        refine ⟨u, ?_, hmerge⟩
        rw [walk_cons, hst]
        simp only [Option.some_bind]
        rw [hj]
        simp only [Option.some_bind]
        exact hu
    · rw [H.hsame v hv] at hst₂
      obtain ⟨u, hu, hmerge⟩ := ih j u' h
      refine ⟨u, ?_, hmerge⟩
      rw [walk_cons, hst₂]
      simp only [Option.some_bind]
      rw [hj]
      simp only [Option.some_bind]
      exact hu

theorem old_iffC (H : CloneRedir base mod c q clone vis) {v u : Nat} (hu_q : u ≠ q)
    (hu_c : u ≠ clone) (w : List Char) :
    walkFrom mod v w = some u ↔ walkFrom base v w = some u := by
  constructor
  · intro h
    obtain ⟨u₀, hu₀, hmerge⟩ := H.reflectC w v u h
    rcases hmerge with h1 | ⟨h1, h2⟩
    · rw [h1] at hu₀
      exact hu₀
    · exact absurd h1 hu_c
  · intro h
    obtain ⟨u', hu', hmerge⟩ := H.preserveC w v u h
    rcases hmerge with h1 | ⟨h1, h2⟩
    · rw [← h1]
      exact hu'
    · exact absurd h1 hu_q

theorem isSome_iff (H : CloneRedir base mod c q clone vis) (v : Nat) (w : List Char) :
    (walkFrom mod v w).isSome ↔ (walkFrom base v w).isSome := by
  constructor
  · intro h
    obtain ⟨u', hu'⟩ := Option.isSome_iff_exists.mp h
    obtain ⟨u, hu, _⟩ := H.reflectC w v u' hu'
    simp [hu]
  · intro h
    obtain ⟨u, hu⟩ := Option.isSome_iff_exists.mp h
    obtain ⟨u', hu', _⟩ := H.preserveC w v u hu
    simp [hu']

theorem into_clone_of (H : CloneRedir base mod c q clone vis) {v e : Nat} {w₁ : List Char}
    (he : e ∈ vis) (hw : walkFrom base v w₁ = some e) :
    walkFrom mod v (w₁ ++ [c]) = some clone := by
  have heq : e ≠ q := fun h => H.hqNin (h ▸ he)
  obtain ⟨u', hu', hmerge⟩ := H.preserveC w₁ v e hw
  have hu'e : u' = e := by
    rcases hmerge with h1 | ⟨h1, h2⟩
    · exact h1
    · exact absurd h1 heq
  subst hu'e
  obtain ⟨st, hst, hcq, hmodv⟩ := H.hmod u' he
  exact walk_snoc_of hu' hmodv (by simp [findTr_setTr_self])

theorem into_clone_decomp (H : CloneRedir base mod c q clone vis) {v : Nat} {w : List Char}
    (hvc : v ≠ clone) (h : walkFrom mod v w = some clone) :
    ∃ w₁ e, e ∈ vis ∧ walkFrom base v w₁ = some e ∧ w = w₁ ++ [c] := by
  cases w using List.reverseRecOn with
  | nil =>
    rw [walk_nil] at h
    simp only [Option.some.injEq] at h
    exact absurd h hvc
  | append_singleton w₁ a =>
    obtain ⟨m, stm, hm, hstm, hedge⟩ := walk_snoc_some h
    by_cases hmv : m ∈ vis
    · obtain ⟨st, hst, hcq, hmodv⟩ := H.hmod m hmv
      rw [hmodv] at hstm
      simp only [Option.some.injEq] at hstm
      subst hstm
      by_cases hac : a = c
      · subst hac
        obtain ⟨u, hu, hmerge⟩ := H.reflectC w₁ v m hm
        have hum : u = m := by
          rcases hmerge with h1 | ⟨h1, h2⟩
          · exact h1
          · exact absurd h1 (fun hh => H.hcloneNin (hh ▸ hmv))
        subst hum
        exact ⟨w₁, u, hmv, hu, rfl⟩
      · rw [findTr_setTr_ne _ _ hac] at hedge
        exact absurd rfl (H.hNoInClone m st a clone hst hedge)
    · rw [H.hsame m hmv] at hstm
      exact absurd rfl (H.hNoInClone m stm a clone hstm hedge)

theorem into_q_decomp (H : CloneRedir base mod c q clone vis) {v : Nat} {w : List Char}
    (h : walkFrom mod v w = some q) :
    walkFrom base v w = some q ∧
    (w = [] ∨ ∃ w₁ a m stm, w = w₁ ++ [a] ∧ walkFrom base v w₁ = some m ∧
      base[m]? = some stm ∧ findTr stm.next a = some q ∧ ¬(m ∈ vis ∧ a = c)) := by
  obtain ⟨u, hu, hmerge⟩ := H.reflectC w v q h
  have huq : u = q := by
    rcases hmerge with h1 | ⟨h1, h2⟩
    · exact h1
    · exact absurd h1 H.hqne
  rw [huq] at hu
  refine ⟨hu, ?_⟩
  cases w using List.reverseRecOn with
  | nil => exact Or.inl rfl
  | append_singleton w₁ a =>
    right
    obtain ⟨m', stm', hm', hstm', hedge'⟩ := walk_snoc_some h
    by_cases hmv : m' ∈ vis
    · obtain ⟨st, hst, hcq, hmodv⟩ := H.hmod m' hmv
      rw [hmodv] at hstm'
      simp only [Option.some.injEq] at hstm'
      subst hstm'
      by_cases hac : a = c
      · subst hac
        rw [findTr_setTr_self] at hedge'
        simp only [Option.some.injEq] at hedge'
        exact absurd hedge' (Ne.symm H.hqne)
      · rw [findTr_setTr_ne _ _ hac] at hedge'
        obtain ⟨u, hu2, hmerge2⟩ := H.reflectC w₁ v m' hm'
        have hum : u = m' := by
          rcases hmerge2 with h1 | ⟨h1, h2⟩
          · exact h1
          · exact absurd h1 (fun hh => H.hcloneNin (hh ▸ hmv))
        subst hum
        exact ⟨w₁, a, u, st, rfl, hu2, hst, hedge', fun hh => hac hh.2⟩
    · rw [H.hsame m' hmv] at hstm'
      obtain ⟨u, hu2, hmerge2⟩ := H.reflectC w₁ v m' hm'
      rcases hmerge2 with h1 | ⟨h1, h2⟩
      · subst h1
        exact ⟨w₁, a, u, stm', rfl, hu2, hstm', hedge', fun hh => hmv hh.1⟩
      · rw [h1] at hstm'
        rw [h2] at hu2
        obtain ⟨cst, qst, hcst, hqst, hnext⟩ := H.hclone
        rw [hcst] at hstm'
        simp only [Option.some.injEq] at hstm'
        rw [← hstm', hnext] at hedge'
        exact ⟨w₁, a, q, qst, rfl, hu2, hqst, hedge', fun hh => H.hqNin hh.1⟩

end CloneRedir

/-! ### Semantics of the first loop's chain against the invariant -/

namespace Inv

variable {A : SuffixAutomaton} {s : List Char} {wit : Nat → List Char}

theorem last_no_edge (hI : Inv A s wit) {st : State} (hst : A.states[A.last]? = some st)
    (a : Char) : findTr st.next a = none := by
  cases hf : findTr st.next a with
  | none => rfl
  | some j =>
    have h1 : walkFrom A.states 0 (s ++ [a]) = some j :=
      walk_snoc_of hI.lastReach hst hf
    have h2 := (hI.reach_infix h1).length_le
    simp at h2

theorem seek_wit (hI : Inv A s wit) {c : Char} :
    ∀ {p : Int} {vis : List Nat} {p₀ : Int}, SeekChain A.states c p vis p₀ →
    (0 ≤ p → wit p.toNat <:+ s) →
    (∀ e ∈ vis, wit e <:+ s) ∧ (0 ≤ p₀ → wit p₀.toNat <:+ s) := by
  intro p vis p₀ hSC
  induction hSC with
  | stop_neg =>
    intro hp
    exact ⟨by simp, fun h0 => absurd h0 (by norm_num)⟩
  | stop_found p st hp0 hst hfind =>
    intro hp
    exact ⟨by simp, fun h0 => hp hp0⟩
  | step p st vis p₀ hp0 hst hfind hSC ih =>
    intro hp
    have hw : wit p.toNat <:+ s := hp hp0
    by_cases hz : p.toNat = 0
    · have hlk : st.link = -1 := by
        apply (hI.zeroSt st _).2
        rw [← hz]
        exact hst
      rw [hlk] at hSC
      obtain ⟨hv, hP⟩ := seekChain_neg hSC
      subst hv
      subst hP
      refine ⟨?_, fun h0 => absurd h0 (by norm_num)⟩
      intro e he
      simp at he
      subst he
      exact hw
    · obtain ⟨hl0, hl1⟩ := hI.linkValid p.toNat st hst hz
      obtain ⟨stl, hstl⟩ := hI.stAt hl1
      have hwl : wit st.link.toNat <:+ s := by
        rw [hI.wit_link hst hz hstl]
        exact (takeSuffix_suffix _ _).trans hw
      obtain ⟨ih1, ih2⟩ := ih (fun _ => hwl)
      refine ⟨?_, ih2⟩
      intro e he
      rcases List.mem_cons.mp he with he | he
      · subst he
        exact hw
      · exact ih1 e he

theorem seek_mem (hI : Inv A s wit) {c : Char} :
    ∀ {p : Int} {vis : List Nat} {p₀ : Int}, SeekChain A.states c p vis p₀ → 0 ≤ p →
    ∀ (w : List Char) (i : Nat), w <:+ wit p.toNat →
    (∀ (h₀ : 0 ≤ p₀) (stp : State), A.states[p₀.toNat]? = some stp → stp.len < w.length) →
    walkFrom A.states 0 w = some i → i ∈ vis := by
  intro p vis p₀ hSC
  induction hSC with
  | stop_neg =>
    intro hp
    exact absurd hp (by norm_num)
  | stop_found p st hp0 hst hfind =>
    intro hp w i hw hcond hwalk
    have h1 : w.length ≤ st.len := by
      have := hw.length_le
      rwa [hI.witLen p.toNat st hst] at this
    have h2 := hcond hp0 st hst
    omega
  | step p st vis p₀ hp0 hst hfind hSC ih =>
    intro hp w i hw hcond hwalk
    by_cases hz : p.toNat = 0
    · have hwz : w = [] := by
        rw [hz, hI.wit_zero] at hw
        exact List.suffix_nil.mp hw
      subst hwz
      rw [walk_nil] at hwalk
      simp only [Option.some.injEq] at hwalk
      subst hwalk
      rw [← hz]
      exact List.mem_cons_self _ _
    · obtain ⟨hl0, hl1⟩ := hI.linkValid p.toNat st hst hz
      obtain ⟨stl, hstl⟩ := hI.stAt hl1
      by_cases hlt : stl.len < w.length
      · have h1 : walkFrom A.states 0 w = some p.toNat :=
          hI.reachFull p.toNat st stl w hst hz hstl hw hlt
        rw [h1] at hwalk
        simp only [Option.some.injEq] at hwalk
        rw [← hwalk]
        exact List.mem_cons_self _ _
      · have hwl : w <:+ wit st.link.toNat := by
          rw [hI.wit_link hst hz hstl]
          rw [eq_takeSuffix_of_suffix hw]
          exact takeSuffix_suffix_of_le (by omega)
        exact List.mem_cons_of_mem _ (ih hl0 w i hwl hcond hwalk)

theorem seek_from_last (hI : Inv A s wit) {c : Char} {vis : List Nat} {p₀ : Int}
    (hSC : SeekChain A.states c (Int.ofNat A.last) vis p₀) :
    ∃ vis', vis = A.last :: vis' := by
  cases hSC with
  | stop_found p st hp0 hst hfind =>
    have h1 : A.states[A.last]? = some st := by
      simpa using hst
    rw [hI.last_no_edge h1 c] at hfind
    cases hfind
  | step p st vis p₀ hp0 hst hfind hSC =>
    exact ⟨vis, by simp⟩

end Inv

/-! ### Scaffolding for the `extend` preservation proof -/

theorem walk_eq_of_next_eq {sts sts' : List State}
    (h : ∀ j : Nat, (sts'[j]?).map State.next = (sts[j]?).map State.next) :
    ∀ (w : List Char) (v : Nat), walkFrom sts' v w = walkFrom sts v w := by
  intro w
  induction w with
  | nil => intro v; rfl
  | cons a w ih =>
    intro v
    rw [walk_cons, walk_cons]
    have hv := h v
    cases hv' : sts[v]? with
    | none =>
      rw [hv'] at hv
      simp only [Option.map_none'] at hv
      rw [Option.map_eq_none'.mp hv]
      simp
    | some st =>
      rw [hv'] at hv
      cases hv2 : sts'[v]? with
      | none => rw [hv2] at hv; simp at hv
      | some st' =>
        rw [hv2] at hv
        simp only [Option.map_some', Option.some.injEq] at hv
        simp only [Option.some_bind]
        rw [hv]
        cases findTr st.next a with
        | none => rfl
        | some j =>
          simp only [Option.some_bind]
          exact ih j

theorem setSt_next_eq (sts : List State) (n : Nat) (lk : Int) (j : Nat) :
    ((setSt sts n fun st => { st with link := lk })[j]?).map State.next =
      (sts[j]?).map State.next := by
  refine setSt_map_eq _ ?_ j
  intro st
  rfl

theorem seekChain_transfer {sA sB : List State} {c : Char} {n : Nat} (hL : LinkOk sA n)
    (hag : ∀ j : Nat, j < n → sB[j]? = sA[j]?) :
    ∀ {p : Int} {vis : List Nat} {p₀ : Int}, SeekChain sA c p vis p₀ →
    (p = -1 ∨ (0 ≤ p ∧ p.toNat < n)) → SeekChain sB c p vis p₀ := by
  intro p vis p₀ hSC
  induction hSC with
  | stop_neg => intro hp; exact SeekChain.stop_neg
  | stop_found p st hp0 hst hfind =>
    intro hp
    rcases hp with hp | hp
    · omega
    · exact SeekChain.stop_found p st hp0 (by rw [hag p.toNat hp.2]; exact hst) hfind
  | step p st vis p₀ hp0 hst hfind hSC ih =>
    intro hp
    rcases hp with hp | hp
    · omega
    refine SeekChain.step p st vis p₀ hp0 (by rw [hag p.toNat hp.2]; exact hst) hfind (ih ?_)
    by_cases hz : p.toNat = 0
    · left
      apply hL.1
      rw [← hz]
      exact hst
    · right
      obtain ⟨h1, h2, h3⟩ := hL.2 p.toNat st hp.2 hst hz
      exact ⟨h1, h2⟩

theorem redirChain_transfer {sA sB : List State} {c : Char} {q : Nat} {n : Nat} {L : Nat}
    (hL : LinkOk sA n) (hn : n ≤ sA.length)
    (hag : ∀ j : Nat, j < n → lenAt sA j ≤ L → sB[j]? = sA[j]?) :
    ∀ {p : Int} {vis : List Nat} {p₀ : Int}, RedirChain sB c q p vis p₀ →
    (p = -1 ∨ (0 ≤ p ∧ p.toNat < n ∧ lenAt sA p.toNat ≤ L)) → RedirChain sA c q p vis p₀ := by
  intro p vis p₀ hRC
  induction hRC with
  | stop_neg => intro hp; exact RedirChain.stop_neg
  | stop_other p st hp0 hst hfind =>
    intro hp
    rcases hp with hp | hp
    · omega
    · refine RedirChain.stop_other p st hp0 ?_ hfind
      rw [← hag p.toNat hp.2.1 hp.2.2]
      exact hst
  | step p st vis p₀ hp0 hst hfind hRC ih =>
    intro hp
    rcases hp with hp | hp
    · omega
    obtain ⟨hlt, hlen⟩ := hp.2
    have hstA : sA[p.toNat]? = some st := by
      rw [← hag p.toNat hlt hlen]
      exact hst
    refine RedirChain.step p st vis p₀ hp0 hstA hfind (ih ?_)
    by_cases hz : p.toNat = 0
    · left
      apply hL.1
      rw [← hz]
      exact hstA
    · right
      obtain ⟨h1, h2, h3⟩ := hL.2 p.toNat st hlt hstA hz
      obtain ⟨stl, hstl⟩ : ∃ stl : State, sA[st.link.toNat]? = some stl :=
        ⟨sA[st.link.toNat], List.getElem?_eq_getElem (lt_of_lt_of_le h2 hn)⟩
      have h6 := h3 stl hstl
      have h4 : lenAt sA st.link.toNat = stl.len := by simp [lenAt, hstl]
      have h5 : lenAt sA p.toNat = st.len := by simp [lenAt, hstA]
      exact ⟨h1, h2, by omega⟩

theorem Inv.linkOk {A : SuffixAutomaton} {s : List Char} {wit : Nat → List Char}
    (hI : Inv A s wit) : LinkOk A.states A.states.length := by
  constructor
  · intro st hst
    exact (hI.zeroSt st hst).2
  · intro i st hi hst hiz
    obtain ⟨h1, h2⟩ := hI.linkValid i st hst hiz
    exact ⟨h1, h2, fun stl hstl => hI.linkLt i st stl hst hiz hstl⟩

/-- The state appended by `extend` (after its `len` is set). -/
def newSt (s : List Char) : State := { next := [], link := -1, len := s.length + 1 }

/-- The state list after the append and `len` assignment of `extend`. -/
def base1 (A : SuffixAutomaton) (s : List Char) : List State := A.states ++ [newSt s]

theorem suffix_snoc_mono {w₁ s : List Char} (h : w₁ <:+ s) (c : Char) :
    w₁ ++ [c] <:+ s ++ [c] := by
  obtain ⟨u, hu⟩ := h
  exact ⟨u, by rw [← List.append_assoc, hu]⟩

theorem infix_of_self_snoc (s : List Char) (c : Char) : s <:+: s ++ [c] :=
  ⟨[], [c], rfl⟩

namespace Inv

variable {A : SuffixAutomaton} {s : List Char} {wit : Nat → List Char}

theorem lastSt_len (hI : Inv A s wit) :
    ∃ lastSt : State, A.states[A.last]? = some lastSt ∧ lastSt.len = s.length := by
  obtain ⟨lastSt, h⟩ := hI.stAt hI.lastValid
  exact ⟨lastSt, h, hI.lastLen lastSt h⟩

theorem setup (hI : Inv A s wit) (c : Char) :
    ∃ (vis : List Nat) (p₀ : Int) (sts2 : List State),
      SeekChain A.states c (Int.ofNat A.last) vis p₀ ∧
      (∃ vis' : List Nat, vis = A.last :: vis') ∧
      (∀ e ∈ vis, e < A.states.length) ∧
      (p₀ = -1 ∨ (0 ≤ p₀ ∧ p₀.toNat < A.states.length)) ∧
      (0 ≤ p₀ → ∀ e ∈ vis, lenAt A.states p₀.toNat < lenAt A.states e) ∧
      addLoop c A.states.length (A.states.length + 3) (base1 A s) (Int.ofNat A.last)
        = some (sts2, p₀) ∧
      SinkAdd (base1 A s) sts2 c A.states.length vis := by
  have hL := hI.linkOk
  obtain ⟨lastSt, hlastSt, hlastLen⟩ := hI.lastSt_len
  have hstart : (Int.ofNat A.last) = -1 ∨
      (0 ≤ (Int.ofNat A.last) ∧ (Int.ofNat A.last).toNat < A.states.length ∧
        lenAt A.states (Int.ofNat A.last).toNat < lenAt A.states A.last + 1) := by
    right
    refine ⟨by simp, by simpa using hI.lastValid, by simp⟩
  obtain ⟨vis, p₀, hSC, hvlen⟩ :=
    seekChain_exists hL (le_refl _) c (lenAt A.states A.last + 1) (Int.ofNat A.last) hstart
  have hstart2 : (Int.ofNat A.last) = -1 ∨
      (0 ≤ (Int.ofNat A.last) ∧ (Int.ofNat A.last).toNat < A.states.length) := by
    right
    exact ⟨by simp, by simpa using hI.lastValid⟩
  obtain ⟨hbound, hpw, hp₀b, hp₀len⟩ := seekChain_props hL (le_refl _) hSC hstart2
  have hnd : vis.Nodup := by
    refine hpw.imp ?_
    intro a b hab
    intro heq
    rw [heq] at hab
    omega
  have hp₀nin : 0 ≤ p₀ → p₀.toNat ∉ vis := by
    intro h0 hmem
    have := (hp₀len h0).1 p₀.toNat hmem
    omega
  have hag : ∀ j : Nat, j < A.states.length → (base1 A s)[j]? = A.states[j]? := by
    intro j hj
    exact List.getElem?_append_left hj
  have hSCb : SeekChain (base1 A s) c (Int.ofNat A.last) vis p₀ :=
    seekChain_transfer hL hag hSC hstart2
  have hlenb : (base1 A s).length = A.states.length + 1 := by
    simp [base1]
  have hvisfuel : vis.length < A.states.length + 3 := by
    have h1 : lenAt A.states A.last = lastSt.len := by simp [lenAt, hlastSt]
    have h2 : lastSt.len ≤ A.last := hI.lenIdx A.last lastSt hlastSt
    have h3 := hI.lastValid
    omega
  obtain ⟨sts2, hrun, hlen2, hsame2, hmod2⟩ :=
    addLoop_run A.states.length hSCb hvisfuel hnd
      (by
        intro h0
        have h1 := hp₀nin h0
        exact h1)
      (rfl) (fun j _ => rfl)
  refine ⟨vis, p₀, sts2, hSC, hI.seek_from_last hSC, fun e he => (hbound e he).1, hp₀b,
    fun h0 => (hp₀len h0).1, hrun, ?_⟩
  refine ⟨by rw [hlen2], hsame2, hmod2, ?_, ?_, ?_⟩
  · refine ⟨newSt s, ?_, rfl⟩
    simpa [base1] using List.getElem?_concat_length A.states (newSt s)
  · intro i st a j hst hedge
    by_cases hi : i < A.states.length
    · rw [hag i hi] at hst
      have := hI.edgeValid i st a j hst hedge
      omega
    · by_cases hieq : i = A.states.length
      · subst hieq
        rw [show (base1 A s)[A.states.length]? = some (newSt s) by
          simpa [base1] using List.getElem?_concat_length A.states (newSt s)] at hst
        simp only [Option.some.injEq] at hst
        rw [← hst] at hedge
        simp [newSt, findTr] at hedge
      · rw [List.getElem?_eq_none (by simp [base1]; omega)] at hst
        cases hst
  · intro hmem
    have := (hbound _ hmem).1
    omega
end Inv

/-! ### Shared description of the result in the non-clone cases -/

structure ABDesc (A : SuffixAutomaton) (s : List Char) (c : Char) (vis : List Nat)
    (S : List State) (lk : Int) : Prop where
  d5 : S.length = A.states.length + 1
  d1 : S[A.states.length]? = some { next := [], link := lk, len := s.length + 1 }
  d3 : ∀ j : Nat, j ∉ vis → j ≠ A.states.length → S[j]? = A.states[j]?
  d4 : ∀ j ∈ vis, ∃ st : State, A.states[j]? = some st ∧ findTr st.next c = none ∧
    S[j]? = some { st with next := setTr st.next c A.states.length }
  d6 : ∀ j : Nat, j ≠ A.states.length →
    (S[j]?).map (fun st => (st.len, st.link)) =
      (A.states[j]?).map (fun st => (st.len, st.link))
  w0 : ∀ (w : List Char) (u : Nat), u ≠ A.states.length →
    (walkFrom S 0 w = some u ↔ walkFrom A.states 0 w = some u)
  w1 : ∀ w : List Char, walkFrom S 0 w = some A.states.length ↔
    ∃ w₁ e, e ∈ vis ∧ walkFrom A.states 0 w₁ = some e ∧ w = w₁ ++ [c]

theorem Inv.mk_abdesc {A : SuffixAutomaton} {s : List Char} {wit : Nat → List Char}
    {c : Char} {vis : List Nat} {sts2 : List State}
    (hI : Inv A s wit) (hSA : SinkAdd (base1 A s) sts2 c A.states.length vis)
    (hvisN : ∀ e ∈ vis, e < A.states.length) (lk : Int) :
    ABDesc A s c vis (setSt sts2 A.states.length (fun st => { st with link := lk })) lk := by
  set N := A.states.length with hN
  set S := setSt sts2 N (fun st => { st with link := lk }) with hS
  have hb1N : (base1 A s)[N]? = some (newSt s) := by
    simpa [base1] using List.getElem?_concat_length A.states (newSt s)
  have hsts2N : sts2[N]? = some (newSt s) := by
    rw [hSA.hsame N hSA.hcurNin]
    exact hb1N
  have d5 : S.length = N + 1 := by
    rw [hS, length_setSt, hSA.hlen]
    simp [base1]
  have d1 : S[N]? = some { next := [], link := lk, len := s.length + 1 } := by
    rw [hS, setSt_getElem_self hsts2N]
    rfl
  have d2 : ∀ j : Nat, j ≠ N → S[j]? = sts2[j]? := by
    intro j hj
    rw [hS, setSt_getElem_ne _ hj]
  have d3 : ∀ j : Nat, j ∉ vis → j ≠ N → S[j]? = A.states[j]? := by
    intro j hj hjN
    rw [d2 j hjN, hSA.hsame j hj]
    by_cases hjlt : j < N
    · exact List.getElem?_append_left hjlt
    · rw [List.getElem?_eq_none (l := base1 A s) (by simp [base1]; omega),
        List.getElem?_eq_none (by omega)]
  have d4 : ∀ j ∈ vis, ∃ st : State, A.states[j]? = some st ∧ findTr st.next c = none ∧
      S[j]? = some { st with next := setTr st.next c N } := by
    intro j hj
    obtain ⟨st, hst, hnone, hmodj⟩ := hSA.hmod j hj
    have hjN : j ≠ N := fun h => hSA.hcurNin (h ▸ hj)
    refine ⟨st, ?_, hnone, by rw [d2 j hjN]; exact hmodj⟩
    rw [← List.getElem?_append_left (hvisN j hj)]
    exact hst
  have d6 : ∀ j : Nat, j ≠ N →
      (S[j]?).map (fun st => (st.len, st.link)) =
        (A.states[j]?).map (fun st => (st.len, st.link)) := by
    intro j hjN
    by_cases hj : j ∈ vis
    · obtain ⟨st, hst, hnone, hmodj⟩ := d4 j hj
      rw [hmodj, hst]
      rfl
    · rw [d3 j hj hjN]
  have dwalk : ∀ (w : List Char) (v : Nat), walkFrom S v w = walkFrom sts2 v w := by
    intro w v
    refine walk_eq_of_next_eq ?_ w v
    intro j
    exact setSt_next_eq sts2 N lk j
  have hbase1walk : ∀ (w : List Char) (v : Nat), v < N →
      walkFrom (base1 A s) v w = walkFrom A.states v w := by
    intro w v hv
    exact walk_append_state hI.edgeValid (newSt s) hv w
  have h0N : (0 : Nat) ≠ N := by
    have := hI.posLen
    omega
  refine ⟨d5, d1, d3, d4, d6, ?_, ?_⟩
  · intro w u hu
    rw [dwalk, hSA.old_iff h0N hu, hbase1walk w 0 hI.posLen]
  · intro w
    rw [dwalk, hSA.sink_iff h0N]
    constructor
    · intro ⟨w₁, e, he, hwe, hw⟩
      rw [hbase1walk w₁ 0 hI.posLen] at hwe
      exact ⟨w₁, e, he, hwe, hw⟩
    · intro ⟨w₁, e, he, hwe, hw⟩
      rw [← hbase1walk w₁ 0 hI.posLen] at hwe
      exact ⟨w₁, e, he, hwe, hw⟩

/-- Updated longest-string witness function. -/
def updWit (wit : Nat → List Char) (n : Nat) (w : List Char) : Nat → List Char :=
  fun i => if i = n then w else wit i

theorem updWit_self (wit : Nat → List Char) (n : Nat) (w : List Char) :
    updWit wit n w n = w := by simp [updWit]

theorem updWit_ne (wit : Nat → List Char) {n i : Nat} (h : i ≠ n) (w : List Char) :
    updWit wit n w i = wit i := by simp [updWit, h]

/-- The two non-clone cases of `extend`: the new state `cur` is appended,
`c`-edges from the visited chain point to it, and its link is set to `lk`
(the root in case A, the found target `q` in case B).  The hypotheses
abstract exactly the facts that differ between the two cases. -/
theorem Inv.caseAB {A : SuffixAutomaton} {s : List Char} {wit : Nat → List Char}
    {c : Char} {vis : List Nat} {S : List State} {p₀ : Int} {lk : Int} {stlk : State}
    (hI : Inv A s wit)
    (hSC : SeekChain A.states c (Int.ofNat A.last) vis p₀)
    (hD : ABDesc A s c vis S lk)
    (hlk0 : 0 ≤ lk) (hlkN : lk.toNat < A.states.length)
    (hstlk : A.states[lk.toNat]? = some stlk)
    (hstlk_lt : stlk.len < s.length + 1)
    (hminCur : ∀ (w₁ : List Char) (e : Nat), e ∈ vis → walkFrom A.states 0 w₁ = some e →
      stlk.len < w₁.length + 1)
    (hfullCur : ∀ w₁ : List Char, w₁ <:+ s → stlk.len < w₁.length + 1 →
      ∃ e ∈ vis, walkFrom A.states 0 w₁ = some e)
    (hsemCur : walkFrom A.states 0 (takeSuffix (s ++ [c]) stlk.len) = some lk.toNat)
    (hlowCur : ∀ w₁ : List Char, w₁ <:+ s → w₁.length + 1 ≤ stlk.len →
      (walkFrom A.states 0 (w₁ ++ [c])).isSome)
    (hnodup : ∀ (i : Nat) (st : State), S[i]? = some st → (st.next.map Prod.fst).Nodup) :
    Inv ⟨S, A.states.length⟩ (s ++ [c])
      (updWit wit A.states.length (s ++ [c])) := by
  set N := A.states.length with hN
  set s' := s ++ [c] with hs'
  set wit' := updWit wit N s' with hwit'
  have hwitN : wit' N = s' := updWit_self _ _ _
  have hwitold : ∀ i : Nat, i ≠ N → wit' i = wit i := fun i h => updWit_ne _ h _
  obtain ⟨st0, hst0⟩ := hI.stAt hI.posLen
  obtain ⟨hst0len, hst0link⟩ := hI.zeroSt st0 hst0
  have h0N : (0 : Nat) ≠ N := by have := hI.posLen; omega
  have hvis_suffix : ∀ e ∈ vis, wit e <:+ s := by
    intro e he
    refine ((hI.seek_wit hSC ?_).1) e he
    intro h0
    rw [show (Int.ofNat A.last).toNat = A.last by simp, hI.wit_last]
  have hlast_vis : A.last ∈ vis := by
    obtain ⟨vis', hv⟩ := hI.seek_from_last hSC
    rw [hv]
    exact List.mem_cons_self _ _
  -- every new-state access fact
  have hSlen : S.length = N + 1 := hD.d5
  have hlenN : s.length + 1 ≤ N := by
    obtain ⟨lastSt, hlastSt, hlastLen⟩ := hI.lastSt_len
    have := hI.lenIdx A.last lastSt hlastSt
    have := hI.lastValid
    omega
  -- the main walk characterizations
  have w0 := hD.w0
  have w1 := hD.w1
  have hlastReach : walkFrom S 0 s' = some N := by
    rw [w1]
    exact ⟨s, A.last, hlast_vis, hI.lastReach, rfl⟩
  refine ⟨?_, ?_, ?_, ?_, ?_, ?_, ?_, ?_, ?_, ?_, ?_, ?_, ?_, ?_, ?_, ?_, ?_, ?_⟩
  · -- posLen
    show 0 < S.length
    omega
  · -- zeroSt
    intro st hst
    show st.len = 0 ∧ st.link = -1
    have h6 := hD.d6 0 h0N
    rw [hst, hst0] at h6
    simp only [Option.map_some', Option.some.injEq, Prod.mk.injEq] at h6
    omega
  · -- linkValid
    intro i st hst hi
    show 0 ≤ st.link ∧ st.link.toNat < S.length
    by_cases hiN : i = N
    · subst hiN
      rw [hD.d1] at hst
      simp only [Option.some.injEq] at hst
      rw [← hst]
      show 0 ≤ lk ∧ lk.toNat < S.length
      exact ⟨hlk0, by omega⟩
    · have h6 := hD.d6 i hiN
      rw [hst] at h6
      cases hstA : A.states[i]? with
      | none => rw [hstA] at h6; simp at h6
      | some stA =>
        rw [hstA] at h6
        simp only [Option.map_some', Option.some.injEq, Prod.mk.injEq] at h6
        obtain ⟨hlen_eq, hlink_eq⟩ := h6
        obtain ⟨hv1, hv2⟩ := hI.linkValid i stA hstA hi
        rw [hlink_eq]
        exact ⟨hv1, by omega⟩
  · -- linkLt
    intro i st stl hst hi hstl
    show stl.len < st.len
    by_cases hiN : i = N
    · subst hiN
      rw [hD.d1] at hst
      simp only [Option.some.injEq] at hst
      rw [← hst] at hstl ⊢
      have hstl0 : S[lk.toNat]? = some stl := hstl
      have hlkNne : lk.toNat ≠ N := by omega
      have h6 := hD.d6 lk.toNat hlkNne
      rw [hstl0, hstlk] at h6
      simp only [Option.map_some', Option.some.injEq, Prod.mk.injEq] at h6
      show stl.len < s.length + 1
      omega
    · have h6 := hD.d6 i hiN
      rw [hst] at h6
      cases hstA : A.states[i]? with
      | none => rw [hstA] at h6; simp at h6
      | some stA =>
        rw [hstA] at h6
        simp only [Option.map_some', Option.some.injEq, Prod.mk.injEq] at h6
        obtain ⟨hlen_eq, hlink_eq⟩ := h6
        obtain ⟨hv1, hv2⟩ := hI.linkValid i stA hstA hi
        have hlinkN : stA.link.toNat ≠ N := by omega
        have h6l := hD.d6 stA.link.toNat hlinkN
        rw [← hlink_eq] at h6l
        rw [hstl] at h6l
        cases hstlA : A.states[st.link.toNat]? with
        | none => rw [hstlA] at h6l; simp at h6l
        | some stlA =>
          rw [hstlA] at h6l
          simp only [Option.map_some', Option.some.injEq, Prod.mk.injEq] at h6l
          have := hI.linkLt i stA stlA hstA hi (by rw [← hlink_eq]; exact hstlA)
          omega
  · -- edgeValid
    intro i st a j hst hedge
    show j < S.length
    by_cases hiN : i = N
    · subst hiN
      rw [hD.d1] at hst
      simp only [Option.some.injEq] at hst
      rw [← hst] at hedge
      simp [findTr] at hedge
    · by_cases hiv : i ∈ vis
      · obtain ⟨stA, hstA, hnone, hmodi⟩ := hD.d4 i hiv
        rw [hmodi] at hst
        simp only [Option.some.injEq] at hst
        rw [← hst] at hedge
        rw [findTr_setTr] at hedge
        by_cases hac : a = c
        · rw [if_pos hac] at hedge
          simp only [Option.some.injEq] at hedge
          omega
        · rw [if_neg hac] at hedge
          have := hI.edgeValid i stA a j hstA hedge
          omega
      · rw [hD.d3 i hiv hiN] at hst
        have := hI.edgeValid i st a j hst hedge
        omega
  · -- lenIdx
    intro i st hst
    show st.len ≤ i
    by_cases hiN : i = N
    · subst hiN
      rw [hD.d1] at hst
      simp only [Option.some.injEq] at hst
      rw [← hst]
      exact hlenN
    · have h6 := hD.d6 i hiN
      rw [hst] at h6
      cases hstA : A.states[i]? with
      | none => rw [hstA] at h6; simp at h6
      | some stA =>
        rw [hstA] at h6
        simp only [Option.map_some', Option.some.injEq, Prod.mk.injEq] at h6
        have := hI.lenIdx i stA hstA
        omega
  · -- lastValid
    show N < S.length
    omega
  · -- lastReach
    exact hlastReach
  · -- lastLen
    intro st hst
    show st.len = s'.length
    have hst2 : S[N]? = some st := hst
    rw [hD.d1] at hst2
    simp only [Option.some.injEq] at hst2
    rw [← hst2, hs']
    simp
  · -- witReach
    intro i hi
    show walkFrom S 0 (wit' i) = some i
    by_cases hiN : i = N
    · subst hiN
      rw [hwitN]
      exact hlastReach
    · rw [hwitold i hiN]
      have hiN' : i < N := by
        rw [hSlen] at hi
        omega
      rw [w0 (wit i) i hiN]
      exact hI.witReach i hiN'
  · -- witLen
    intro i st hst
    show (wit' i).length = st.len
    by_cases hiN : i = N
    · subst hiN
      rw [hwitN]
      have hst2 : S[N]? = some st := hst
      rw [hD.d1] at hst2
      simp only [Option.some.injEq] at hst2
      rw [← hst2, hs']
      simp
    · rw [hwitold i hiN]
      have h6 := hD.d6 i hiN
      rw [hst] at h6
      cases hstA : A.states[i]? with
      | none => rw [hstA] at h6; simp at h6
      | some stA =>
        rw [hstA] at h6
        simp only [Option.map_some', Option.some.injEq, Prod.mk.injEq] at h6
        rw [hI.witLen i stA hstA]
        omega
  · -- witIn
    intro i hi
    show wit' i <:+: s'
    by_cases hiN : i = N
    · subst hiN
      rw [hwitN]
    · rw [hwitold i hiN]
      have hiN' : i < N := by
        rw [hSlen] at hi
        omega
      exact (hI.witIn i hiN').trans (infix_of_self_snoc s c)
  · -- reachSuffix
    intro i w hwalk
    show w <:+ wit' i
    by_cases hiN : i = N
    · subst hiN
      rw [hwitN]
      rw [w1] at hwalk
      obtain ⟨w₁, e, he, hwe, hw⟩ := hwalk
      subst hw
      have h1 : w₁ <:+ wit e := hI.reachSuffix e w₁ hwe
      have h2 : w₁ <:+ s := h1.trans (hvis_suffix e he)
      exact suffix_snoc_mono h2 c
    · rw [hwitold i hiN]
      rw [w0 w i hiN] at hwalk
      exact hI.reachSuffix i w hwalk
  · -- reachMin
    intro i st stl w hst hi hstl hwalk
    show stl.len < w.length
    by_cases hiN : i = N
    · subst hiN
      rw [hD.d1] at hst
      simp only [Option.some.injEq] at hst
      rw [← hst] at hstl
      have hstl0 : S[lk.toNat]? = some stl := hstl
      have hlkNne : lk.toNat ≠ N := by omega
      have h6 := hD.d6 lk.toNat hlkNne
      rw [hstl0, hstlk] at h6
      simp only [Option.map_some', Option.some.injEq, Prod.mk.injEq] at h6
      rw [w1] at hwalk
      obtain ⟨w₁, e, he, hwe, hw⟩ := hwalk
      subst hw
      have := hminCur w₁ e he hwe
      simp
      omega
    · rw [w0 w i hiN] at hwalk
      have h6 := hD.d6 i hiN
      rw [hst] at h6
      cases hstA : A.states[i]? with
      | none => rw [hstA] at h6; simp at h6
      | some stA =>
        rw [hstA] at h6
        simp only [Option.map_some', Option.some.injEq, Prod.mk.injEq] at h6
        obtain ⟨hlen_eq, hlink_eq⟩ := h6
        have hlinkN : stA.link.toNat ≠ N := by
          obtain ⟨hv1, hv2⟩ := hI.linkValid i stA hstA hi
          omega
        have h6l := hD.d6 stA.link.toNat hlinkN
        rw [← hlink_eq] at h6l
        rw [hstl] at h6l
        cases hstlA : A.states[st.link.toNat]? with
        | none => rw [hstlA] at h6l; simp at h6l
        | some stlA =>
          rw [hstlA] at h6l
          simp only [Option.map_some', Option.some.injEq, Prod.mk.injEq] at h6l
          have := hI.reachMin i stA stlA w hstA hi
            (by rw [← hlink_eq]; exact hstlA) hwalk
          omega
  · -- reachFull
    intro i st stl w hst hi hstl hsuf hlen
    show walkFrom S 0 w = some i
    by_cases hiN : i = N
    · subst hiN
      rw [hD.d1] at hst
      simp only [Option.some.injEq] at hst
      rw [← hst] at hstl
      have hstl0 : S[lk.toNat]? = some stl := hstl
      have hlkNne : lk.toNat ≠ N := by omega
      have h6 := hD.d6 lk.toNat hlkNne
      rw [hstl0, hstlk] at h6
      simp only [Option.map_some', Option.some.injEq, Prod.mk.injEq] at h6
      rw [hwitN] at hsuf
      have hwne : w ≠ [] := by
        intro h
        rw [h] at hlen
        simp at hlen
      rcases suffix_snoc_iff.mp hsuf with h | ⟨w₁, hw₁, hw⟩
      · exact absurd h hwne
      · subst hw
        obtain ⟨e, he, hwe⟩ := hfullCur w₁ hw₁ (by
          simp at hlen
          omega)
        rw [w1]
        exact ⟨w₁, e, he, hwe, rfl⟩
    · rw [hwitold i hiN] at hsuf
      rw [w0 w i hiN]
      have h6 := hD.d6 i hiN
      rw [hst] at h6
      cases hstA : A.states[i]? with
      | none => rw [hstA] at h6; simp at h6
      | some stA =>
        rw [hstA] at h6
        simp only [Option.map_some', Option.some.injEq, Prod.mk.injEq] at h6
        obtain ⟨hlen_eq, hlink_eq⟩ := h6
        have hlinkN : stA.link.toNat ≠ N := by
          obtain ⟨hv1, hv2⟩ := hI.linkValid i stA hstA hi
          omega
        have h6l := hD.d6 stA.link.toNat hlinkN
        rw [← hlink_eq] at h6l
        rw [hstl] at h6l
        cases hstlA : A.states[st.link.toNat]? with
        | none => rw [hstlA] at h6l; simp at h6l
        | some stlA =>
          rw [hstlA] at h6l
          simp only [Option.map_some', Option.some.injEq, Prod.mk.injEq] at h6l
          exact hI.reachFull i stA stlA w hstA hi
            (by rw [← hlink_eq]; exact hstlA) hsuf (by omega)
  · -- linkSem
    intro i st stl hst hi hstl
    show walkFrom S 0 (takeSuffix (wit' i) stl.len) = some st.link.toNat
    by_cases hiN : i = N
    · subst hiN
      rw [hD.d1] at hst
      simp only [Option.some.injEq] at hst
      rw [← hst] at hstl ⊢
      have hstl0 : S[lk.toNat]? = some stl := hstl
      have hlkNne : lk.toNat ≠ N := by omega
      have h6 := hD.d6 lk.toNat hlkNne
      rw [hstl0, hstlk] at h6
      simp only [Option.map_some', Option.some.injEq, Prod.mk.injEq] at h6
      have hlen_eq2 : stl.len = stlk.len := by omega
      rw [hwitN]
      show walkFrom S 0 (takeSuffix s' stl.len) = some lk.toNat
      rw [hlen_eq2, w0 _ _ hlkNne]
      exact hsemCur
    · rw [hwitold i hiN]
      have h6 := hD.d6 i hiN
      rw [hst] at h6
      cases hstA : A.states[i]? with
      | none => rw [hstA] at h6; simp at h6
      | some stA =>
        rw [hstA] at h6
        simp only [Option.map_some', Option.some.injEq, Prod.mk.injEq] at h6
        obtain ⟨hlen_eq, hlink_eq⟩ := h6
        have hlinkN : stA.link.toNat ≠ N := by
          obtain ⟨hv1, hv2⟩ := hI.linkValid i stA hstA hi
          omega
        have h6l := hD.d6 stA.link.toNat hlinkN
        rw [← hlink_eq] at h6l
        rw [hstl] at h6l
        cases hstlA : A.states[st.link.toNat]? with
        | none => rw [hstlA] at h6l; simp at h6l
        | some stlA =>
          rw [hstlA] at h6l
          simp only [Option.map_some', Option.some.injEq, Prod.mk.injEq] at h6l
          have hsem := hI.linkSem i stA stlA hstA hi (by rw [← hlink_eq]; exact hstlA)
          have hlenstl : stl.len = stlA.len := by omega
          rw [hlenstl, hlink_eq]
          rw [w0 _ _ hlinkN]
          exact hsem
  · -- complete
    intro w hw
    show (walkFrom S 0 w).isSome
    rcases infix_snoc_iff.mp hw with hw1 | hw1
    · have h1 := hI.complete w hw1
      obtain ⟨u, hu⟩ := Option.isSome_iff_exists.mp h1
      have huN : u ≠ N := by
        have := hI.reach_lt hu
        omega
      rw [← w0 w u huN] at hu
      simp [hu]
    · rcases suffix_snoc_iff.mp hw1 with h | ⟨w₁, hw₁, hweq⟩
      · subst h
        simp [walk_nil]
      · subst hweq
        by_cases hcase : stlk.len < w₁.length + 1
        · obtain ⟨e, he, hwe⟩ := hfullCur w₁ hw₁ hcase
          have hsome : walkFrom S 0 (w₁ ++ [c]) = some N := by
            rw [w1]
            exact ⟨w₁, e, he, hwe, rfl⟩
          simp [hsome]
        · have h1 := hlowCur w₁ hw₁ (by omega)
          obtain ⟨u, hu⟩ := Option.isSome_iff_exists.mp h1
          have huN : u ≠ N := by
            have := hI.reach_lt hu
            omega
          rw [← w0 _ u huN] at hu
          simp [hu]
  · -- nodupNext
    intro i st hst
    exact hnodup i st hst

theorem seekChain_start {sts : List State} {c : Char} {p : Int} {vis : List Nat} {p₀ : Int}
    (h : SeekChain sts c p vis p₀) :
    (p = -1 ∧ vis = [] ∧ p₀ = -1) ∨ (0 ≤ p ∧ vis = [] ∧ p₀ = p) ∨
    (0 ≤ p ∧ ∃ vis' : List Nat, vis = p.toNat :: vis') := by
  cases h with
  | stop_neg => exact Or.inl ⟨rfl, rfl, rfl⟩
  | stop_found p st hp0 hst hfind => exact Or.inr (Or.inl ⟨hp0, rfl, rfl⟩)
  | step p st vis p₀ hp0 hst hfind hSC => exact Or.inr (Or.inr ⟨hp0, vis, rfl⟩)

theorem seek_link_mem {sts : List State} {c : Char} :
    ∀ {p : Int} {vis : List Nat} {p₀ : Int}, SeekChain sts c p vis p₀ →
    ∀ e ∈ vis, ∃ st : State, sts[e]? = some st ∧
      ((0 ≤ st.link ∧ st.link.toNat ∈ vis) ∨ st.link = p₀) := by
  intro p vis p₀ hSC
  induction hSC with
  | stop_neg => intro e he; simp at he
  | stop_found p st hp0 hst hfind => intro e he; simp at he
  | step p st vis p₀ hp0 hst hfind hSC ih =>
    intro e he
    rcases List.mem_cons.mp he with he | he
    · subst he
      refine ⟨st, hst, ?_⟩
      rcases seekChain_start hSC with ⟨h1, h2, h3⟩ | ⟨h1, h2, h3⟩ | ⟨h1, vis'', h2⟩
      · rw [h1, h3]
        exact Or.inr rfl
      · exact Or.inr h3.symm
      · refine Or.inl ⟨h1, ?_⟩
        rw [h2]
        exact List.mem_cons_of_mem _ (List.mem_cons_self _ _)
    · obtain ⟨st', hst', hlk⟩ := ih e he
      refine ⟨st', hst', ?_⟩
      rcases hlk with ⟨h1, h2⟩ | h1
      · exact Or.inl ⟨h1, List.mem_cons_of_mem _ h2⟩
      · exact Or.inr h1

namespace Inv

variable {A : SuffixAutomaton} {s : List Char} {wit : Nat → List Char}

/-- Case A of `extend` (`p₀ = -1`): new state linked to the root. -/
theorem caseA {c : Char} {vis : List Nat} {S : List State}
    (hI : Inv A s wit)
    (hSC : SeekChain A.states c (Int.ofNat A.last) vis (-1))
    (hD : ABDesc A s c vis S 0)
    (hnodup : ∀ (i : Nat) (st : State), S[i]? = some st → (st.next.map Prod.fst).Nodup) :
    Inv ⟨S, A.states.length⟩ (s ++ [c])
      (updWit wit A.states.length (s ++ [c])) := by
  obtain ⟨st0, hst0⟩ := hI.stAt hI.posLen
  obtain ⟨hst0len, hst0link⟩ := hI.zeroSt st0 hst0
  refine hI.caseAB hSC hD (by norm_num) (by simpa using hI.posLen)
    (by simpa using hst0) (by omega) ?_ ?_ ?_ ?_ hnodup
  · intro w₁ e he hwe
    omega
  · intro w₁ hw₁ hlen
    have h1 := hI.complete w₁ hw₁.isInfix
    obtain ⟨e, he⟩ := Option.isSome_iff_exists.mp h1
    refine ⟨e, ?_, he⟩
    refine hI.seek_mem hSC (by simp) w₁ e ?_ ?_ he
    · rw [show (Int.ofNat A.last).toNat = A.last by simp, hI.wit_last]
      exact hw₁
    · intro h₀
      exact absurd h₀ (by norm_num)
  · rw [show st0.len = 0 from hst0len, takeSuffix_zero]
    rfl
  · intro w₁ hw₁ hlen
    omega

/-- Case B of `extend` (`p₀ ≥ 0`, no split): new state linked to `q`. -/
theorem caseB {c : Char} {vis : List Nat} {S : List State} {p₀ : Int}
    {pst qst : State} {q : Nat}
    (hI : Inv A s wit)
    (hSC : SeekChain A.states c (Int.ofNat A.last) vis p₀)
    (hp₀ : 0 ≤ p₀) (hp₀N : p₀.toNat < A.states.length)
    (hpst : A.states[p₀.toNat]? = some pst)
    (hedge : findTr pst.next c = some q)
    (hqst : A.states[q]? = some qst)
    (hqlen : pst.len + 1 = qst.len)
    (hp₀lens : ∀ e ∈ vis, lenAt A.states p₀.toNat < lenAt A.states e)
    (hD : ABDesc A s c vis S (Int.ofNat q))
    (hnodup : ∀ (i : Nat) (st : State), S[i]? = some st → (st.next.map Prod.fst).Nodup) :
    Inv ⟨S, A.states.length⟩ (s ++ [c])
      (updWit wit A.states.length (s ++ [c])) := by
  have hqN : q < A.states.length := hI.edgeValid p₀.toNat pst c q hpst hedge
  obtain ⟨st0, hst0⟩ := hI.stAt hI.posLen
  obtain ⟨hst0len, hst0link⟩ := hI.zeroSt st0 hst0
  have hlastvis : A.last ∈ vis := by
    obtain ⟨vis', hv⟩ := hI.seek_from_last hSC
    rw [hv]
    exact List.mem_cons_self _ _
  obtain ⟨lastSt, hlastSt, hlastLen⟩ := hI.lastSt_len
  have hlenAtp₀ : lenAt A.states p₀.toNat = pst.len := by simp [lenAt, hpst]
  have hlenAtLast : lenAt A.states A.last = s.length := by
    simp [lenAt, hlastSt, hlastLen]
  have hpstlen : pst.len < s.length := by
    have := hp₀lens A.last hlastvis
    omega
  have hwitp₀ : wit p₀.toNat = takeSuffix s pst.len := by
    have h1 : wit p₀.toNat <:+ s := by
      refine (hI.seek_wit hSC ?_).2 hp₀
      intro h0
      rw [show (Int.ofNat A.last).toNat = A.last by simp, hI.wit_last]
    have h2 : (wit p₀.toNat).length = pst.len := hI.witLen p₀.toNat pst hpst
    rw [← h2]
    exact eq_takeSuffix_of_suffix h1
  have hsem : walkFrom A.states 0 (takeSuffix s pst.len ++ [c]) = some q := by
    refine walk_snoc_of ?_ hpst hedge
    rw [← hwitp₀]
    exact hI.witReach p₀.toNat hp₀N
  have hwitqsuf : takeSuffix s pst.len ++ [c] <:+ wit q := hI.reachSuffix q _ hsem
  refine hI.caseAB hSC hD (by norm_num) (by simpa using hqN) (by simpa using hqst)
    (by omega) ?_ ?_ ?_ ?_ hnodup
  · -- hminCur : members through vis are longer than pst.len
    intro w₁ e he hwe
    have heN : e < A.states.length := by
      have := hI.reach_lt hwe
      omega
    obtain ⟨ste, hste⟩ := hI.stAt heN
    have hle : lenAt A.states e = ste.len := by simp [lenAt, hste]
    have hlp := hp₀lens e he
    by_cases hez : e = 0
    · subst hez
      rw [hst0] at hste
      simp only [Option.some.injEq] at hste
      rw [← hste] at hle
      omega
    · obtain ⟨stel, hstel⟩ := hI.stAt (hI.linkValid e ste hste hez).2
      have hmin := hI.reachMin e ste stel w₁ hste hez hstel hwe
      -- the link of e is again in the chain, so its length is at least pst.len
      obtain ⟨ste', hste', hlk⟩ := seek_link_mem hSC e he
      rw [hste] at hste'
      simp only [Option.some.injEq] at hste'
      rw [← hste'] at hlk
      rcases hlk with ⟨h1, h2⟩ | h1
      · have := hp₀lens ste.link.toNat h2
        have : lenAt A.states ste.link.toNat = stel.len := by simp [lenAt, hstel]
        omega
      · rw [h1] at hstel
        rw [hpst] at hstel
        simp only [Option.some.injEq] at hstel
        rw [← hstel] at hmin
        omega
  · -- hfullCur : long suffixes of s reach the visited chain
    intro w₁ hw₁ hlen
    have h1 := hI.complete w₁ hw₁.isInfix
    obtain ⟨e, he⟩ := Option.isSome_iff_exists.mp h1
    refine ⟨e, ?_, he⟩
    refine hI.seek_mem hSC (by simp) w₁ e ?_ ?_ he
    · rw [show (Int.ofNat A.last).toNat = A.last by simp, hI.wit_last]
      exact hw₁
    · intro h₀ stp hstp
      rw [hpst] at hstp
      simp only [Option.some.injEq] at hstp
      rw [← hstp]
      omega
  · -- hsemCur
    have hts : takeSuffix (s ++ [c]) qst.len = takeSuffix s pst.len ++ [c] := by
      rw [← hqlen]
      exact takeSuffix_snoc (by omega) c
    rw [hts]
    rw [show (Int.ofNat q).toNat = q by simp]
    exact hsem
  · -- hlowCur : short extensions were already in the language
    intro w₁ hw₁ hlen
    have hw₁p₀ : w₁ <:+ takeSuffix s pst.len := by
      rw [eq_takeSuffix_of_suffix hw₁]
      exact takeSuffix_suffix_of_le (by omega)
    have h1 : w₁ ++ [c] <:+ wit q := (suffix_snoc_mono hw₁p₀ c).trans hwitqsuf
    exact hI.suffix_reach' hqst h1
end Inv

/-! ### The clone case: result description -/

theorem walk_target_ne {sts : List State} {t : Nat}
    (hNoIn : ∀ (i : Nat) (st : State) (a : Char) (j : Nat), sts[i]? = some st →
      findTr st.next a = some j → j ≠ t) :
    ∀ (w : List Char) (v u : Nat), v ≠ t → walkFrom sts v w = some u → u ≠ t := by
  intro w
  induction w with
  | nil =>
    intro v u hv h
    rw [walk_nil] at h
    simp only [Option.some.injEq] at h
    omega
  | cons a w ih =>
    intro v u hv h
    obtain ⟨st, j, hst, hj, h⟩ := walk_cons_some h
    exact ih j u (hNoIn v st a j hst hj) h

/-- Description of the final state list in the clone case: `cur` and `clone`
are appended, the visited chain `vis1` gained `c`-edges to `cur`, the chain
`vis2` had its `c`-edges redirected from `q` to `clone`, and `q`'s and
`cur`'s links point at `clone`. -/
structure CDesc (A : SuffixAutomaton) (s : List Char) (c : Char) (q : Nat)
    (qst : State) (pstLen : Nat) (vis1 vis2 : List Nat) (S : List State) : Prop where
  e5 : S.length = A.states.length + 2
  e1 : S[A.states.length]? =
    some { next := [], link := Int.ofNat (A.states.length + 1), len := s.length + 1 }
  e2 : S[A.states.length + 1]? = some { next := qst.next, link := qst.link, len := pstLen + 1 }
  e3 : S[q]? = some { next := qst.next, link := Int.ofNat (A.states.length + 1), len := qst.len }
  e4mod : ∀ j ∈ vis2, ∃ st : State, A.states[j]? = some st ∧ findTr st.next c = some q ∧
    S[j]? = some { st with next := setTr st.next c (A.states.length + 1) }
  e4vis1 : ∀ j ∈ vis1, j ≠ q → ∃ st : State, A.states[j]? = some st ∧
    findTr st.next c = none ∧ S[j]? = some { st with next := setTr st.next c A.states.length }
  e0 : ∀ j : Nat, j ∉ vis1 → j ∉ vis2 → j ≠ q → j ≠ A.states.length →
    j ≠ A.states.length + 1 → S[j]? = A.states[j]?
  e6 : ∀ j : Nat, j ≠ q → j ≠ A.states.length → j ≠ A.states.length + 1 →
    (S[j]?).map (fun st => (st.len, st.link)) =
      (A.states[j]?).map (fun st => (st.len, st.link))
  wOld : ∀ (w : List Char) (u : Nat), u ≠ q → u ≠ A.states.length → u ≠ A.states.length + 1 →
    (walkFrom S 0 w = some u ↔ walkFrom A.states 0 w = some u)
  wCur : ∀ w : List Char, walkFrom S 0 w = some A.states.length ↔
    ∃ w₁ e, e ∈ vis1 ∧ walkFrom A.states 0 w₁ = some e ∧ w = w₁ ++ [c]
  wClone : ∀ w : List Char, walkFrom S 0 w = some (A.states.length + 1) ↔
    ∃ w₁ e, e ∈ vis2 ∧ walkFrom A.states 0 w₁ = some e ∧ w = w₁ ++ [c]
  wQ1 : ∀ w : List Char, walkFrom S 0 w = some q → walkFrom A.states 0 w = some q ∧
    (w = [] ∨ ∃ w₁ a m stm, w = w₁ ++ [a] ∧ walkFrom A.states 0 w₁ = some m ∧
      A.states[m]? = some stm ∧ findTr stm.next a = some q ∧ ¬(m ∈ vis2 ∧ a = c))
  wQ2 : ∀ w : List Char, walkFrom A.states 0 w = some q →
    walkFrom S 0 w = some q ∨ walkFrom S 0 w = some (A.states.length + 1)
  wSome : ∀ w : List Char, (walkFrom A.states 0 w).isSome → (walkFrom S 0 w).isSome

theorem Inv.mk_cdesc {A : SuffixAutomaton} {s : List Char} {wit : Nat → List Char}
    {c : Char} {vis1 vis2 : List Nat} {sts2 sts3 : List State} {q : Nat} {qst : State}
    {pstLen : Nat}
    (hI : Inv A s wit)
    (hSA : SinkAdd (base1 A s) sts2 c A.states.length vis1)
    (hvis1N : ∀ e ∈ vis1, e < A.states.length)
    (hqst2 : sts2[q]? = some qst)
    (hqN : q < A.states.length)
    (hCR : CloneRedir (sts2 ++ [{ next := qst.next, link := qst.link, len := pstLen + 1 }])
      sts3 c q (A.states.length + 1) vis2)
    (hvis2N : ∀ e ∈ vis2, e < A.states.length ∧ e ∉ vis1) :
    CDesc A s c q qst pstLen vis1 vis2
      (setSt (setSt sts3 q (fun st => { st with link := Int.ofNat (A.states.length + 1) }))
        A.states.length (fun st => { st with link := Int.ofNat (A.states.length + 1) })) := by
  set N := A.states.length with hN
  set cloneSt : State := { next := qst.next, link := qst.link, len := pstLen + 1 } with hcs
  set base2 : List State := sts2 ++ [cloneSt] with hb2
  set sts3q := setSt sts3 q (fun st => { st with link := Int.ofNat (N + 1) }) with hs3q
  set S := setSt sts3q N (fun st => { st with link := Int.ofNat (N + 1) }) with hSdef
  have hlen2 : sts2.length = N + 1 := by
    rw [hSA.hlen]
    simp [base1]
  have hlenb2 : base2.length = N + 2 := by
    rw [hb2]
    simp [hlen2]
  have hlen3 : sts3.length = N + 2 := by rw [hCR.hlen, hlenb2]
  have hlenS : S.length = N + 2 := by rw [hSdef, length_setSt, hs3q, length_setSt, hlen3]
  have hNq : q ≠ N := by omega
  have h0N : (0 : Nat) ≠ N := by have := hI.posLen; omega
  have hqN1 : q ≠ N + 1 := by omega
  have hb1N : (base1 A s)[N]? = some (newSt s) := by
    simpa [base1] using List.getElem?_concat_length A.states (newSt s)
  have hsts2N : sts2[N]? = some (newSt s) := by
    rw [hSA.hsame N hSA.hcurNin]
    exact hb1N
  have hvis2lt : ∀ e ∈ vis2, e < N := fun e he => (hvis2N e he).1
  have hNnin2 : N ∉ vis2 := fun h => by have := hvis2lt N h; omega
  have hb2lt : ∀ j : Nat, j < N + 1 → base2[j]? = sts2[j]? := by
    intro j hj
    rw [hb2]
    exact List.getElem?_append_left (by omega)
  have hb2N1 : base2[N + 1]? = some cloneSt := by
    rw [hb2, show N + 1 = sts2.length from hlen2.symm]
    exact List.getElem?_concat_length _ _
  have hs2A : ∀ j : Nat, j < N → j ∉ vis1 → sts2[j]? = A.states[j]? := by
    intro j hj hj1
    rw [hSA.hsame j hj1]
    exact List.getElem?_append_left hj
  -- edge targets of `sts2` stay within bounds
  have hE2 : EdgesLT sts2 := by
    intro i st a j hst hj
    rw [hlen2]
    by_cases hiv : i ∈ vis1
    · obtain ⟨stA, hstA, hnone, hmodi⟩ := hSA.hmod i hiv
      rw [hmodi] at hst
      simp only [Option.some.injEq] at hst
      rw [← hst] at hj
      rw [findTr_setTr] at hj
      by_cases hac : a = c
      · rw [if_pos hac] at hj
        simp only [Option.some.injEq] at hj
        omega
      · rw [if_neg hac] at hj
        have hstA' : A.states[i]? = some stA := by
          rw [← List.getElem?_append_left (hvis1N i hiv)]
          exact hstA
        have := hI.edgeValid i stA a j hstA' hj
        omega
    · rw [hSA.hsame i hiv] at hst
      by_cases hilt : i < N
      · have hstA' : A.states[i]? = some st := by
          rw [← List.getElem?_append_left hilt]
          exact hst
        have := hI.edgeValid i st a j hstA' hj
        omega
      · by_cases hie : i = N
        · subst hie
          rw [hb1N] at hst
          simp only [Option.some.injEq] at hst
          rw [← hst] at hj
          simp [newSt, findTr] at hj
        · rw [List.getElem?_eq_none (by simp [base1]; omega)] at hst
          cases hst
  -- the four walk-transfer layers
  have hw32 : ∀ (w : List Char) (v : Nat), walkFrom S v w = walkFrom sts3 v w := by
    intro w v
    have h1 : ∀ j : Nat, (S[j]?).map State.next = (sts3q[j]?).map State.next := by
      intro j
      exact setSt_next_eq sts3q N _ j
    have h2 : ∀ j : Nat, (sts3q[j]?).map State.next = (sts3[j]?).map State.next := by
      intro j
      exact setSt_next_eq sts3 q _ j
    have h3 : ∀ j : Nat, (S[j]?).map State.next = (sts3[j]?).map State.next := by
      intro j
      rw [h1 j, h2 j]
    exact walk_eq_of_next_eq h3 w v
  have hb21 : ∀ (w : List Char) (v : Nat), v < N + 1 →
      walkFrom base2 v w = walkFrom sts2 v w := by
    intro w v hv
    rw [hb2]
    exact walk_append_state hE2 cloneSt (by omega) w
  have hb10 : ∀ (w : List Char) (v : Nat), v < N →
      walkFrom (base1 A s) v w = walkFrom A.states v w := by
    intro w v hv
    exact walk_append_state hI.edgeValid (newSt s) hv w
  -- old-endpoint transfer from `base2` all the way down to `A.states`
  have hb2A : ∀ (w : List Char) (u : Nat), u ≠ N →
      (walkFrom base2 0 w = some u ↔ walkFrom A.states 0 w = some u) := by
    intro w u hu
    rw [hb21 w 0 (by omega), hSA.old_iff h0N hu, hb10 w 0 hI.posLen]
  -- state lookups in the final list
  have hS_ne : ∀ j : Nat, j ≠ q → j ≠ N → S[j]? = sts3[j]? := by
    intro j hjq hjN
    rw [hSdef, setSt_getElem_ne _ hjN, hs3q, setSt_getElem_ne _ hjq]
  have hsts3N : sts3[N]? = some (newSt s) := by
    rw [hCR.hsame N hNnin2, hb2lt N (by omega), hsts2N]
  have hsts3q : sts3[q]? = some qst := by
    rw [hCR.hsame q hCR.hqNin, hb2lt q (by omega), hqst2]
  have hsts3N1 : sts3[N + 1]? = some cloneSt := by
    rw [hCR.hsame (N + 1) hCR.hcloneNin, hb2N1]
  have e1 : S[N]? = some { next := [], link := Int.ofNat (N + 1), len := s.length + 1 } := by
    have h1 : sts3q[N]? = some (newSt s) := by
      rw [hs3q, setSt_getElem_ne _ hNq.symm]
      exact hsts3N
    rw [hSdef, setSt_getElem_self h1]
    rfl
  have e2 : S[N + 1]? = some cloneSt := by
    rw [hS_ne (N + 1) hqN1.symm (by omega)]
    exact hsts3N1
  have e3 : S[q]? = some { next := qst.next, link := Int.ofNat (N + 1), len := qst.len } := by
    have h1 : sts3q[q]? = some { qst with link := Int.ofNat (N + 1) } := by
      rw [hs3q, setSt_getElem_self hsts3q]
    rw [hSdef, setSt_getElem_ne _ hNq, h1]
  have e4mod : ∀ j ∈ vis2, ∃ st : State, A.states[j]? = some st ∧
      findTr st.next c = some q ∧
      S[j]? = some { st with next := setTr st.next c (N + 1) } := by
    intro j hj
    obtain ⟨st, hst, hcq, hmodj⟩ := hCR.hmod j hj
    have hjq : j ≠ q := fun h => hCR.hqNin (h ▸ hj)
    have hjlt : j < N := hvis2lt j hj
    have hstA : A.states[j]? = some st := by
      rw [← hs2A j hjlt (hvis2N j hj).2, ← hb2lt j (by omega)]
      exact hst
    refine ⟨st, hstA, hcq, ?_⟩
    rw [hS_ne j hjq (by omega)]
    exact hmodj
  have e4vis1 : ∀ j ∈ vis1, j ≠ q → ∃ st : State, A.states[j]? = some st ∧
      findTr st.next c = none ∧ S[j]? = some { st with next := setTr st.next c N } := by
    intro j hj hjq
    obtain ⟨st, hst, hnone, hmodj⟩ := hSA.hmod j hj
    have hjlt : j < N := hvis1N j hj
    have hj2 : j ∉ vis2 := fun h => (hvis2N j h).2 hj
    have hstA : A.states[j]? = some st := by
      rw [← List.getElem?_append_left hjlt]
      exact hst
    refine ⟨st, hstA, hnone, ?_⟩
    rw [hS_ne j hjq (by omega), hCR.hsame j hj2, hb2lt j (by omega)]
    exact hmodj
  have e0 : ∀ j : Nat, j ∉ vis1 → j ∉ vis2 → j ≠ q → j ≠ N → j ≠ N + 1 →
      S[j]? = A.states[j]? := by
    intro j hj1 hj2 hjq hjN hjN1
    rw [hS_ne j hjq hjN, hCR.hsame j hj2]
    by_cases hjlt : j < N
    · rw [hb2lt j (by omega)]
      exact hs2A j hjlt hj1
    · rw [List.getElem?_eq_none (by omega), List.getElem?_eq_none (by omega)]
  have e6 : ∀ j : Nat, j ≠ q → j ≠ N → j ≠ N + 1 →
      (S[j]?).map (fun st => (st.len, st.link)) =
        (A.states[j]?).map (fun st => (st.len, st.link)) := by
    intro j hjq hjN hjN1
    by_cases hj2 : j ∈ vis2
    · obtain ⟨st, hstA, hcq, hSj⟩ := e4mod j hj2
      rw [hSj, hstA]
      rfl
    · by_cases hj1 : j ∈ vis1
      · obtain ⟨st, hstA, hcq, hSj⟩ := e4vis1 j hj1 hjq
        rw [hSj, hstA]
        rfl
      · rw [e0 j hj1 hj2 hjq hjN hjN1]
  -- walk characterizations
  have wOld : ∀ (w : List Char) (u : Nat), u ≠ q → u ≠ N → u ≠ N + 1 →
      (walkFrom S 0 w = some u ↔ walkFrom A.states 0 w = some u) := by
    intro w u huq huN huN1
    rw [hw32 w 0, hCR.old_iffC huq huN1 w, hb2A w u huN]
  have wCur : ∀ w : List Char, walkFrom S 0 w = some N ↔
      ∃ w₁ e, e ∈ vis1 ∧ walkFrom A.states 0 w₁ = some e ∧ w = w₁ ++ [c] := by
    intro w
    rw [hw32 w 0, hCR.old_iffC hNq.symm (by omega) w, hb21 w 0 (by omega),
      hSA.sink_iff h0N w]
    constructor
    · intro ⟨w₁, e, he, hwe, hw⟩
      rw [hb10 w₁ 0 hI.posLen] at hwe
      exact ⟨w₁, e, he, hwe, hw⟩
    · intro ⟨w₁, e, he, hwe, hw⟩
      rw [← hb10 w₁ 0 hI.posLen] at hwe
      exact ⟨w₁, e, he, hwe, hw⟩
  have wClone : ∀ w : List Char, walkFrom S 0 w = some (N + 1) ↔
      ∃ w₁ e, e ∈ vis2 ∧ walkFrom A.states 0 w₁ = some e ∧ w = w₁ ++ [c] := by
    intro w
    rw [hw32 w 0]
    constructor
    · intro h
      obtain ⟨w₁, e, he, hwe, hw⟩ := hCR.into_clone_decomp (by omega) h
      refine ⟨w₁, e, he, ?_, hw⟩
      rw [← hb2A w₁ e (by have := hvis2lt e he; omega)]
      exact hwe
    · intro ⟨w₁, e, he, hwe, hw⟩
      subst hw
      refine hCR.into_clone_of he ?_
      rw [hb2A w₁ e (by have := hvis2lt e he; omega)]
      exact hwe
  have wQ1 : ∀ w : List Char, walkFrom S 0 w = some q →
      walkFrom A.states 0 w = some q ∧
      (w = [] ∨ ∃ w₁ a m stm, w = w₁ ++ [a] ∧ walkFrom A.states 0 w₁ = some m ∧
        A.states[m]? = some stm ∧ findTr stm.next a = some q ∧ ¬(m ∈ vis2 ∧ a = c)) := by
    intro w h
    rw [hw32 w 0] at h
    obtain ⟨hq, hdec⟩ := hCR.into_q_decomp h
    refine ⟨by rw [← hb2A w q hNq]; exact hq, ?_⟩
    rcases hdec with hw | ⟨w₁, a, m, stm, hw, hwm, hstm, hedge, hnm⟩
    · exact Or.inl hw
    · right
      have hmN1 : m ≠ N + 1 :=
        walk_target_ne hCR.hNoInClone w₁ 0 m (by omega) hwm
      have hmN : m ≠ N := by
        intro hh
        rw [hh, hb2lt N (by omega), hsts2N] at hstm
        simp only [Option.some.injEq] at hstm
        rw [← hstm] at hedge
        simp [newSt, findTr] at hedge
      have hmlt : m < N := by
        have hmb : m < base2.length := (List.getElem?_eq_some_iff.mp hstm).1
        omega
      have hwmA : walkFrom A.states 0 w₁ = some m := by
        rw [← hb2A w₁ m hmN]
        exact hwm
      rw [hb2lt m (by omega)] at hstm
      by_cases hm1 : m ∈ vis1
      · obtain ⟨stA, hstA, hnone, hmodm⟩ := hSA.hmod m hm1
        rw [hmodm] at hstm
        simp only [Option.some.injEq] at hstm
        rw [← hstm] at hedge
        rw [findTr_setTr] at hedge
        by_cases hac : a = c
        · rw [if_pos hac] at hedge
          simp only [Option.some.injEq] at hedge
          omega
        · rw [if_neg hac] at hedge
          have hstA' : A.states[m]? = some stA := by
            rw [← List.getElem?_append_left hmlt]
            exact hstA
          exact ⟨w₁, a, m, stA, hw, hwmA, hstA', hedge, fun hh => hac hh.2⟩
      · rw [hs2A m hmlt hm1] at hstm
        exact ⟨w₁, a, m, stm, hw, hwmA, hstm, hedge, hnm⟩
  have wQ2 : ∀ w : List Char, walkFrom A.states 0 w = some q →
      walkFrom S 0 w = some q ∨ walkFrom S 0 w = some (N + 1) := by
    intro w h
    have hb : walkFrom base2 0 w = some q := by
      rw [hb2A w q hNq]
      exact h
    obtain ⟨u', hu', hmerge⟩ := hCR.preserveC w 0 q hb
    rw [hw32 w 0]
    rcases hmerge with h1 | ⟨h1, h2⟩
    · subst h1
      exact Or.inl hu'
    · subst h2
      exact Or.inr hu'
  have wSome : ∀ w : List Char, (walkFrom A.states 0 w).isSome →
      (walkFrom S 0 w).isSome := by
    intro w h
    obtain ⟨u, hu⟩ := Option.isSome_iff_exists.mp h
    have huN : u ≠ N := by
      have := hI.reach_lt hu
      omega
    have hb : walkFrom base2 0 w = some u := by
      rw [hb2A w u huN]
      exact hu
    obtain ⟨u', hu', _⟩ := hCR.preserveC w 0 u hb
    rw [hw32 w 0]
    simp [hu']
  exact ⟨hlenS, e1, e2, e3, e4mod, e4vis1, e0, e6, wOld, wCur, wClone, wQ1, wQ2, wSome⟩

/-! ### Semantics of the redirect chain against the invariant -/

theorem snoc_inj {l₁ l₂ : List Char} {a b : Char} (h : l₁ ++ [a] = l₂ ++ [b]) :
    l₁ = l₂ ∧ a = b := by
  have h1 := congrArg List.reverse h
  simp only [List.reverse_append, List.reverse_cons, List.reverse_nil, List.nil_append,
    List.singleton_append, List.cons.injEq] at h1
  refine ⟨?_, h1.1⟩
  have h2 := congrArg List.reverse h1.2
  simpa using h2

theorem suffix_snoc_cancel {l₁ l₂ : List Char} {a : Char} (h : l₁ ++ [a] <:+ l₂ ++ [a]) :
    l₁ <:+ l₂ := by
  obtain ⟨t, ht⟩ := h
  rw [← List.append_assoc] at ht
  exact ⟨t, (snoc_inj ht).1⟩

theorem suffix_of_suffix_length {w w' u : List Char} (h : w <:+ u) (h' : w' <:+ u)
    (hlen : w.length ≤ w'.length) : w <:+ w' := by
  rw [eq_takeSuffix_of_suffix h, eq_takeSuffix_of_suffix h']
  exact takeSuffix_suffix_of_le hlen

theorem redirChain_mem_edge {sts : List State} {c : Char} {q : Nat} :
    ∀ {p : Int} {vis : List Nat} {p₀ : Int}, RedirChain sts c q p vis p₀ →
    ∀ e ∈ vis, ∃ st : State, sts[e]? = some st ∧ findTr st.next c = some q := by
  intro p vis p₀ hRC
  induction hRC with
  | stop_neg => intro e he; simp at he
  | stop_other p st hp0 hst hfind => intro e he; simp at he
  | step p st vis p₀ hp0 hst hfind hRC ih =>
    intro e he
    rcases List.mem_cons.mp he with he | he
    · subst he
      exact ⟨st, hst, hfind⟩
    · exact ih e he

namespace Inv

variable {A : SuffixAutomaton} {s : List Char} {wit : Nat → List Char}

/-- Transition edges increase `len` by at least one (semantic consequence). -/
theorem edge_len (hI : Inv A s wit) {i : Nat} {st : State} {a : Char} {j : Nat} {stj : State}
    (hst : A.states[i]? = some st) (hedge : findTr st.next a = some j)
    (hstj : A.states[j]? = some stj) : st.len + 1 ≤ stj.len := by
  have hiN : i < A.states.length := (List.getElem?_eq_some_iff.mp hst).1
  have h1 : walkFrom A.states 0 (wit i ++ [a]) = some j :=
    walk_snoc_of (hI.witReach i hiN) hst hedge
  have h2 : wit i ++ [a] <:+ wit j := hI.reachSuffix j _ h1
  have h3 := h2.length_le
  rw [hI.witLen j stj hstj] at h3
  simp only [List.length_append, List.length_cons, List.length_nil] at h3
  rw [hI.witLen i st hst] at h3
  omega

/-- Longest strings along the redirect chain are suffixes of the start's. -/
theorem redir_wit (hI : Inv A s wit) {c : Char} {q : Nat} :
    ∀ {p : Int} {vis : List Nat} {p₀ : Int}, RedirChain A.states c q p vis p₀ → 0 ≤ p →
    ∀ e ∈ vis, wit e <:+ wit p.toNat := by
  intro p vis p₀ hRC
  induction hRC with
  | stop_neg => intro hp; exact absurd hp (by norm_num)
  | stop_other p st hp0 hst hfind => intro hp e he; simp at he
  | step p st vis p₀ hp0 hst hfind hRC ih =>
    intro hp e he
    rcases List.mem_cons.mp he with he | he
    · subst he
      exact List.suffix_refl _
    · by_cases hz : p.toNat = 0
      · have hlk : st.link = -1 := by
          apply (hI.zeroSt st _).2
          rw [← hz]
          exact hst
        rw [hlk] at hRC
        obtain ⟨hv, hP⟩ := redirChain_neg hRC
        rw [hv] at he
        simp at he
      · obtain ⟨hl0, hl1⟩ := hI.linkValid p.toNat st hst hz
        obtain ⟨stl, hstl⟩ := hI.stAt hl1
        have h1 : wit st.link.toNat <:+ wit p.toNat := by
          rw [hI.wit_link hst hz hstl]
          exact takeSuffix_suffix _ _
        exact (ih hl0 e he).trans h1

/-- Every word reaching a member of the redirect chain is at least as long
as the `len` of `q`'s link. -/
theorem redir_linkbound (hI : Inv A s wit) {c : Char} {q : Nat} {qstA stlq : State}
    (hqstA : A.states[q]? = some qstA) (hq0 : q ≠ 0)
    (hstlq : A.states[qstA.link.toNat]? = some stlq)
    {p : Int} {vis : List Nat} {p₀ : Int} (hRC : RedirChain A.states c q p vis p₀) :
    ∀ e ∈ vis, ∀ w : List Char, walkFrom A.states 0 w = some e → stlq.len ≤ w.length := by
  intro e he w hw
  obtain ⟨st, hst, hedge⟩ := redirChain_mem_edge hRC e he
  by_cases hez : e = 0
  · subst hez
    have h1 : walkFrom A.states 0 [c] = some q :=
      walk_snoc_of (walk_nil _ _) hst hedge
    have h2 := hI.reachMin q qstA stlq [c] hqstA hq0 hstlq h1
    simp at h2
    omega
  · obtain ⟨hl0, hl1⟩ := hI.linkValid e st hst hez
    obtain ⟨stle, hstle⟩ := hI.stAt hl1
    have hmin := hI.reachMin e st stle w hst hez hstle hw
    -- the shortest member of e's class, extended by c, reaches q
    have hlt : stle.len < st.len := hI.linkLt e st stle hst hez hstle
    have hwl : (wit e).length = st.len := hI.witLen e st hst
    have ht : takeSuffix (wit e) (stle.len + 1) <:+ wit e := takeSuffix_suffix _ _
    have htl : (takeSuffix (wit e) (stle.len + 1)).length = stle.len + 1 :=
      takeSuffix_length (by omega)
    have h1 : walkFrom A.states 0 (takeSuffix (wit e) (stle.len + 1)) = some e :=
      hI.reachFull e st stle _ hst hez hstle ht (by omega)
    have h2 : walkFrom A.states 0 (takeSuffix (wit e) (stle.len + 1) ++ [c]) = some q :=
      walk_snoc_of h1 hst hedge
    have h3 := hI.reachMin q qstA stlq _ hqstA hq0 hstlq h2
    simp only [List.length_append, List.length_cons, List.length_nil] at h3
    omega

/-- Coverage: every sufficiently long suffix of the chain start's longest
string reaches a member of the redirect chain. -/
theorem redir_mem (hI : Inv A s wit) {c : Char} {q : Nat} {qstA stlq : State}
    (hqstA : A.states[q]? = some qstA) (hq0 : q ≠ 0)
    (hstlq : A.states[qstA.link.toNat]? = some stlq) :
    ∀ {p : Int} {vis : List Nat} {p₀ : Int}, RedirChain A.states c q p vis p₀ → 0 ≤ p →
    wit p.toNat ++ [c] <:+ wit q →
    ∀ (w : List Char) (i : Nat), w <:+ wit p.toNat → stlq.len ≤ w.length →
    walkFrom A.states 0 w = some i → i ∈ vis := by
  intro p vis p₀ hRC
  induction hRC with
  | stop_neg => intro hp; exact absurd hp (by norm_num)
  | stop_other p st hp0 hst hfind =>
    intro hp hcarr w i hw hlen hwalk
    exfalso
    have hpN : p.toNat < A.states.length := (List.getElem?_eq_some_iff.mp hst).1
    have hwitlen : (wit p.toNat).length = st.len := hI.witLen p.toNat st hst
    have hwle : w.length ≤ st.len := by
      have := hw.length_le
      omega
    have hfull : walkFrom A.states 0 (wit p.toNat ++ [c]) = some q := by
      refine hI.reachFull q qstA stlq _ hqstA hq0 hstlq hcarr ?_
      simp only [List.length_append, List.length_cons, List.length_nil]
      omega
    obtain ⟨m, stm, hm, hstm, hedgem⟩ := walk_snoc_some hfull
    rw [hI.witReach p.toNat hpN] at hm
    simp only [Option.some.injEq] at hm
    rw [← hm] at hstm
    rw [hst] at hstm
    simp only [Option.some.injEq] at hstm
    rw [← hstm] at hedgem
    exact hfind hedgem
  | step p st vis p₀ hp0 hst hfind hRC ih =>
    intro hp hcarr w i hw hlen hwalk
    by_cases hz : p.toNat = 0
    · have hwz : w = [] := by
        rw [hz, hI.wit_zero] at hw
        exact List.suffix_nil.mp hw
      subst hwz
      rw [walk_nil] at hwalk
      simp only [Option.some.injEq] at hwalk
      rw [← hwalk, ← hz]
      exact List.mem_cons_self _ _
    · obtain ⟨hl0, hl1⟩ := hI.linkValid p.toNat st hst hz
      obtain ⟨stl, hstl⟩ := hI.stAt hl1
      by_cases hlt : stl.len < w.length
      · have h1 : walkFrom A.states 0 w = some p.toNat :=
          hI.reachFull p.toNat st stl w hst hz hstl hw hlt
        rw [h1] at hwalk
        simp only [Option.some.injEq] at hwalk
        rw [← hwalk]
        exact List.mem_cons_self _ _
      · have hwl : w <:+ wit st.link.toNat := by
          rw [hI.wit_link hst hz hstl]
          rw [eq_takeSuffix_of_suffix hw]
          exact takeSuffix_suffix_of_le (by omega)
        have hcarr' : wit st.link.toNat ++ [c] <:+ wit q := by
          refine (suffix_snoc_mono ?_ c).trans hcarr
          rw [hI.wit_link hst hz hstl]
          exact takeSuffix_suffix _ _
        exact List.mem_cons_of_mem _ (ih hl0 hcarr' w i hwl hlen hwalk)

end Inv

theorem redirChain_start_mem {sts : List State} {c : Char} {q : Nat} {p : Int}
    {vis : List Nat} {p₀ : Int} (h : RedirChain sts c q p vis p₀) (hp : 0 ≤ p)
    {st : State} (hst : sts[p.toNat]? = some st) (hf : findTr st.next c = some q) :
    p.toNat ∈ vis := by
  cases h with
  | stop_neg => exact absurd hp (by norm_num)
  | stop_other p st' hp0 hst' hfind =>
    exfalso
    rw [hst] at hst'
    simp only [Option.some.injEq] at hst'
    rw [← hst'] at hfind
    exact hfind hf
  | step p st' vis p₀ hp0 hst' hfind hRC => exact List.mem_cons_self _ _

namespace Inv

variable {A : SuffixAutomaton} {s : List Char} {wit : Nat → List Char}

/-- Every word reaching a member of the first loop's chain is longer than
the stop state's `len`. -/
theorem seek_min (hI : Inv A s wit) {c : Char} {vis1 : List Nat} {p₀ : Int}
    (hSC : SeekChain A.states c (Int.ofNat A.last) vis1 p₀)
    {pst : State} (hpst : A.states[p₀.toNat]? = some pst)
    (hp₀lens : ∀ e ∈ vis1, lenAt A.states p₀.toNat < lenAt A.states e) :
    ∀ (w₁ : List Char) (e : Nat), e ∈ vis1 → walkFrom A.states 0 w₁ = some e →
      pst.len < w₁.length := by
  obtain ⟨st0, hst0⟩ := hI.stAt hI.posLen
  obtain ⟨hst0len, hst0link⟩ := hI.zeroSt st0 hst0
  have hlenAtp₀ : lenAt A.states p₀.toNat = pst.len := by simp [lenAt, hpst]
  intro w₁ e he hwe
  have heN : e < A.states.length := hI.reach_lt hwe
  obtain ⟨ste, hste⟩ := hI.stAt heN
  have hle : lenAt A.states e = ste.len := by simp [lenAt, hste]
  have hlp := hp₀lens e he
  by_cases hez : e = 0
  · subst hez
    rw [hst0] at hste
    simp only [Option.some.injEq] at hste
    rw [← hste] at hle
    omega
  · obtain ⟨stel, hstel⟩ := hI.stAt (hI.linkValid e ste hste hez).2
    have hmin := hI.reachMin e ste stel w₁ hste hez hstel hwe
    obtain ⟨ste', hste', hlk⟩ := seek_link_mem hSC e he
    rw [hste] at hste'
    simp only [Option.some.injEq] at hste'
    rw [← hste'] at hlk
    rcases hlk with ⟨h1, h2⟩ | h1
    · have h3 := hp₀lens ste.link.toNat h2
      have h4 : lenAt A.states ste.link.toNat = stel.len := by simp [lenAt, hstel]
      omega
    · rw [h1] at hstel
      rw [hpst] at hstel
      simp only [Option.some.injEq] at hstel
      rw [← hstel] at hmin
      omega

end Inv

/-- Case C of `extend` (`p₀ ≥ 0`, split required): `cur` and `clone` are
appended, the chain below `p₀` is redirected to `clone`, and `q`'s and
`cur`'s links point at `clone`. -/
theorem Inv.caseC {A : SuffixAutomaton} {s : List Char} {wit : Nat → List Char}
    {c : Char} {vis1 vis2 : List Nat} {S : List State} {p₀ p₂ : Int}
    {pst qst qstA : State} {q : Nat}
    (hI : Inv A s wit)
    (hSC : SeekChain A.states c (Int.ofNat A.last) vis1 p₀)
    (hp₀ : 0 ≤ p₀) (hp₀N : p₀.toNat < A.states.length)
    (hpst : A.states[p₀.toNat]? = some pst)
    (hedge : findTr pst.next c = some q)
    (hqstA : A.states[q]? = some qstA)
    (hqlen_ne : ¬ pst.len + 1 = qst.len)
    (hp₀lens : ∀ e ∈ vis1, lenAt A.states p₀.toNat < lenAt A.states e)
    (hRCA : RedirChain A.states c q p₀ vis2 p₂)
    (hD : CDesc A s c q qst pst.len vis1 vis2 S)
    (hqq : qst.len = qstA.len ∧ qst.link = qstA.link)
    (hqedges : ∀ (a : Char) (j : Nat), findTr qst.next a = some j → j ≤ A.states.length)
    (hnodup : ∀ (i : Nat) (st : State), S[i]? = some st → (st.next.map Prod.fst).Nodup) :
    Inv ⟨S, A.states.length⟩ (s ++ [c])
      (updWit (updWit wit (A.states.length + 1) (wit p₀.toNat ++ [c]))
        A.states.length (s ++ [c])) := by
  set N := A.states.length with hN
  set s' := s ++ [c] with hs'
  set wit' := updWit (updWit wit (N + 1) (wit p₀.toNat ++ [c])) N s' with hwit'
  have hwitN : wit' N = s' := updWit_self _ _ _
  have hwitN1 : wit' (N + 1) = wit p₀.toNat ++ [c] := by
    rw [hwit', updWit_ne _ (by omega) _, updWit_self]
  have hwitold : ∀ i : Nat, i ≠ N → i ≠ N + 1 → wit' i = wit i := by
    intro i h1 h2
    rw [hwit', updWit_ne _ h1 _, updWit_ne _ h2 _]
  obtain ⟨st0, hst0⟩ := hI.stAt hI.posLen
  obtain ⟨hst0len, hst0link⟩ := hI.zeroSt st0 hst0
  have h0N : (0 : Nat) ≠ N := by have := hI.posLen; omega
  -- basic facts about q and its link
  have hqlen2 : pst.len + 2 ≤ qstA.len := by
    have h1 := hI.edge_len hpst hedge hqstA
    have h2 : qst.len = qstA.len := hqq.1
    omega
  have hq0 : q ≠ 0 := by
    intro h
    rw [h, hst0] at hqstA
    simp only [Option.some.injEq] at hqstA
    have h1 : qstA.len = 0 := by rw [← hqstA]; exact hst0len
    omega
  have hqN : q < N := hI.edgeValid p₀.toNat pst c q hpst hedge
  have hNq : q ≠ N := by omega
  have hqN1 : q ≠ N + 1 := by omega
  obtain ⟨hlq0, hlq1⟩ := hI.linkValid q qstA hqstA hq0
  obtain ⟨stlq, hstlq⟩ := hI.stAt hlq1
  have hstlq_lt : stlq.len < qstA.len := hI.linkLt q qstA stlq hqstA hq0 hstlq
  have hlqq : qstA.link.toNat ≠ q := by
    intro h
    rw [h, hqstA] at hstlq
    simp only [Option.some.injEq] at hstlq
    rw [← hstlq] at hstlq_lt
    omega
  -- facts about the seek chain and p₀
  have hlast_vis : A.last ∈ vis1 := by
    obtain ⟨vis', hv⟩ := hI.seek_from_last hSC
    rw [hv]
    exact List.mem_cons_self _ _
  have hvis_suffix : ∀ e ∈ vis1, wit e <:+ s := by
    intro e he
    refine ((hI.seek_wit hSC ?_).1) e he
    intro h0
    rw [show (Int.ofNat A.last).toNat = A.last by simp, hI.wit_last]
  obtain ⟨lastSt, hlastSt, hlastLen⟩ := hI.lastSt_len
  have hlenAtp₀ : lenAt A.states p₀.toNat = pst.len := by simp [lenAt, hpst]
  have hlenAtLast : lenAt A.states A.last = s.length := by
    simp [lenAt, hlastSt, hlastLen]
  have hpstlen : pst.len < s.length := by
    have := hp₀lens A.last hlast_vis
    omega
  have hlenN : s.length + 1 ≤ N := by
    have := hI.lenIdx A.last lastSt hlastSt
    have := hI.lastValid
    omega
  have hwitp₀len : (wit p₀.toNat).length = pst.len := hI.witLen p₀.toNat pst hpst
  have hwitp₀ : wit p₀.toNat <:+ s := by
    refine (hI.seek_wit hSC ?_).2 hp₀
    intro h0
    rw [show (Int.ofNat A.last).toNat = A.last by simp, hI.wit_last]
  have hsem : walkFrom A.states 0 (wit p₀.toNat ++ [c]) = some q :=
    walk_snoc_of (hI.witReach p₀.toNat hp₀N) hpst hedge
  have hwitqsuf : wit p₀.toNat ++ [c] <:+ wit q := hI.reachSuffix q _ hsem
  have hwitqlen : (wit q).length = qstA.len := hI.witLen q qstA hqstA
  have hstlq_le : stlq.len ≤ pst.len := by
    have h1 := hI.reachMin q qstA stlq _ hqstA hq0 hstlq hsem
    simp only [List.length_append, List.length_cons, List.length_nil] at h1
    omega
  -- facts about the redirect chain
  have hp₀vis2 : p₀.toNat ∈ vis2 := redirChain_start_mem hRCA hp₀ hpst hedge
  have hvis2wit : ∀ e ∈ vis2, wit e <:+ wit p₀.toNat := hI.redir_wit hRCA hp₀
  have hvis2bound := hI.redir_linkbound hqstA hq0 hstlq hRCA
  have hcover := hI.redir_mem hqstA hq0 hstlq hRCA hp₀ hwitqsuf
  have hminvis1 := hI.seek_min hSC hpst hp₀lens
  -- lookup helpers on the new state list
  have hSlen : S.length = N + 2 := hD.e5
  have hpair : ∀ {j : Nat}, j ≠ q → j ≠ N → j ≠ N + 1 → ∀ {st : State}, S[j]? = some st →
      ∃ stA : State, A.states[j]? = some stA ∧ st.len = stA.len ∧ st.link = stA.link := by
    intro j hjq hjN hjN1 st hst
    have h6 := hD.e6 j hjq hjN hjN1
    rw [hst] at h6
    cases hstA : A.states[j]? with
    | none => rw [hstA] at h6; simp at h6
    | some stA =>
      rw [hstA] at h6
      simp only [Option.map_some', Option.some.injEq, Prod.mk.injEq] at h6
      exact ⟨stA, rfl, h6.1, h6.2⟩
  have hlenpres : ∀ {j : Nat}, j ≠ N → j ≠ N + 1 → ∀ {st : State}, S[j]? = some st →
      ∃ stA : State, A.states[j]? = some stA ∧ st.len = stA.len := by
    intro j hjN hjN1 st hst
    by_cases hjq : j = q
    · subst hjq
      rw [hD.e3] at hst
      simp only [Option.some.injEq] at hst
      refine ⟨qstA, hqstA, ?_⟩
      rw [← hst]
      exact hqq.1
    · obtain ⟨stA, hstA, h1, h2⟩ := hpair hjq hjN hjN1 hst
      exact ⟨stA, hstA, h1⟩
  -- lifting A-walks ending at q
  have hliftq : ∀ w : List Char, walkFrom A.states 0 w = some q →
      pst.len + 2 ≤ w.length → walkFrom S 0 w = some q := by
    intro w hw hlen
    rcases hD.wQ2 w hw with h | h
    · exact h
    · exfalso
      rw [hD.wClone] at h
      obtain ⟨w₁, e, he, hwe, hweq⟩ := h
      have h1 : w₁ <:+ wit e := hI.reachSuffix e w₁ hwe
      have h2 : wit e <:+ wit p₀.toNat := hvis2wit e he
      have h3 := h1.length_le
      have h4 := h2.length_le
      rw [hweq] at hlen
      simp only [List.length_append, List.length_cons, List.length_nil] at hlen
      omega
  -- minimality at q in the new automaton
  have hq_min : ∀ w : List Char, walkFrom S 0 w = some q → pst.len + 1 < w.length := by
    intro w hw
    obtain ⟨hwA, hdec⟩ := hD.wQ1 w hw
    by_contra hle
    push_neg at hle
    have hsuf : w <:+ wit q := hI.reachSuffix q w hwA
    have hsufp : w <:+ wit p₀.toNat ++ [c] := by
      refine suffix_of_suffix_length hsuf hwitqsuf ?_
      simp only [List.length_append, List.length_cons, List.length_nil]
      omega
    rcases hdec with hnil | ⟨w₁, a, m, stm, hweq, hwm, hstm, hedgem, hnm⟩
    · rw [hnil, walk_nil] at hwA
      simp only [Option.some.injEq] at hwA
      exact hq0 hwA.symm
    · rcases suffix_snoc_iff.mp hsufp with hnil | ⟨w₀, hw₀, hweq2⟩
      · rw [hnil] at hweq
        simp at hweq
      · rw [hweq] at hweq2
        obtain ⟨hw10, hac⟩ := snoc_inj hweq2
        have hminw := hI.reachMin q qstA stlq w hqstA hq0 hstlq hwA
        rw [hweq] at hminw
        simp only [List.length_append, List.length_cons, List.length_nil] at hminw
        have hmem : m ∈ vis2 := by
          refine hcover w₁ m ?_ (by omega) hwm
          rw [hw10]
          exact hw₀
        exact hnm ⟨hmem, hac⟩
  -- cover of vis1 by long suffixes of s
  have hfull1 : ∀ w₁ : List Char, w₁ <:+ s → pst.len < w₁.length →
      ∃ e ∈ vis1, walkFrom A.states 0 w₁ = some e := by
    intro w₁ hw₁ hlen
    have h1 := hI.complete w₁ hw₁.isInfix
    obtain ⟨e, he⟩ := Option.isSome_iff_exists.mp h1
    refine ⟨e, ?_, he⟩
    refine hI.seek_mem hSC (by simp) w₁ e ?_ ?_ he
    · rw [show (Int.ofNat A.last).toNat = A.last by simp, hI.wit_last]
      exact hw₁
    · intro h₀ stp hstp
      rw [hpst] at hstp
      simp only [Option.some.injEq] at hstp
      rw [← hstp]
      omega
  have hlastReach : walkFrom S 0 s' = some N := by
    rw [hD.wCur]
    exact ⟨s, A.last, hlast_vis, hI.lastReach, rfl⟩
  have hwitN1reach : walkFrom S 0 (wit p₀.toNat ++ [c]) = some (N + 1) := by
    rw [hD.wClone]
    exact ⟨wit p₀.toNat, p₀.toNat, hp₀vis2, hI.witReach p₀.toNat hp₀N, rfl⟩
  refine ⟨?_, ?_, ?_, ?_, ?_, ?_, ?_, ?_, ?_, ?_, ?_, ?_, ?_, ?_, ?_, ?_, ?_, ?_⟩
  · -- posLen
    show 0 < S.length
    omega
  · -- zeroSt
    intro st hst
    show st.len = 0 ∧ st.link = -1
    obtain ⟨stA, hstA, h1, h2⟩ := hpair (Ne.symm hq0) h0N (by omega) hst
    rw [hst0] at hstA
    simp only [Option.some.injEq] at hstA
    rw [← hstA] at h1 h2
    rw [h1, h2, hst0len, hst0link]
    exact ⟨rfl, rfl⟩
  · -- linkValid
    intro i st hst hi
    show 0 ≤ st.link ∧ st.link.toNat < S.length
    by_cases hiN : i = N
    · subst hiN
      rw [hD.e1] at hst
      simp only [Option.some.injEq] at hst
      rw [← hst]
      show 0 ≤ Int.ofNat (N + 1) ∧ (Int.ofNat (N + 1)).toNat < S.length
      refine ⟨Int.ofNat_nonneg _, ?_⟩
      rw [show (Int.ofNat (N + 1)).toNat = N + 1 by simp]
      omega
    · by_cases hiN1 : i = N + 1
      · subst hiN1
        rw [hD.e2] at hst
        simp only [Option.some.injEq] at hst
        rw [← hst]
        show 0 ≤ qst.link ∧ qst.link.toNat < S.length
        rw [hqq.2]
        exact ⟨hlq0, by omega⟩
      · by_cases hiq : i = q
        · subst hiq
          rw [hD.e3] at hst
          simp only [Option.some.injEq] at hst
          rw [← hst]
          show 0 ≤ Int.ofNat (N + 1) ∧ (Int.ofNat (N + 1)).toNat < S.length
          refine ⟨Int.ofNat_nonneg _, ?_⟩
          rw [show (Int.ofNat (N + 1)).toNat = N + 1 by simp]
          omega
        · obtain ⟨stA, hstA, h1, h2⟩ := hpair hiq hiN hiN1 hst
          obtain ⟨hv1, hv2⟩ := hI.linkValid i stA hstA hi
          rw [h2]
          exact ⟨hv1, by omega⟩
  · -- linkLt
    intro i st stl hst hi hstl
    show stl.len < st.len
    by_cases hiN : i = N
    · subst hiN
      rw [hD.e1] at hst
      simp only [Option.some.injEq] at hst
      rw [← hst] at hstl ⊢
      have hstl' : S[(Int.ofNat (N + 1)).toNat]? = some stl := hstl
      rw [show (Int.ofNat (N + 1)).toNat = N + 1 by simp, hD.e2] at hstl'
      simp only [Option.some.injEq] at hstl'
      rw [← hstl']
      show pst.len + 1 < s.length + 1
      omega
    · by_cases hiN1 : i = N + 1
      · subst hiN1
        rw [hD.e2] at hst
        simp only [Option.some.injEq] at hst
        rw [← hst] at hstl ⊢
        have hstl' : S[qst.link.toNat]? = some stl := hstl
        rw [hqq.2] at hstl'
        obtain ⟨stlA, hstlA, hlen_eq⟩ :=
          hlenpres (by omega) (by omega) hstl'
        rw [hstlq] at hstlA
        simp only [Option.some.injEq] at hstlA
        rw [← hstlA] at hlen_eq
        show stl.len < pst.len + 1
        omega
      · by_cases hiq : i = q
        · rw [hiq] at hst
          rw [hD.e3] at hst
          simp only [Option.some.injEq] at hst
          have hstl' : S[(Int.ofNat (N + 1)).toNat]? = some stl := by
            rw [← hst] at hstl
            exact hstl
          rw [show (Int.ofNat (N + 1)).toNat = N + 1 by simp, hD.e2] at hstl'
          simp only [Option.some.injEq] at hstl'
          rw [← hstl', ← hst]
          show pst.len + 1 < qst.len
          omega
        · obtain ⟨stA, hstA, h1, h2⟩ := hpair hiq hiN hiN1 hst
          obtain ⟨hv1, hv2⟩ := hI.linkValid i stA hstA hi
          have hstl' : S[stA.link.toNat]? = some stl := by rw [← h2]; exact hstl
          obtain ⟨stlA, hstlA, hlen_eq⟩ := hlenpres (by omega) (by omega) hstl'
          have := hI.linkLt i stA stlA hstA hi hstlA
          omega
  · -- edgeValid
    intro i st a j hst hedge'
    show j < S.length
    by_cases hiN : i = N
    · subst hiN
      rw [hD.e1] at hst
      simp only [Option.some.injEq] at hst
      rw [← hst] at hedge'
      simp [findTr] at hedge'
    · by_cases hiN1 : i = N + 1
      · subst hiN1
        rw [hD.e2] at hst
        simp only [Option.some.injEq] at hst
        rw [← hst] at hedge'
        have := hqedges a j hedge'
        omega
      · by_cases hiq : i = q
        · subst hiq
          rw [hD.e3] at hst
          simp only [Option.some.injEq] at hst
          rw [← hst] at hedge'
          have := hqedges a j hedge'
          omega
        · by_cases hiv2 : i ∈ vis2
          · obtain ⟨stA, hstA, hcq, hmodi⟩ := hD.e4mod i hiv2
            rw [hmodi] at hst
            simp only [Option.some.injEq] at hst
            rw [← hst] at hedge'
            rw [findTr_setTr] at hedge'
            by_cases hac : a = c
            · rw [if_pos hac] at hedge'
              simp only [Option.some.injEq] at hedge'
              omega
            · rw [if_neg hac] at hedge'
              have := hI.edgeValid i stA a j hstA hedge'
              omega
          · by_cases hiv1 : i ∈ vis1
            · obtain ⟨stA, hstA, hnone, hmodi⟩ := hD.e4vis1 i hiv1 hiq
              rw [hmodi] at hst
              simp only [Option.some.injEq] at hst
              rw [← hst] at hedge'
              rw [findTr_setTr] at hedge'
              by_cases hac : a = c
              · rw [if_pos hac] at hedge'
                simp only [Option.some.injEq] at hedge'
                omega
              · rw [if_neg hac] at hedge'
                have := hI.edgeValid i stA a j hstA hedge'
                omega
            · rw [hD.e0 i hiv1 hiv2 hiq hiN hiN1] at hst
              have := hI.edgeValid i st a j hst hedge'
              omega
  · -- lenIdx
    intro i st hst
    show st.len ≤ i
    by_cases hiN : i = N
    · subst hiN
      rw [hD.e1] at hst
      simp only [Option.some.injEq] at hst
      rw [← hst]
      exact hlenN
    · by_cases hiN1 : i = N + 1
      · subst hiN1
        rw [hD.e2] at hst
        simp only [Option.some.injEq] at hst
        rw [← hst]
        show pst.len + 1 ≤ N + 1
        have := hI.lenIdx p₀.toNat pst hpst
        omega
      · obtain ⟨stA, hstA, h1⟩ := hlenpres hiN hiN1 hst
        have := hI.lenIdx i stA hstA
        omega
  · -- lastValid
    show N < S.length
    omega
  · -- lastReach
    exact hlastReach
  · -- lastLen
    intro st hst
    show st.len = s'.length
    have hst2 : S[N]? = some st := hst
    rw [hD.e1] at hst2
    simp only [Option.some.injEq] at hst2
    rw [← hst2, hs']
    simp
  · -- witReach
    intro i hi
    show walkFrom S 0 (wit' i) = some i
    by_cases hiN : i = N
    · subst hiN
      rw [hwitN]
      exact hlastReach
    · by_cases hiN1 : i = N + 1
      · subst hiN1
        rw [hwitN1]
        exact hwitN1reach
      · rw [hwitold i hiN hiN1]
        by_cases hiq : i = q
        · rw [hiq]
          refine hliftq (wit q) (hI.witReach q hqN) ?_
          omega
        · rw [hD.wOld (wit i) i hiq hiN hiN1]
          exact hI.witReach i (by rw [hSlen] at hi; omega)
  · -- witLen
    intro i st hst
    show (wit' i).length = st.len
    by_cases hiN : i = N
    · subst hiN
      rw [hwitN]
      have hst2 : S[N]? = some st := hst
      rw [hD.e1] at hst2
      simp only [Option.some.injEq] at hst2
      rw [← hst2, hs']
      simp
    · by_cases hiN1 : i = N + 1
      · subst hiN1
        rw [hwitN1]
        have hst2 : S[N + 1]? = some st := hst
        rw [hD.e2] at hst2
        simp only [Option.some.injEq] at hst2
        rw [← hst2]
        show (wit p₀.toNat ++ [c]).length = pst.len + 1
        simp [hwitp₀len]
      · rw [hwitold i hiN hiN1]
        obtain ⟨stA, hstA, h1⟩ := hlenpres hiN hiN1 hst
        rw [hI.witLen i stA hstA]
        omega
  · -- witIn
    intro i hi
    show wit' i <:+: s'
    by_cases hiN : i = N
    · subst hiN
      rw [hwitN]
    · by_cases hiN1 : i = N + 1
      · subst hiN1
        rw [hwitN1]
        exact (suffix_snoc_mono hwitp₀ c).isInfix
      · rw [hwitold i hiN hiN1]
        have hiN' : i < N := by rw [hSlen] at hi; omega
        exact (hI.witIn i hiN').trans (infix_of_self_snoc s c)
  · -- reachSuffix
    intro i w hwalk
    show w <:+ wit' i
    by_cases hiN : i = N
    · subst hiN
      rw [hwitN]
      rw [hD.wCur] at hwalk
      obtain ⟨w₁, e, he, hwe, hw⟩ := hwalk
      subst hw
      have h1 : w₁ <:+ wit e := hI.reachSuffix e w₁ hwe
      have h2 : w₁ <:+ s := h1.trans (hvis_suffix e he)
      exact suffix_snoc_mono h2 c
    · by_cases hiN1 : i = N + 1
      · subst hiN1
        rw [hwitN1]
        rw [hD.wClone] at hwalk
        obtain ⟨w₁, e, he, hwe, hw⟩ := hwalk
        subst hw
        have h1 : w₁ <:+ wit e := hI.reachSuffix e w₁ hwe
        have h2 : w₁ <:+ wit p₀.toNat := h1.trans (hvis2wit e he)
        exact suffix_snoc_mono h2 c
      · rw [hwitold i hiN hiN1]
        by_cases hiq : i = q
        · rw [hiq] at hwalk ⊢
          obtain ⟨hwA, _⟩ := hD.wQ1 w hwalk
          exact hI.reachSuffix q w hwA
        · rw [hD.wOld w i hiq hiN hiN1] at hwalk
          exact hI.reachSuffix i w hwalk
  · -- reachMin
    intro i st stl w hst hi hstl hwalk
    show stl.len < w.length
    by_cases hiN : i = N
    · subst hiN
      rw [hD.e1] at hst
      simp only [Option.some.injEq] at hst
      rw [← hst] at hstl
      have hstl' : S[(Int.ofNat (N + 1)).toNat]? = some stl := hstl
      rw [show (Int.ofNat (N + 1)).toNat = N + 1 by simp, hD.e2] at hstl'
      simp only [Option.some.injEq] at hstl'
      rw [← hstl']
      show pst.len + 1 < w.length
      rw [hD.wCur] at hwalk
      obtain ⟨w₁, e, he, hwe, hw⟩ := hwalk
      subst hw
      have := hminvis1 w₁ e he hwe
      simp only [List.length_append, List.length_cons, List.length_nil]
      omega
    · by_cases hiN1 : i = N + 1
      · subst hiN1
        rw [hD.e2] at hst
        simp only [Option.some.injEq] at hst
        rw [← hst] at hstl
        have hstl' : S[qst.link.toNat]? = some stl := hstl
        rw [hqq.2] at hstl'
        obtain ⟨stlA, hstlA, hlen_eq⟩ := hlenpres (by omega) (by omega) hstl'
        rw [hstlq] at hstlA
        simp only [Option.some.injEq] at hstlA
        rw [← hstlA] at hlen_eq
        rw [hD.wClone] at hwalk
        obtain ⟨w₁, e, he, hwe, hw⟩ := hwalk
        subst hw
        have := hvis2bound e he w₁ hwe
        simp only [List.length_append, List.length_cons, List.length_nil]
        omega
      · by_cases hiq : i = q
        · rw [hiq] at hst hwalk
          rw [hD.e3] at hst
          simp only [Option.some.injEq] at hst
          rw [← hst] at hstl
          have hstl' : S[(Int.ofNat (N + 1)).toNat]? = some stl := hstl
          rw [show (Int.ofNat (N + 1)).toNat = N + 1 by simp, hD.e2] at hstl'
          simp only [Option.some.injEq] at hstl'
          rw [← hstl']
          show pst.len + 1 < w.length
          exact hq_min w hwalk
        · obtain ⟨stA, hstA, h1, h2⟩ := hpair hiq hiN hiN1 hst
          obtain ⟨hv1, hv2⟩ := hI.linkValid i stA hstA hi
          have hstl' : S[stA.link.toNat]? = some stl := by rw [← h2]; exact hstl
          obtain ⟨stlA, hstlA, hlen_eq⟩ := hlenpres (by omega) (by omega) hstl'
          rw [hD.wOld w i hiq hiN hiN1] at hwalk
          have := hI.reachMin i stA stlA w hstA hi hstlA hwalk
          omega
  · -- reachFull
    intro i st stl w hst hi hstl hsuf hlen
    show walkFrom S 0 w = some i
    by_cases hiN : i = N
    · subst hiN
      rw [hD.e1] at hst
      simp only [Option.some.injEq] at hst
      rw [← hst] at hstl
      have hstl' : S[(Int.ofNat (N + 1)).toNat]? = some stl := hstl
      rw [show (Int.ofNat (N + 1)).toNat = N + 1 by simp, hD.e2] at hstl'
      simp only [Option.some.injEq] at hstl'
      rw [← hstl'] at hlen
      rw [hwitN] at hsuf
      rcases suffix_snoc_iff.mp hsuf with hnil | ⟨w₁, hw₁, hweq⟩
      · rw [hnil] at hlen
        simp at hlen
      · subst hweq
        obtain ⟨e, he, hwe⟩ := hfull1 w₁ hw₁ (by
          simp only [List.length_append, List.length_cons, List.length_nil] at hlen
          omega)
        rw [hD.wCur]
        exact ⟨w₁, e, he, hwe, rfl⟩
    · by_cases hiN1 : i = N + 1
      · subst hiN1
        rw [hD.e2] at hst
        simp only [Option.some.injEq] at hst
        rw [← hst] at hstl
        have hstl' : S[qst.link.toNat]? = some stl := hstl
        rw [hqq.2] at hstl'
        obtain ⟨stlA, hstlA, hlen_eq⟩ := hlenpres (by omega) (by omega) hstl'
        rw [hstlq] at hstlA
        simp only [Option.some.injEq] at hstlA
        rw [← hstlA] at hlen_eq
        rw [hwitN1] at hsuf
        rcases suffix_snoc_iff.mp hsuf with hnil | ⟨w₁, hw₁, hweq⟩
        · rw [hnil] at hlen
          simp at hlen
        · subst hweq
          obtain ⟨e, he⟩ := Option.isSome_iff_exists.mp (hI.suffix_reach' hpst hw₁)
          have hmem : e ∈ vis2 := by
            refine hcover w₁ e hw₁ ?_ he
            simp only [List.length_append, List.length_cons, List.length_nil] at hlen
            omega
          rw [hD.wClone]
          exact ⟨w₁, e, hmem, he, rfl⟩
      · by_cases hiq : i = q
        · rw [hiq] at hst hsuf ⊢
          rw [hD.e3] at hst
          simp only [Option.some.injEq] at hst
          rw [← hst] at hstl
          have hstl' : S[(Int.ofNat (N + 1)).toNat]? = some stl := hstl
          rw [show (Int.ofNat (N + 1)).toNat = N + 1 by simp, hD.e2] at hstl'
          simp only [Option.some.injEq] at hstl'
          rw [← hstl'] at hlen
          have hlenq : pst.len + 1 < w.length := hlen
          rw [hwitold q hNq hqN1] at hsuf
          have hwA : walkFrom A.states 0 w = some q := by
            refine hI.reachFull q qstA stlq w hqstA hq0 hstlq hsuf ?_
            omega
          refine hliftq w hwA ?_
          omega
        · obtain ⟨stA, hstA, h1, h2⟩ := hpair hiq hiN hiN1 hst
          obtain ⟨hv1, hv2⟩ := hI.linkValid i stA hstA hi
          have hstl' : S[stA.link.toNat]? = some stl := by rw [← h2]; exact hstl
          obtain ⟨stlA, hstlA, hlen_eq⟩ := hlenpres (by omega) (by omega) hstl'
          rw [hwitold i hiN hiN1] at hsuf
          rw [hD.wOld w i hiq hiN hiN1]
          exact hI.reachFull i stA stlA w hstA hi hstlA hsuf (by omega)
  · -- linkSem
    intro i st stl hst hi hstl
    show walkFrom S 0 (takeSuffix (wit' i) stl.len) = some st.link.toNat
    by_cases hiN : i = N
    · subst hiN
      rw [hD.e1] at hst
      simp only [Option.some.injEq] at hst
      rw [← hst] at hstl ⊢
      have hstl' : S[(Int.ofNat (N + 1)).toNat]? = some stl := hstl
      rw [show (Int.ofNat (N + 1)).toNat = N + 1 by simp, hD.e2] at hstl'
      simp only [Option.some.injEq] at hstl'
      rw [← hstl']
      show walkFrom S 0 (takeSuffix (wit' N) (pst.len + 1)) = some (Int.ofNat (N + 1)).toNat
      rw [hwitN, show (Int.ofNat (N + 1)).toNat = N + 1 by simp]
      have hts : takeSuffix s' (pst.len + 1) = takeSuffix s pst.len ++ [c] :=
        takeSuffix_snoc (by omega) c
      have hts2 : takeSuffix s pst.len = wit p₀.toNat := by
        rw [← hwitp₀len]
        exact (eq_takeSuffix_of_suffix hwitp₀).symm
      rw [hts, hts2]
      exact hwitN1reach
    · by_cases hiN1 : i = N + 1
      · subst hiN1
        rw [hD.e2] at hst
        simp only [Option.some.injEq] at hst
        rw [← hst] at hstl ⊢
        have hstl' : S[qst.link.toNat]? = some stl := hstl
        rw [hqq.2] at hstl'
        obtain ⟨stlA, hstlA, hlen_eq⟩ := hlenpres (by omega) (by omega) hstl'
        rw [hstlq] at hstlA
        simp only [Option.some.injEq] at hstlA
        rw [← hstlA] at hlen_eq
        show walkFrom S 0 (takeSuffix (wit' (N + 1)) stl.len) = some qst.link.toNat
        rw [hwitN1, hqq.2, hlen_eq]
        have hts : takeSuffix (wit p₀.toNat ++ [c]) stlq.len
            = takeSuffix (wit q) stlq.len := by
          refine takeSuffix_of_suffix hwitqsuf ?_
          simp only [List.length_append, List.length_cons, List.length_nil]
          omega
        rw [hts]
        rw [hD.wOld _ _ hlqq (by omega) (by omega)]
        exact hI.linkSem q qstA stlq hqstA hq0 hstlq
      · by_cases hiq : i = q
        · rw [hiq] at hst ⊢
          rw [hD.e3] at hst
          simp only [Option.some.injEq] at hst
          rw [← hst] at hstl ⊢
          have hstl' : S[(Int.ofNat (N + 1)).toNat]? = some stl := hstl
          rw [show (Int.ofNat (N + 1)).toNat = N + 1 by simp, hD.e2] at hstl'
          simp only [Option.some.injEq] at hstl'
          rw [← hstl']
          show walkFrom S 0 (takeSuffix (wit' q) (pst.len + 1)) = some (Int.ofNat (N + 1)).toNat
          rw [hwitold q hNq hqN1, show (Int.ofNat (N + 1)).toNat = N + 1 by simp]
          have hts : takeSuffix (wit q) (pst.len + 1) = wit p₀.toNat ++ [c] := by
            have h1 := eq_takeSuffix_of_suffix hwitqsuf
            have h2 : (wit p₀.toNat ++ [c]).length = pst.len + 1 := by simp [hwitp₀len]
            rw [h2] at h1
            exact h1.symm
          rw [hts]
          exact hwitN1reach
        · obtain ⟨stA, hstA, h1, h2⟩ := hpair hiq hiN hiN1 hst
          obtain ⟨hv1, hv2⟩ := hI.linkValid i stA hstA hi
          have hstl' : S[stA.link.toNat]? = some stl := by rw [← h2]; exact hstl
          obtain ⟨stlA, hstlA, hlen_eq⟩ := hlenpres (by omega) (by omega) hstl'
          have hsemA := hI.linkSem i stA stlA hstA hi hstlA
          rw [hwitold i hiN hiN1, h2, hlen_eq]
          by_cases hlq : stA.link.toNat = q
          · have hstlA' : A.states[q]? = some stlA := by rw [← hlq]; exact hstlA
            rw [hqstA] at hstlA'
            simp only [Option.some.injEq] at hstlA'
            rw [hlq]
            rw [hlq] at hsemA
            refine hliftq _ hsemA ?_
            have hlt := hI.linkLt i stA stlA hstA hi hstlA
            have hwl := hI.witLen i stA hstA
            have hlenw : (takeSuffix (wit i) stlA.len).length = stlA.len :=
              takeSuffix_length (by omega)
            rw [hlenw]
            have hq2 : stlA.len = qstA.len := by rw [← hstlA']
            omega
          · rw [hD.wOld _ _ hlq (by omega) (by omega)]
            exact hsemA
  · -- complete
    intro w hw
    show (walkFrom S 0 w).isSome
    rcases infix_snoc_iff.mp hw with hw1 | hw1
    · exact hD.wSome w (hI.complete w hw1)
    · rcases suffix_snoc_iff.mp hw1 with hnil | ⟨w₁, hw₁, hweq⟩
      · subst hnil
        simp [walk_nil]
      · subst hweq
        by_cases hcase : pst.len < w₁.length
        · obtain ⟨e, he, hwe⟩ := hfull1 w₁ hw₁ hcase
          have hsome : walkFrom S 0 (w₁ ++ [c]) = some N := by
            rw [hD.wCur]
            exact ⟨w₁, e, he, hwe, rfl⟩
          simp [hsome]
        · have hw₁p₀ : w₁ <:+ wit p₀.toNat := by
            refine suffix_of_suffix_length hw₁ hwitp₀ ?_
            omega
          have h1 : w₁ ++ [c] <:+ wit q := (suffix_snoc_mono hw₁p₀ c).trans hwitqsuf
          exact hD.wSome _ (hI.suffix_reach' hqstA h1)
  · -- nodupNext
    intro i st hst
    exact hnodup i st hst

/-! ### Helpers for executing `extend` forward -/

theorem redirChain_transfer₂ {sA sB : List State} {c : Char} {q : Nat} {n : Nat} {L : Nat}
    (hL : LinkOk sA n) (hn : n ≤ sA.length)
    (hag : ∀ j : Nat, j < n → lenAt sA j ≤ L → sB[j]? = sA[j]?) :
    ∀ {p : Int} {vis : List Nat} {p₀ : Int}, RedirChain sA c q p vis p₀ →
    (p = -1 ∨ (0 ≤ p ∧ p.toNat < n ∧ lenAt sA p.toNat ≤ L)) → RedirChain sB c q p vis p₀ := by
  intro p vis p₀ hRC
  induction hRC with
  | stop_neg => intro hp; exact RedirChain.stop_neg
  | stop_other p st hp0 hst hfind =>
    intro hp
    rcases hp with hp | hp
    · omega
    · refine RedirChain.stop_other p st hp0 ?_ hfind
      rw [hag p.toNat hp.2.1 hp.2.2]
      exact hst
  | step p st vis p₀ hp0 hst hfind hRC ih =>
    intro hp
    rcases hp with hp | hp
    · omega
    obtain ⟨hlt, hlen⟩ := hp.2
    have hstB : sB[p.toNat]? = some st := by
      rw [hag p.toNat hlt hlen]
      exact hst
    refine RedirChain.step p st vis p₀ hp0 hstB hfind (ih ?_)
    by_cases hz : p.toNat = 0
    · left
      apply hL.1
      rw [← hz]
      exact hst
    · right
      obtain ⟨h1, h2, h3⟩ := hL.2 p.toNat st hlt hst hz
      obtain ⟨stl, hstl⟩ : ∃ stl : State, sA[st.link.toNat]? = some stl :=
        ⟨sA[st.link.toNat], List.getElem?_eq_getElem (lt_of_lt_of_le h2 hn)⟩
      have h6 := h3 stl hstl
      have h4 : lenAt sA st.link.toNat = stl.len := by simp [lenAt, hstl]
      have h5 : lenAt sA p.toNat = st.len := by simp [lenAt, hst]
      exact ⟨h1, h2, by omega⟩

theorem seekChain_found {sts : List State} {c : Char} :
    ∀ {p : Int} {vis : List Nat} {p₀ : Int}, SeekChain sts c p vis p₀ → 0 ≤ p₀ →
    ∃ (st : State) (j : Nat), sts[p₀.toNat]? = some st ∧ findTr st.next c = some j := by
  intro p vis p₀ hSC
  induction hSC with
  | stop_neg => intro h0; exact absurd h0 (by norm_num)
  | stop_found p st hp0 hst hfind =>
    intro h0
    obtain ⟨j, hj⟩ := Option.isSome_iff_exists.mp hfind
    exact ⟨st, j, hst, hj⟩
  | step p st vis p₀ hp0 hst hfind hSC ih => exact ih

theorem sinkAdd_edgesLT {A : SuffixAutomaton} {s : List Char} {wit : Nat → List Char}
    {c : Char} {vis1 : List Nat} {sts2 : List State}
    (hI : Inv A s wit)
    (hSA : SinkAdd (base1 A s) sts2 c A.states.length vis1)
    (hvis1N : ∀ e ∈ vis1, e < A.states.length) : EdgesLT sts2 := by
  have hlen2 : sts2.length = A.states.length + 1 := by
    rw [hSA.hlen]
    simp [base1]
  have hb1N : (base1 A s)[A.states.length]? = some (newSt s) := by
    simpa [base1] using List.getElem?_concat_length A.states (newSt s)
  intro i st a j hst hj
  rw [hlen2]
  by_cases hiv : i ∈ vis1
  · obtain ⟨stA, hstA, hnone, hmodi⟩ := hSA.hmod i hiv
    rw [hmodi] at hst
    simp only [Option.some.injEq] at hst
    rw [← hst] at hj
    rw [findTr_setTr] at hj
    by_cases hac : a = c
    · rw [if_pos hac] at hj
      simp only [Option.some.injEq] at hj
      omega
    · rw [if_neg hac] at hj
      have hstA' : A.states[i]? = some stA := by
        rw [← List.getElem?_append_left (hvis1N i hiv)]
        exact hstA
      have := hI.edgeValid i stA a j hstA' hj
      omega
  · rw [hSA.hsame i hiv] at hst
    by_cases hilt : i < A.states.length
    · have hstA' : A.states[i]? = some st := by
        rw [← List.getElem?_append_left hilt]
        exact hst
      have := hI.edgeValid i st a j hstA' hj
      omega
    · by_cases hie : i = A.states.length
      · subst hie
        rw [hb1N] at hst
        simp only [Option.some.injEq] at hst
        rw [← hst] at hj
        simp [newSt, findTr] at hj
      · rw [List.getElem?_eq_none (by simp [base1]; omega)] at hst
        cases hst

theorem ABDesc_nodup {A : SuffixAutomaton} {s : List Char} {wit : Nat → List Char}
    {c : Char} {vis : List Nat} {S : List State} {lk : Int}
    (hI : Inv A s wit) (hD : ABDesc A s c vis S lk) :
    ∀ (i : Nat) (st : State), S[i]? = some st → (st.next.map Prod.fst).Nodup := by
  intro i st hst
  by_cases hiN : i = A.states.length
  · subst hiN
    rw [hD.d1] at hst
    simp only [Option.some.injEq] at hst
    rw [← hst]
    simp
  · by_cases hiv : i ∈ vis
    · obtain ⟨stA, hstA, hnone, hmodi⟩ := hD.d4 i hiv
      rw [hmodi] at hst
      simp only [Option.some.injEq] at hst
      rw [← hst]
      exact nodup_keys_setTr (hI.nodupNext i stA hstA) c _
    · rw [hD.d3 i hiv hiN] at hst
      exact hI.nodupNext i st hst

theorem CDesc_nodup {A : SuffixAutomaton} {s : List Char} {wit : Nat → List Char}
    {c : Char} {q : Nat} {qst : State} {pstLen : Nat} {vis1 vis2 : List Nat} {S : List State}
    (hI : Inv A s wit) (hD : CDesc A s c q qst pstLen vis1 vis2 S)
    (hqnodup : (qst.next.map Prod.fst).Nodup) :
    ∀ (i : Nat) (st : State), S[i]? = some st → (st.next.map Prod.fst).Nodup := by
  intro i st hst
  by_cases hiN : i = A.states.length
  · subst hiN
    rw [hD.e1] at hst
    simp only [Option.some.injEq] at hst
    rw [← hst]
    simp
  · by_cases hiN1 : i = A.states.length + 1
    · subst hiN1
      rw [hD.e2] at hst
      simp only [Option.some.injEq] at hst
      rw [← hst]
      exact hqnodup
    · by_cases hiq : i = q
      · rw [hiq] at hst
        rw [hD.e3] at hst
        simp only [Option.some.injEq] at hst
        rw [← hst]
        exact hqnodup
      · by_cases hiv2 : i ∈ vis2
        · obtain ⟨stA, hstA, hcq, hmodi⟩ := hD.e4mod i hiv2
          rw [hmodi] at hst
          simp only [Option.some.injEq] at hst
          rw [← hst]
          exact nodup_keys_setTr (hI.nodupNext i stA hstA) c _
        · by_cases hiv1 : i ∈ vis1
          · obtain ⟨stA, hstA, hnone, hmodi⟩ := hD.e4vis1 i hiv1 hiq
            rw [hmodi] at hst
            simp only [Option.some.injEq] at hst
            rw [← hst]
            exact nodup_keys_setTr (hI.nodupNext i stA hstA) c _
          · rw [hD.e0 i hiv1 hiv2 hiq hiN hiN1] at hst
            exact hI.nodupNext i st hst

/-- Executing `extendAuto` on an automaton satisfying the invariant: the call
succeeds, the invariant is preserved for the extended word, `last` becomes the
first new index, and one state is appended — or two in the clone case, which
only arises once at least two characters have been processed. -/
theorem extend_ok {A : SuffixAutomaton} {s : List Char} {wit : Nat → List Char}
    (hI : Inv A s wit) (c : Char) :
    ∃ (A' : SuffixAutomaton) (wit' : Nat → List Char),
      extendAuto A c = some A' ∧ Inv A' (s ++ [c]) wit' ∧
      A'.last = A.states.length ∧
      (A'.states.length = A.states.length + 1 ∨
        (A'.states.length = A.states.length + 2 ∧ 2 ≤ s.length)) := by
  obtain ⟨vis1, p₀, sts2, hSC, hlastvis, hvisN, hp₀b, hp₀len, hrun, hSA⟩ := hI.setup c
  obtain ⟨lastSt, hlastSt, hlastLen⟩ := hI.lastSt_len
  have hlen2 : sts2.length = A.states.length + 1 := by
    rw [hSA.hlen]
    simp [base1]
  have hb1last : (A.states ++ [State.mkNew])[A.last]? = some lastSt := by
    rw [List.getElem?_append_left hI.lastValid]
    exact hlastSt
  have hsetStEq : setSt (A.states ++ [State.mkNew]) A.states.length
      (fun st => { st with len := lastSt.len + 1 }) = base1 A s := by
    rw [setSt_concat]
    simp [base1, newSt, State.mkNew, hlastLen]
  rcases hp₀b with hneg | ⟨hge, hlt⟩
  · -- case A: the chain exhausted the links
    subst hneg
    refine ⟨⟨setSt sts2 A.states.length (fun st => { st with link := 0 }),
      A.states.length⟩, updWit wit A.states.length (s ++ [c]), ?_, ?_, rfl, ?_⟩
    · rw [extendAuto, extend]
      simp only [Option.bind_eq_bind, Option.bind_eq_some, Option.pure_def,
        Option.some.injEq]
      refine ⟨lastSt, hb1last, (sts2, -1), ?_⟩
      rw [hsetStEq]
      refine ⟨hrun, ?_⟩
      rw [if_pos rfl]
    · exact hI.caseA hSC (hI.mk_abdesc hSA hvisN 0)
        (ABDesc_nodup hI (hI.mk_abdesc hSA hvisN 0))
    · left
      show (setSt sts2 A.states.length _).length = A.states.length + 1
      rw [length_setSt, hlen2]
  · -- the chain stopped at a state with a `c`-edge
    have hne0 : ¬ p₀ = -1 := by omega
    have hp₀nin : p₀.toNat ∉ vis1 := by
      intro hmem
      have := hp₀len hge p₀.toNat hmem
      omega
    obtain ⟨pst0, q, hpstA, hedge0⟩ := seekChain_found hSC hge
    have hgetpst : getSt sts2 p₀ = some pst0 := by
      unfold getSt
      rw [if_pos hge, hSA.hsame p₀.toNat hp₀nin]
      show (A.states ++ [newSt s])[p₀.toNat]? = some pst0
      rw [List.getElem?_append_left hlt]
      exact hpstA
    have hqN : q < A.states.length := hI.edgeValid p₀.toNat pst0 c q hpstA hedge0
    obtain ⟨qst, hqst2⟩ : ∃ qst : State, sts2[q]? = some qst :=
      ⟨sts2[q], List.getElem?_eq_getElem (by omega)⟩
    obtain ⟨qstA, hqstA, hql, hqlk, hqnodup, hqedgesN⟩ :
        ∃ qstA : State, A.states[q]? = some qstA ∧ qst.len = qstA.len ∧
          qst.link = qstA.link ∧ (qst.next.map Prod.fst).Nodup ∧
          (∀ (a : Char) (j : Nat), findTr qst.next a = some j →
            j < A.states.length + 1) := by
      by_cases hqv : q ∈ vis1
      · obtain ⟨stA, hstAb, hnone, hmodq⟩ := hSA.hmod q hqv
        have hmodq' := hqst2
        rw [hmodq] at hmodq'
        simp only [Option.some.injEq] at hmodq'
        have hstA' : A.states[q]? = some stA := by
          have h1 := hstAb
          rw [show (base1 A s)[q]? = A.states[q]? from List.getElem?_append_left hqN] at h1
          exact h1
        refine ⟨stA, hstA', by rw [← hmodq'], by rw [← hmodq'], ?_, ?_⟩
        · rw [← hmodq']
          exact nodup_keys_setTr (hI.nodupNext q stA hstA') c _
        · intro a j hj
          rw [← hmodq'] at hj
          rw [findTr_setTr] at hj
          by_cases hac : a = c
          · rw [if_pos hac] at hj
            simp only [Option.some.injEq] at hj
            omega
          · rw [if_neg hac] at hj
            have := hI.edgeValid q stA a j hstA' hj
            omega
      · have hq2A : sts2[q]? = A.states[q]? := by
          rw [hSA.hsame q hqv]
          show (A.states ++ [newSt s])[q]? = A.states[q]?
          exact List.getElem?_append_left hqN
        have hqstA0 : A.states[q]? = some qst := by
          rw [← hq2A]
          exact hqst2
        refine ⟨qst, hqstA0, rfl, rfl, hI.nodupNext q qst hqstA0, ?_⟩
        intro a j hj
        have := hI.edgeValid q qst a j hqstA0 hj
        omega
    by_cases hql_eq : pst0.len + 1 = qst.len
    · -- case B: no split needed
      refine ⟨⟨setSt sts2 A.states.length (fun st => { st with link := Int.ofNat q }),
        A.states.length⟩, updWit wit A.states.length (s ++ [c]), ?_, ?_, rfl, ?_⟩
      · rw [extendAuto, extend]
        simp only [Option.bind_eq_bind, Option.bind_eq_some, Option.pure_def,
          Option.some.injEq]
        refine ⟨lastSt, hb1last, (sts2, p₀), ?_⟩
        rw [hsetStEq]
        refine ⟨hrun, ?_⟩
        rw [if_neg hne0]
        simp only [Option.bind_eq_bind, Option.bind_eq_some, Option.pure_def,
          Option.some.injEq]
        refine ⟨pst0, hgetpst, q, hedge0, qst, hqst2, ?_⟩
        rw [if_pos hql_eq]
      · have hqlenA : pst0.len + 1 = qstA.len := by
          rw [← hql]
          exact hql_eq
        exact hI.caseB hSC hge hlt hpstA hedge0 hqstA hqlenA (hp₀len hge)
          (hI.mk_abdesc hSA hvisN (Int.ofNat q))
          (ABDesc_nodup hI (hI.mk_abdesc hSA hvisN (Int.ofNat q)))
      · left
        show (setSt sts2 A.states.length _).length = A.states.length + 1
        rw [length_setSt, hlen2]
    · -- case C: split and clone
      have hL := hI.linkOk
      have hlenp₀ : lenAt A.states p₀.toNat = pst0.len := by simp [lenAt, hpstA]
      obtain ⟨vis2, p₂, hRCA, hvlen2⟩ := redirChain_exists hL (le_refl _) c q
        (lenAt A.states p₀.toNat + 1) p₀ (Or.inr ⟨hge, hlt, by omega⟩)
      obtain ⟨hbound2, hpw2, hp₂b, hp₂len⟩ := redirChain_props hL (le_refl _) hRCA
        (Or.inr ⟨hge, hlt⟩)
      have hnd2 : vis2.Nodup := by
        refine hpw2.imp ?_
        intro a b hab heq
        rw [heq] at hab
        omega
      have hp₂nin : 0 ≤ p₂ → p₂.toNat ∉ vis2 := by
        intro h0 hmem
        have := (hp₂len h0).1 p₂.toNat hmem
        omega
      have hagB : ∀ j : Nat, j < A.states.length →
          lenAt A.states j ≤ lenAt A.states p₀.toNat →
          (sts2 ++ [{ next := qst.next, link := qst.link, len := pst0.len + 1 }])[j]?
            = A.states[j]? := by
        intro j hj hjlen
        have hjv : j ∉ vis1 := by
          intro hmem
          have := hp₀len hge j hmem
          omega
        rw [List.getElem?_append_left (by omega), hSA.hsame j hjv]
        show (A.states ++ [newSt s])[j]? = A.states[j]?
        exact List.getElem?_append_left hj
      have hRC2 : RedirChain
          (sts2 ++ [{ next := qst.next, link := qst.link, len := pst0.len + 1 }])
          c q p₀ vis2 p₂ :=
        redirChain_transfer₂ hL (le_refl _) hagB hRCA (Or.inr ⟨hge, hlt, le_refl _⟩)
      have hfuel2 : vis2.length < A.states.length + 3 := by
        have h1 := hI.lenIdx p₀.toNat pst0 hpstA
        omega
      obtain ⟨sts3, hrun2, hlen3, hsame3, hmod3⟩ :=
        redirectLoop_run sts2.length hRC2 hfuel2 hnd2 hp₂nin rfl
          (fun j _ => rfl)
      have hE2 : EdgesLT sts2 := sinkAdd_edgesLT hI hSA hvisN
      have hq2 : pst0.len + 2 ≤ qstA.len := by
        have := hI.edge_len hpstA hedge0 hqstA
        omega
      have hqNin2 : q ∉ vis2 := by
        intro hmem
        have h1 := (hbound2 q hmem).2
        have h2 : lenAt A.states q = qstA.len := by simp [lenAt, hqstA]
        omega
      have hclNin2 : sts2.length ∉ vis2 := by
        intro hmem
        have := (hbound2 _ hmem).1
        omega
      have hCR : CloneRedir
          (sts2 ++ [{ next := qst.next, link := qst.link, len := pst0.len + 1 }])
          sts3 c q (A.states.length + 1) vis2 := by
        rw [show A.states.length + 1 = sts2.length from hlen2.symm]
        refine ⟨hlen3, ?_, hmod3, ?_, ?_, hqNin2, hclNin2, by omega⟩
        · intro j hj
          rw [hsame3 j hj]
        · refine ⟨{ next := qst.next, link := qst.link, len := pst0.len + 1 }, qst,
            ?_, ?_, rfl⟩
          · exact List.getElem?_concat_length _ _
          · rw [List.getElem?_append_left (by omega)]
            exact hqst2
        · intro i st a j hst hj
          intro hjeq
          subst hjeq
          by_cases hilt : i < sts2.length
          · rw [List.getElem?_append_left hilt] at hst
            have := hE2 i st a sts2.length hst hj
            omega
          · by_cases hie : i = sts2.length
            · subst hie
              rw [List.getElem?_concat_length] at hst
              simp only [Option.some.injEq] at hst
              rw [← hst] at hj
              have := hE2 q qst a sts2.length hqst2 hj
              omega
            · rw [List.getElem?_eq_none (by simp; omega)] at hst
              cases hst
      have hvis2N : ∀ e ∈ vis2, e < A.states.length ∧ e ∉ vis1 := by
        intro e he
        refine ⟨(hbound2 e he).1, ?_⟩
        intro hmem
        have h1 := (hbound2 e he).2
        have h2 := hp₀len hge e hmem
        omega
      have hD := hI.mk_cdesc hSA hvisN hqst2 hqN hCR hvis2N
      have hInv := hI.caseC hSC hge hlt hpstA hedge0 hqstA hql_eq (hp₀len hge) hRCA hD
        ⟨hql, hqlk⟩ (fun a j hj => by have := hqedgesN a j hj; omega)
        (CDesc_nodup hI hD hqnodup)
      refine ⟨⟨setSt (setSt sts3 q (fun st => { st with link := Int.ofNat sts2.length }))
        A.states.length (fun st => { st with link := Int.ofNat sts2.length }),
        A.states.length⟩,
        updWit (updWit wit (A.states.length + 1) (wit p₀.toNat ++ [c]))
          A.states.length (s ++ [c]), ?_, ?_, rfl, ?_⟩
      · rw [extendAuto, extend]
        simp only [Option.bind_eq_bind, Option.bind_eq_some, Option.pure_def,
          Option.some.injEq]
        refine ⟨lastSt, hb1last, (sts2, p₀), ?_⟩
        rw [hsetStEq]
        refine ⟨hrun, ?_⟩
        rw [if_neg hne0]
        simp only [Option.bind_eq_bind, Option.bind_eq_some, Option.pure_def,
          Option.some.injEq]
        refine ⟨pst0, hgetpst, q, hedge0, qst, hqst2, ?_⟩
        rw [if_neg hql_eq]
        simp only [Option.bind_eq_bind, Option.bind_eq_some, Option.pure_def,
          Option.some.injEq]
        exact ⟨(sts3, p₂), hrun2, rfl⟩
      · rw [hlen2]
        exact hInv
      · right
        constructor
        · show (setSt (setSt sts3 q _) A.states.length _).length = A.states.length + 2
          rw [length_setSt, length_setSt, hlen3]
          simp [hlen2]
        · have h1 : (wit q).length = qstA.len := hI.witLen q qstA hqstA
          have h2 : wit q <:+: s := hI.witIn q hqN
          have h3 := h2.length_le
          omega

/-! ### The invariant along a full construction -/

theorem walk_init : ∀ (w : List Char) (i : Nat),
    walkFrom [State.mkNew] 0 w = some i → w = [] ∧ i = 0 := by
  intro w i h
  cases w with
  | nil =>
    rw [walk_nil] at h
    simp only [Option.some.injEq] at h
    exact ⟨rfl, h.symm⟩
  | cons a w =>
    obtain ⟨st, j, hst, hj, _⟩ := walk_cons_some h
    simp only [List.getElem?_cons_zero, Option.some.injEq] at hst
    rw [← hst] at hj
    simp [State.mkNew, findTr] at hj

theorem inv_init : Inv initSAM [] (fun _ => []) := by
  have hst : ∀ {i : Nat} {st : State}, ([State.mkNew] : List State)[i]? = some st →
      i = 0 ∧ st = State.mkNew := by
    intro i st h
    cases i with
    | zero =>
      simp only [List.getElem?_cons_zero, Option.some.injEq] at h
      exact ⟨rfl, h.symm⟩
    | succ n => simp at h
  refine ⟨?_, ?_, ?_, ?_, ?_, ?_, ?_, ?_, ?_, ?_, ?_, ?_, ?_, ?_, ?_, ?_, ?_, ?_⟩
  · show 0 < 1
    omega
  · intro st h
    obtain ⟨h1, h2⟩ := hst h
    subst h2
    exact ⟨rfl, rfl⟩
  · intro i st h hi
    obtain ⟨h1, h2⟩ := hst h
    exact absurd h1 hi
  · intro i st stl h hi hstl
    obtain ⟨h1, h2⟩ := hst h
    exact absurd h1 hi
  · intro i st a j h hj
    obtain ⟨h1, h2⟩ := hst h
    subst h2
    simp [State.mkNew, findTr] at hj
  · intro i st h
    obtain ⟨h1, h2⟩ := hst h
    subst h2
    show State.mkNew.len ≤ i
    simp [State.mkNew]
  · show 0 < 1
    omega
  · rfl
  · intro st h
    obtain ⟨h1, h2⟩ := hst h
    subst h2
    rfl
  · intro i hi
    have hi0 : i = 0 := by
      simp only [initSAM, List.length_cons, List.length_nil] at hi
      omega
    subst hi0
    rfl
  · intro i st h
    obtain ⟨h1, h2⟩ := hst h
    subst h2
    rfl
  · intro i hi
    exact List.infix_refl []
  · intro i w h
    obtain ⟨hw, _⟩ := walk_init w i h
    subst hw
    exact List.nil_suffix
  · intro i st stl w h hi hstl hw
    obtain ⟨h1, h2⟩ := hst h
    exact absurd h1 hi
  · intro i st stl w h hi hstl hw hlen
    obtain ⟨h1, h2⟩ := hst h
    exact absurd h1 hi
  · intro i st stl h hi hstl
    obtain ⟨h1, h2⟩ := hst h
    exact absurd h1 hi
  · intro w hw
    have hwn : w = [] := by
      have := hw.length_le
      simp at this
      exact this
    subst hwn
    rfl
  · intro i st h
    obtain ⟨h1, h2⟩ := hst h
    subst h2
    simp [State.mkNew]

/-- Building from any string succeeds, establishes the invariant, and obeys
the state-count bound. -/
theorem build_inv (s : List Char) :
    ∃ (A : SuffixAutomaton) (wit : Nat → List Char),
      build s = some A ∧ Inv A s wit ∧
      ((s.length = 0 ∧ A.states.length = 1) ∨
       (s.length = 1 ∧ A.states.length = 2) ∨
       (2 ≤ s.length ∧ A.states.length ≤ 2 * s.length - 1)) := by
  induction s using List.reverseRecOn with
  | nil => exact ⟨initSAM, fun _ => [], rfl, inv_init, Or.inl ⟨rfl, rfl⟩⟩
  | append_singleton s c ih =>
    obtain ⟨A, wit, hb, hI, hcnt⟩ := ih
    obtain ⟨A', wit', hext, hI', hlast, hΔ⟩ := extend_ok hI c
    refine ⟨A', wit', ?_, hI', ?_⟩
    · simp only [build] at hb ⊢
      rw [List.foldlM_append, hb]
      simp only [Option.bind_eq_bind, Option.some_bind, List.foldlM_cons, List.foldlM_nil]
      rw [hext]
      rfl
    · rcases hcnt with ⟨h1, h2⟩ | ⟨h1, h2⟩ | ⟨h1, h2⟩ <;>
      rcases hΔ with h3 | ⟨h3, h4⟩ <;>
      simp only [List.length_append, List.length_cons, List.length_nil] <;>
      omega

/-! ### Totality of the `longest_common_substring` loops -/

theorem lcsWalk_total {A : SuffixAutomaton} {s : List Char} {wit : Nat → List Char}
    (hI : Inv A s wit) (ch : Char) :
    ∀ (fuel : Nat) (v : Int) (l : Nat),
      ((v = -1 ∧ 1 ≤ fuel) ∨
       (0 ≤ v ∧ v.toNat < A.states.length ∧ lenAt A.states v.toNat + 2 ≤ fuel)) →
      ∃ (v' : Int) (l' : Nat), lcsWalk ch fuel A v l = some (A, v', l') ∧
        (v' = -1 ∨ (0 ≤ v' ∧ v'.toNat < A.states.length ∧
          ∃ st : State, A.states[v'.toNat]? = some st ∧ (findTr st.next ch).isSome)) := by
  intro fuel
  induction fuel with
  | zero =>
    intro v l hv
    rcases hv with ⟨_, h⟩ | ⟨_, _, h⟩ <;> omega
  | succ fuel ih =>
    intro v l hv
    rcases hv with ⟨hv1, _⟩ | ⟨h0, hlt, hfuel⟩
    · subst hv1
      refine ⟨-1, l, ?_, Or.inl rfl⟩
      rw [lcsWalk, if_pos rfl]
      rfl
    · obtain ⟨st, hst⟩ := hI.stAt hlt
      have hgetv : getSt A.states v = some st := by
        unfold getSt
        rw [if_pos h0]
        exact hst
      have hlenv : lenAt A.states v.toNat = st.len := by simp [lenAt, hst]
      have hvne : ¬ v = -1 := by omega
      cases hf : findTr st.next ch with
      | some j =>
        refine ⟨v, l, ?_, Or.inr ⟨h0, hlt, st, hst, by rw [hf]; rfl⟩⟩
        rw [lcsWalk, if_neg hvne, hgetv]
        simp only [Option.bind_eq_bind, Option.some_bind]
        rw [hf]
        rfl
      | none =>
        by_cases hlk : st.link = -1
        · obtain ⟨v', l', heq, hpost⟩ := ih st.link l (Or.inl ⟨hlk, by omega⟩)
          refine ⟨v', l', ?_, hpost⟩
          rw [lcsWalk, if_neg hvne, hgetv]
          simp only [Option.bind_eq_bind, Option.some_bind]
          rw [hf, if_pos hlk]
          exact heq
        · have hvz : v.toNat ≠ 0 := by
            intro hz
            obtain ⟨st0, hst0⟩ := hI.stAt hI.posLen
            rw [hz, hst0] at hst
            simp only [Option.some.injEq] at hst
            rw [← hst] at hlk
            exact hlk (hI.zeroSt st0 hst0).2
          obtain ⟨hl0, hlN⟩ := hI.linkValid v.toNat st hst hvz
          obtain ⟨stl, hstl⟩ := hI.stAt hlN
          have hgetl : getSt A.states st.link = some stl := by
            unfold getSt
            rw [if_pos hl0]
            exact hstl
          have hlenl : lenAt A.states st.link.toNat = stl.len := by simp [lenAt, hstl]
          have hlink_lt := hI.linkLt v.toNat st stl hst hvz hstl
          obtain ⟨v', l', heq, hpost⟩ := ih st.link stl.len
            (Or.inr ⟨hl0, hlN, by omega⟩)
          refine ⟨v', l', ?_, hpost⟩
          rw [lcsWalk, if_neg hvne, hgetv]
          simp only [Option.bind_eq_bind, Option.some_bind]
          rw [hf, if_neg hlk, hgetl]
          simp only [Option.bind_eq_bind, Option.some_bind]
          exact heq

theorem lcsStep_total {A : SuffixAutomaton} {s : List Char} {wit : Nat → List Char}
    (hI : Inv A s wit) (ch : Char) (v : Int) (l best : Nat)
    (h0 : 0 ≤ v) (hlt : v.toNat < A.states.length) :
    ∃ (v' : Int) (l' best' : Nat),
      lcsStep (A.states.length + 3) (A, v, l, best) ch = some (A, v', l', best') ∧
      0 ≤ v' ∧ v'.toNat < A.states.length := by
  have hbudget : lenAt A.states v.toNat + 2 ≤ A.states.length + 3 := by
    obtain ⟨st, hst⟩ := hI.stAt hlt
    have h1 := hI.lenIdx v.toNat st hst
    have h2 : lenAt A.states v.toNat = st.len := by simp [lenAt, hst]
    omega
  obtain ⟨v₁, l₁, hwalk, hpost⟩ := lcsWalk_total hI ch (A.states.length + 3) v l
    (Or.inr ⟨h0, hlt, hbudget⟩)
  rcases hpost with hneg | ⟨h0', hlt', st, hst, hsome⟩
  · refine ⟨0, 0, best, ?_, by norm_num, by simpa using hI.posLen⟩
    rw [lcsStep]
    simp only [Option.bind_eq_bind]
    rw [hwalk]
    simp only [Option.bind_eq_bind, Option.some_bind]
    rw [if_pos (show ((A, v₁, l₁) : SuffixAutomaton × Int × Nat).2.1 = -1 from hneg)]
    rfl
  · obtain ⟨j, hj⟩ := Option.isSome_iff_exists.mp hsome
    have hjN : j < A.states.length := hI.edgeValid v₁.toNat st ch j hst hj
    have hget1 : getSt A.states v₁ = some st := by
      unfold getSt
      rw [if_pos h0']
      exact hst
    refine ⟨Int.ofNat j, l₁ + 1, max best (l₁ + 1), ?_, Int.ofNat_nonneg _, ?_⟩
    · rw [lcsStep]
      simp only [Option.bind_eq_bind]
      rw [hwalk]
      simp only [Option.bind_eq_bind, Option.some_bind]
      have hne : ¬ ((A, v₁, l₁) : SuffixAutomaton × Int × Nat).2.1 = -1 := by
        show ¬ v₁ = -1
        omega
      rw [if_neg hne]
      rw [show getSt ((A, v₁, l₁) : SuffixAutomaton × Int × Nat).1.states
        ((A, v₁, l₁) : SuffixAutomaton × Int × Nat).2.1 = some st from hget1]
      simp only [Option.bind_eq_bind, Option.some_bind]
      rw [hj]
      simp only [Option.bind_eq_bind, Option.some_bind]
      rfl
    · rw [show (Int.ofNat j).toNat = j by simp]
      exact hjN

theorem lcs_total {A : SuffixAutomaton} {s : List Char} {wit : Nat → List Char}
    (hI : Inv A s wit) (t : List Char) :
    ∃ r : Nat, longest_common_substring A t = some r := by
  have key : ∀ (t : List Char) (v : Int) (l best : Nat), 0 ≤ v →
      v.toNat < A.states.length →
      ∃ res : SuffixAutomaton × Int × Nat × Nat,
        t.foldlM (lcsStep (A.states.length + 3)) (A, v, l, best) = some res := by
    intro t
    induction t with
    | nil =>
      intro v l best h0 hlt
      exact ⟨(A, v, l, best), rfl⟩
    | cons a t ih =>
      intro v l best h0 hlt
      obtain ⟨v', l', best', hstep, h0', hlt'⟩ := lcsStep_total hI a v l best h0 hlt
      obtain ⟨res, hres⟩ := ih v' l' best' h0' hlt'
      refine ⟨res, ?_⟩
      rw [List.foldlM_cons, hstep]
      simp only [Option.bind_eq_bind, Option.some_bind]
      exact hres
  obtain ⟨res, hres⟩ := key t 0 0 0 (le_refl 0) (by simpa using hI.posLen)
  refine ⟨res.2.2.2, ?_⟩
  rw [longest_common_substring, lcsRun]
  simp only [Option.bind_eq_bind]
  rw [hres]
  rfl

/-! ### Claims settled directly from the construction invariant -/

/-- Claim C2: after building the automaton from `s`, a word `w` is a
substring of `s` exactly when the transition walk from state 0 consuming `w`
finds a transition at every step; in particular the walk never fails on a
substring, and fails on every non-substring (hence also those of length at
most `|s|`). -/
theorem claim2_substring_walk {s : List Char} {A : SuffixAutomaton}
    (hA : build s = some A) (w : List Char) :
    (walkFrom A.states 0 w).isSome ↔ w <:+: s := by
  obtain ⟨A₀, wit, hb, hI, _⟩ := build_inv s
  rw [hb] at hA
  simp only [Option.some.injEq] at hA
  subst hA
  constructor
  · intro h
    obtain ⟨u, hu⟩ := Option.isSome_iff_exists.mp h
    exact hI.reach_infix hu
  · intro h
    exact hI.complete w h

/-- Claim C3: after any construction (equivalently, any sequence of `extend`
calls starting from the fresh automaton), every non-initial state's suffix
link points to a state of strictly smaller `len`. -/
theorem claim3_links_decrease {s : List Char} {A : SuffixAutomaton}
    (hA : build s = some A) :
    ∀ (i : Nat) (st stl : State), A.states[i]? = some st → i ≠ 0 →
      A.states[st.link.toNat]? = some stl → stl.len < st.len := by
  obtain ⟨A₀, wit, hb, hI, _⟩ := build_inv s
  rw [hb] at hA
  simp only [Option.some.injEq] at hA
  subst hA
  exact hI.linkLt

/-- Claim C5: after any construction, every transition goes to a state of
strictly greater `len` (so the transition graph is acyclic along `len`). -/
theorem claim5_edges_increase {s : List Char} {A : SuffixAutomaton}
    (hA : build s = some A) :
    ∀ (i : Nat) (st : State) (a : Char) (j : Nat) (stj : State),
      A.states[i]? = some st → findTr st.next a = some j →
      A.states[j]? = some stj → st.len < stj.len := by
  obtain ⟨A₀, wit, hb, hI, _⟩ := build_inv s
  rw [hb] at hA
  simp only [Option.some.injEq] at hA
  subst hA
  intro i st a j stj hst hj hstj
  have := hI.edge_len hst hj hstj
  omega

/-- Claim C6: after any construction, state 0 exists and keeps `len = 0` and
the `-1` sentinel link; no extend call ever reassigns either field. -/
theorem claim6_initial_state {s : List Char} {A : SuffixAutomaton}
    (hA : build s = some A) :
    ∃ st : State, A.states[0]? = some st ∧ st.len = 0 ∧ st.link = -1 := by
  obtain ⟨A₀, wit, hb, hI, _⟩ := build_inv s
  rw [hb] at hA
  simp only [Option.some.injEq] at hA
  subst hA
  obtain ⟨st0, hst0⟩ := hI.stAt hI.posLen
  obtain ⟨h1, h2⟩ := hI.zeroSt st0 hst0
  exact ⟨st0, hst0, h1, h2⟩

/-- Claim C9: construction and queries are total — building any string
succeeds, and `longest_common_substring` on the built automaton succeeds for
every query: no state-list indexing is out of bounds and no dictionary
lookup misses, so the `none` (failure) branch of the embedding is never
taken. -/
theorem claim9_no_failure (s t : List Char) :
    ∃ (A : SuffixAutomaton) (r : Nat), build s = some A ∧
      longest_common_substring A t = some r := by
  obtain ⟨A, wit, hb, hI, _⟩ := build_inv s
  obtain ⟨r, hr⟩ := lcs_total hI t
  exact ⟨A, r, hb, hr⟩

/-! ### Concrete automata for witnesses -/

/-- The automaton built from `"ab"`. -/
def samAB : SuffixAutomaton :=
  { states := [{ next := [('a', 1), ('b', 2)], link := -1, len := 0 },
               { next := [('b', 2)], link := 0, len := 1 },
               { next := [], link := 0, len := 2 }],
    last := 2 }

theorem build_ab : build ['a', 'b'] = some samAB := by decide

theorem claim2_substring_walk_witness :
    (walkFrom samAB.states 0 ['b']).isSome ↔ ['b'] <:+: ['a', 'b'] :=
  claim2_substring_walk build_ab ['b']

theorem claim3_links_decrease_witness :
    ({ next := [('a', 1), ('b', 2)], link := -1, len := 0 } : State).len <
      ({ next := [], link := 0, len := 2 } : State).len :=
  claim3_links_decrease build_ab 2
    { next := [], link := 0, len := 2 }
    { next := [('a', 1), ('b', 2)], link := -1, len := 0 }
    (by decide) (by decide) (by decide)

theorem claim5_edges_increase_witness :
    ({ next := [('a', 1), ('b', 2)], link := -1, len := 0 } : State).len <
      ({ next := [('b', 2)], link := 0, len := 1 } : State).len :=
  claim5_edges_increase build_ab 0
    { next := [('a', 1), ('b', 2)], link := -1, len := 0 } 'a' 1
    { next := [('b', 2)], link := 0, len := 1 }
    (by decide) (by decide) (by decide)

theorem claim6_initial_state_witness :
    ∃ st : State, samAB.states[0]? = some st ∧ st.len = 0 ∧ st.link = -1 :=
  claim6_initial_state build_ab

/-! ### The reference longest-common-substring value, reorganized -/

theorem takeSuffix_takeSuffix (t : List Char) {l m : Nat} (hm : m ≤ l) (hl : l ≤ t.length) :
    takeSuffix (takeSuffix t l) m = takeSuffix t m := by
  have h1 : takeSuffix (takeSuffix t l) m <:+ t :=
    (takeSuffix_suffix _ _).trans (takeSuffix_suffix _ _)
  have h2 : (takeSuffix (takeSuffix t l) m).length = m :=
    takeSuffix_length (by rw [takeSuffix_length hl]; exact hm)
  exact (eq_takeSuffix_of_suffix h1).trans (by rw [h2])

/-- The length of the longest suffix of `t` that is a substring of `s`. -/
def maxMatch (s t : List Char) : Nat :=
  Nat.findGreatest (fun m => takeSuffix t m <:+: s) t.length

theorem maxMatch_le (s t : List Char) : maxMatch s t ≤ t.length :=
  Nat.findGreatest_le _

theorem maxMatch_spec (s t : List Char) : takeSuffix t (maxMatch s t) <:+: s := by
  refine Nat.findGreatest_spec (m := 0) (P := fun m => takeSuffix t m <:+: s)
    (Nat.zero_le _) ?_
  show takeSuffix t 0 <:+: s
  rw [takeSuffix_zero]
  exact List.nil_infix

theorem maxMatch_is_greatest {s t : List Char} {k : Nat} (h1 : maxMatch s t < k)
    (h2 : k ≤ t.length) : ¬ takeSuffix t k <:+: s :=
  Nat.findGreatest_is_greatest h1 h2

theorem le_maxMatch {s t : List Char} {k : Nat} (h1 : k ≤ t.length)
    (h2 : takeSuffix t k <:+: s) : k ≤ maxMatch s t :=
  Nat.le_findGreatest h1 h2

theorem maxMatch_nil (s : List Char) : maxMatch s [] = 0 := rfl

/-- The running maximum of `maxMatch` over the prefixes of `t`. -/
def bestRef (s t : List Char) : Nat :=
  ((List.range (t.length + 1)).map (fun j => maxMatch s (t.take j))).foldr max 0

theorem foldr_max_init (l : List Nat) (x b : Nat) :
    l.foldr max (max x b) = max x (l.foldr max b) := by
  induction l with
  | nil => rfl
  | cons a l ih =>
    simp only [List.foldr_cons, ih]
    omega

theorem foldr_max_le {l : List Nat} {M : Nat} (h : ∀ x ∈ l, x ≤ M) :
    l.foldr max 0 ≤ M := by
  induction l with
  | nil => simp
  | cons a l ih =>
    simp only [List.foldr_cons]
    have h1 := h a (List.mem_cons_self _ _)
    have h2 := ih (fun x hx => h x (List.mem_cons_of_mem _ hx))
    omega

theorem le_foldr_max {l : List Nat} {x : Nat} (h : x ∈ l) : x ≤ l.foldr max 0 := by
  induction l with
  | nil => simp at h
  | cons a l ih =>
    simp only [List.foldr_cons]
    rcases List.mem_cons.mp h with h | h
    · omega
    · have := ih h
      omega

theorem bestRef_nil (s : List Char) : bestRef s [] = 0 := by
  simp [bestRef, maxMatch_nil]

theorem bestRef_snoc (s t : List Char) (c : Char) :
    bestRef s (t ++ [c]) = max (bestRef s t) (maxMatch s (t ++ [c])) := by
  rw [bestRef]
  have hlen : (t ++ [c]).length + 1 = (t.length + 1) + 1 := by simp
  rw [hlen, List.range_succ, List.map_append, List.foldr_append]
  simp only [List.map_cons, List.map_nil, List.foldr_cons, List.foldr_nil]
  have htake : (t ++ [c]).take (t.length + 1) = t ++ [c] := by
    refine List.take_of_length_le ?_
    simp
  rw [htake, foldr_max_init]
  have hmapeq : (List.range (t.length + 1)).map (fun j => maxMatch s ((t ++ [c]).take j))
      = (List.range (t.length + 1)).map (fun j => maxMatch s (t.take j)) := by
    refine List.map_congr_left ?_
    intro j hj
    rw [List.mem_range] at hj
    rw [List.take_append_of_le_length (by omega)]
  rw [hmapeq]
  rw [bestRef]
  omega

theorem inner_eq_maxMatch (s t : List Char) (j : Nat) (hj : j ≤ t.length) :
    ((List.range (j + 1)).map (fun i =>
      if (t.take j).drop i <:+: s then j - i else 0)).foldr max 0
      = maxMatch s (t.take j) := by
  have hlenw : (t.take j).length = j := by
    rw [List.length_take]
    omega
  have hdrop : ∀ i : Nat, i ≤ j → (t.take j).drop i = takeSuffix (t.take j) (j - i) := by
    intro i hi
    rw [takeSuffix, hlenw]
    congr 1
    omega
  refine le_antisymm ?_ ?_
  · refine foldr_max_le ?_
    intro x hx
    rw [List.mem_map] at hx
    obtain ⟨i, hi, hxe⟩ := hx
    rw [List.mem_range] at hi
    rw [← hxe]
    split
    · next hinf =>
      rw [hdrop i (by omega)] at hinf
      exact le_maxMatch (by omega) hinf
    · omega
  · have hmem : maxMatch s (t.take j) ∈ (List.range (j + 1)).map (fun i =>
        if (t.take j).drop i <:+: s then j - i else 0) := by
      rw [List.mem_map]
      refine ⟨j - maxMatch s (t.take j), ?_, ?_⟩
      · rw [List.mem_range]
        omega
      · have hle : maxMatch s (t.take j) ≤ j := by
          have := maxMatch_le s (t.take j)
          omega
        rw [hdrop _ (by omega), if_pos ?_]
        · omega
        · rw [show j - (j - maxMatch s (t.take j)) = maxMatch s (t.take j) by omega]
          exact maxMatch_spec s (t.take j)
    exact le_foldr_max hmem

theorem refLCS_eq_bestRef (s t : List Char) : refLCS s t = bestRef s t := by
  rw [refLCS, bestRef]
  congr 1
  refine List.map_congr_left ?_
  intro j hj
  rw [List.mem_range] at hj
  exact inner_eq_maxMatch s t j (by omega)

/-! ### Semantics of the query loops -/

theorem lcsWalk_neg (ch : Char) (A : SuffixAutomaton) (l : Nat) {fuel : Nat}
    (h : 1 ≤ fuel) : lcsWalk ch fuel A (-1) l = some (A, -1, l) := by
  match fuel, h with
  | fuel + 1, _ =>
    rw [lcsWalk, if_pos rfl]
    rfl

theorem lcsWalk_sem {A : SuffixAutomaton} {s : List Char} {wit : Nat → List Char}
    (hI : Inv A s wit) (c : Char) (t₀ : List Char) :
    ∀ (fuel : Nat) (v : Int) (l : Nat),
    0 ≤ v → l ≤ t₀.length →
    walkFrom A.states 0 (takeSuffix t₀ l) = some v.toNat →
    lenAt A.states v.toNat + 2 ≤ fuel →
    ∃ (v' : Int) (l' : Nat), lcsWalk c fuel A v l = some (A, v', l') ∧
      ((v' = -1 ∧ ∀ k : Nat, k ≤ l → ¬ (takeSuffix t₀ k ++ [c] <:+: s)) ∨
       (0 ≤ v' ∧ l' ≤ l ∧
        (∃ (st : State) (j : Nat), A.states[v'.toNat]? = some st ∧
          findTr st.next c = some j) ∧
        walkFrom A.states 0 (takeSuffix t₀ l') = some v'.toNat ∧
        (∀ k : Nat, l' < k → k ≤ l → ¬ (takeSuffix t₀ k ++ [c] <:+: s)))) := by
  intro fuel
  induction fuel with
  | zero =>
    intro v l h0 hlt hwalk hfuel
    omega
  | succ fuel ih =>
    intro v l h0 hlt hwalk hfuel
    have hvN : v.toNat < A.states.length := hI.reach_lt hwalk
    obtain ⟨st, hst⟩ := hI.stAt hvN
    have hgetv : getSt A.states v = some st := by
      unfold getSt
      rw [if_pos h0]
      exact hst
    have hlenv : lenAt A.states v.toNat = st.len := by simp [lenAt, hst]
    have hvne : ¬ v = -1 := by omega
    have hwl : (takeSuffix t₀ l).length = l := takeSuffix_length hlt
    have hsufwit : takeSuffix t₀ l <:+ wit v.toNat := hI.reachSuffix _ _ hwalk
    have hlle : l ≤ st.len := by
      have h1 := hsufwit.length_le
      rw [hI.witLen _ _ hst] at h1
      omega
    cases hf : findTr st.next c with
    | some j =>
      refine ⟨v, l, ?_, Or.inr ⟨h0, le_refl l, ⟨st, j, hst, hf⟩, hwalk, ?_⟩⟩
      · rw [lcsWalk, if_neg hvne, hgetv]
        simp only [Option.bind_eq_bind, Option.some_bind]
        rw [hf]
        rfl
      · intro k hk1 hk2
        omega
    | none =>
      -- words in the window (l', l] still reach v and cannot be extended
      have hnoext : ∀ k : Nat, k ≤ l → walkFrom A.states 0 (takeSuffix t₀ k)
          = some v.toNat → ¬ (takeSuffix t₀ k ++ [c] <:+: s) := by
        intro k hk2 hwk hinf
        have h1 := hI.complete _ hinf
        obtain ⟨u, hu⟩ := Option.isSome_iff_exists.mp h1
        obtain ⟨m, stm, hm, hstm, hedgem⟩ := walk_snoc_some hu
        rw [hwk] at hm
        simp only [Option.some.injEq] at hm
        rw [← hm, hst] at hstm
        simp only [Option.some.injEq] at hstm
        rw [← hstm] at hedgem
        rw [hf] at hedgem
        cases hedgem
      by_cases hlk : st.link = -1
      · -- can only happen at the root, where l = 0
        have hvz : v.toNat = 0 := by
          by_contra hvz
          have := (hI.linkValid v.toNat st hst hvz).1
          omega
        have hl0 : l = 0 := by
          obtain ⟨st0, hst0⟩ := hI.stAt hI.posLen
          rw [hvz, hst0] at hst
          simp only [Option.some.injEq] at hst
          rw [← hst] at hlle
          rw [(hI.zeroSt st0 hst0).1] at hlle
          omega
        refine ⟨-1, l, ?_, Or.inl ⟨rfl, ?_⟩⟩
        · rw [lcsWalk, if_neg hvne, hgetv]
          simp only [Option.bind_eq_bind, Option.some_bind]
          rw [hf, if_pos hlk, hlk]
          exact lcsWalk_neg c A l (by omega)
        · intro k hk
          have hk0 : k = 0 := by omega
          subst hk0
          refine hnoext 0 (by omega) ?_
          rw [takeSuffix_zero, walk_nil, hvz]
      · have hvz : v.toNat ≠ 0 := by
          intro hz
          obtain ⟨st0, hst0⟩ := hI.stAt hI.posLen
          rw [hz, hst0] at hst
          simp only [Option.some.injEq] at hst
          rw [← hst] at hlk
          exact hlk (hI.zeroSt st0 hst0).2
        obtain ⟨hl0, hlN⟩ := hI.linkValid v.toNat st hst hvz
        obtain ⟨stl, hstl⟩ := hI.stAt hlN
        have hgetl : getSt A.states st.link = some stl := by
          unfold getSt
          rw [if_pos hl0]
          exact hstl
        have hlenl : lenAt A.states st.link.toNat = stl.len := by simp [lenAt, hstl]
        have hlink_lt := hI.linkLt v.toNat st stl hst hvz hstl
        have hstl_lt : stl.len < l ∨ stl.len ≥ l := by omega
        -- the new matched length
        have hstl_le_l : stl.len ≤ l := by
          -- reachMin: any word reaching v is longer than stl.len
          have := hI.reachMin v.toNat st stl _ hst hvz hstl hwalk
          omega
        have hword : takeSuffix t₀ stl.len = takeSuffix (wit v.toNat) stl.len := by
          have h1 : takeSuffix (takeSuffix t₀ l) stl.len
              = takeSuffix (wit v.toNat) stl.len :=
            takeSuffix_of_suffix hsufwit (by omega)
          rw [← h1, takeSuffix_takeSuffix t₀ hstl_le_l hlt]
        have hwalk2 : walkFrom A.states 0 (takeSuffix t₀ stl.len) = some st.link.toNat := by
          rw [hword]
          exact hI.linkSem v.toNat st stl hst hvz hstl
        obtain ⟨v', l', heq, hpost⟩ := ih st.link stl.len hl0 (by omega) hwalk2 (by omega)
        have hwin : ∀ k : Nat, stl.len < k → k ≤ l → ¬ (takeSuffix t₀ k ++ [c] <:+: s) := by
          intro k hk1 hk2
          refine hnoext k hk2 ?_
          refine hI.reachFull v.toNat st stl _ hst hvz hstl ?_ ?_
          · have h1 : takeSuffix t₀ k <:+ takeSuffix t₀ l := takeSuffix_suffix_of_le hk2
            exact h1.trans hsufwit
          · rw [takeSuffix_length (by omega)]
            exact hk1
        have heq' : lcsWalk c (fuel + 1) A v l = lcsWalk c fuel A st.link stl.len := by
          rw [lcsWalk, if_neg hvne, hgetv]
          simp only [Option.bind_eq_bind, Option.some_bind]
          rw [hf, if_neg hlk, hgetl]
          simp only [Option.some_bind]
        rcases hpost with ⟨hneg, hall⟩ | ⟨h0', hle', hedge', hwalk', hmax'⟩
        · refine ⟨v', l', by rw [heq']; exact heq, Or.inl ⟨hneg, ?_⟩⟩
          intro k hk
          by_cases hcase : k ≤ stl.len
          · exact hall k hcase
          · exact hwin k (by omega) hk
        · refine ⟨v', l', by rw [heq']; exact heq,
            Or.inr ⟨h0', by omega, hedge', hwalk', ?_⟩⟩
          intro k hk1 hk2
          by_cases hcase : k ≤ stl.len
          · exact hmax' k hk1 hcase
          · exact hwin k (by omega) hk2

theorem lcsStep_sem {A : SuffixAutomaton} {s : List Char} {wit : Nat → List Char}
    (hI : Inv A s wit) (c : Char) (t₀ : List Char) (v : Int) (l best : Nat)
    (h0 : 0 ≤ v) (hl : l ≤ t₀.length)
    (hwalk : walkFrom A.states 0 (takeSuffix t₀ l) = some v.toNat)
    (hmax : l = maxMatch s t₀) :
    ∃ (v' : Int) (l' best' : Nat),
      lcsStep (A.states.length + 3) (A, v, l, best) c = some (A, v', l', best') ∧
      0 ≤ v' ∧ l' ≤ (t₀ ++ [c]).length ∧
      walkFrom A.states 0 (takeSuffix (t₀ ++ [c]) l') = some v'.toNat ∧
      l' = maxMatch s (t₀ ++ [c]) ∧
      best' = max best l' := by
  have hvN : v.toNat < A.states.length := hI.reach_lt hwalk
  have hbudget : lenAt A.states v.toNat + 2 ≤ A.states.length + 3 := by
    obtain ⟨st, hst⟩ := hI.stAt hvN
    have h1 := hI.lenIdx v.toNat st hst
    have h2 : lenAt A.states v.toNat = st.len := by simp [lenAt, hst]
    omega
  obtain ⟨v₁, l₁, hwalk1, hpost⟩ :=
    lcsWalk_sem hI c t₀ (A.states.length + 3) v l h0 hl hwalk hbudget
  -- the long candidates are ruled out by the previous maximum
  have hlong : ∀ k : Nat, l < k → k ≤ t₀.length → ¬ (takeSuffix t₀ k ++ [c] <:+: s) := by
    intro k hk1 hk2 hinf
    have h1 : takeSuffix t₀ k <:+: s := by
      refine List.IsInfix.trans ?_ hinf
      exact (List.prefix_append _ _).isInfix
    exact maxMatch_is_greatest (by omega) hk2 h1
  rcases hpost with ⟨hneg, hall⟩ | ⟨h0', hle', ⟨st, j, hst, hj⟩, hwalk', hmax'⟩
  · -- no extension at all: reset to the root
    have hmm : maxMatch s (t₀ ++ [c]) = 0 := by
      by_contra hmm
      have hpos : 0 < maxMatch s (t₀ ++ [c]) := by omega
      have hle2 := maxMatch_le s (t₀ ++ [c])
      have hspec := maxMatch_spec s (t₀ ++ [c])
      set m := maxMatch s (t₀ ++ [c]) with hm
      have hts : takeSuffix (t₀ ++ [c]) m = takeSuffix t₀ (m - 1) ++ [c] := by
        rw [show m = (m - 1) + 1 by omega]
        exact takeSuffix_snoc (by simp at hle2; omega) c
      rw [hts] at hspec
      by_cases hcase : m - 1 ≤ l
      · exact hall (m - 1) hcase hspec
      · exact hlong (m - 1) (by omega) (by simp at hle2; omega) hspec
    refine ⟨0, 0, best, ?_, by norm_num, by simp, ?_, by rw [hmm], by omega⟩
    · rw [lcsStep]
      simp only [Option.bind_eq_bind]
      rw [hwalk1]
      simp only [Option.some_bind]
      rw [if_pos (show ((A, v₁, l₁) : SuffixAutomaton × Int × Nat).2.1 = -1 from hneg)]
      rfl
    · rw [takeSuffix_zero, walk_nil]
      rfl
  · -- extend the match by one character
    have hl1t : l₁ ≤ t₀.length := by omega
    have hts : takeSuffix (t₀ ++ [c]) (l₁ + 1) = takeSuffix t₀ l₁ ++ [c] :=
      takeSuffix_snoc hl1t c
    have hwalknew : walkFrom A.states 0 (takeSuffix (t₀ ++ [c]) (l₁ + 1)) = some j := by
      rw [hts]
      exact walk_snoc_of hwalk' hst hj
    have hjN : j < A.states.length := hI.edgeValid v₁.toNat st c j hst hj
    have hmm : maxMatch s (t₀ ++ [c]) = l₁ + 1 := by
      refine le_antisymm ?_ ?_
      · by_contra hgt
        have hpos : l₁ + 2 ≤ maxMatch s (t₀ ++ [c]) := by omega
        have hle2 := maxMatch_le s (t₀ ++ [c])
        have hspec := maxMatch_spec s (t₀ ++ [c])
        set m := maxMatch s (t₀ ++ [c]) with hm
        have hts2 : takeSuffix (t₀ ++ [c]) m = takeSuffix t₀ (m - 1) ++ [c] := by
          rw [show m = (m - 1) + 1 by omega]
          exact takeSuffix_snoc (by simp at hle2; omega) c
        rw [hts2] at hspec
        by_cases hcase : m - 1 ≤ l
        · exact hmax' (m - 1) (by omega) hcase hspec
        · exact hlong (m - 1) (by omega) (by simp at hle2; omega) hspec
      · refine le_maxMatch (by simp; omega) ?_
        rw [hts]
        exact hI.reach_infix (walk_snoc_of hwalk' hst hj)
    have hget1 : getSt A.states v₁ = some st := by
      unfold getSt
      rw [if_pos h0']
      exact hst
    refine ⟨Int.ofNat j, l₁ + 1, max best (l₁ + 1), ?_, Int.ofNat_nonneg _,
      by simp; omega, ?_, hmm.symm, by omega⟩
    · rw [lcsStep]
      simp only [Option.bind_eq_bind]
      rw [hwalk1]
      simp only [Option.some_bind]
      have hne : ¬ ((A, v₁, l₁) : SuffixAutomaton × Int × Nat).2.1 = -1 := by
        show ¬ v₁ = -1
        omega
      rw [if_neg hne]
      rw [show getSt ((A, v₁, l₁) : SuffixAutomaton × Int × Nat).1.states
        ((A, v₁, l₁) : SuffixAutomaton × Int × Nat).2.1 = some st from hget1]
      simp only [Option.bind_eq_bind, Option.some_bind]
      rw [hj]
      simp only [Option.some_bind]
      rfl
    · rw [show (Int.ofNat j).toNat = j by simp]
      exact hwalknew

/-- Claim C1: for every built automaton and every query, the value of
`longest_common_substring` is exactly the brute-force longest common
substring length of the built string and the query. -/
theorem claim1_lcs_correct {s : List Char} {A : SuffixAutomaton}
    (hA : build s = some A) (t : List Char) :
    longest_common_substring A t = some (refLCS s t) := by
  obtain ⟨A₀, wit, hb, hI, _⟩ := build_inv s
  rw [hb] at hA
  simp only [Option.some.injEq] at hA
  subst hA
  have key : ∀ (t₂ t₀ : List Char) (v : Int) (l best : Nat),
      0 ≤ v → l ≤ t₀.length →
      walkFrom A₀.states 0 (takeSuffix t₀ l) = some v.toNat →
      l = maxMatch s t₀ → best = bestRef s t₀ →
      ∃ res : SuffixAutomaton × Int × Nat × Nat,
        t₂.foldlM (lcsStep (A₀.states.length + 3)) (A₀, v, l, best) = some res ∧
        res.2.2.2 = bestRef s (t₀ ++ t₂) := by
    intro t₂
    induction t₂ with
    | nil =>
      intro t₀ v l best h0 hl hwalk hmax hbest
      refine ⟨(A₀, v, l, best), rfl, ?_⟩
      simpa using hbest
    | cons a t₂ ih =>
      intro t₀ v l best h0 hl hwalk hmax hbest
      obtain ⟨v', l', best', hstep, h0', hl', hwalk', hmax', hbest'⟩ :=
        lcsStep_sem hI a t₀ v l best h0 hl hwalk hmax
      have hbest'' : best' = bestRef s (t₀ ++ [a]) := by
        rw [hbest', hbest, hmax', bestRef_snoc]
      obtain ⟨res, hres, hval⟩ := ih (t₀ ++ [a]) v' l' best' h0' hl' hwalk' hmax' hbest''
      refine ⟨res, ?_, ?_⟩
      · rw [List.foldlM_cons, hstep]
        simp only [Option.bind_eq_bind, Option.some_bind]
        exact hres
      · rw [hval]
        congr 1
        simp
  obtain ⟨res, hres, hval⟩ := key t [] 0 0 0 (le_refl 0) (by simp)
    (by rw [takeSuffix_zero, walk_nil]; rfl) (by rw [maxMatch_nil]) (by rw [bestRef_nil])
  rw [longest_common_substring, lcsRun]
  simp only [Option.bind_eq_bind]
  rw [hres]
  simp only [Option.some_bind]
  simp only [List.nil_append] at hval
  rw [refLCS_eq_bestRef, ← hval]
  rfl

theorem claim1_lcs_correct_witness :
    longest_common_substring samAB ['b', 'a'] = some (refLCS ['a', 'b'] ['b', 'a']) :=
  claim1_lcs_correct build_ab ['b', 'a']

/-! ### Counting transitions: the solid path property and first occurrences -/

theorem prefix_snoc_shorten {w w₁ : List Char} {a : Char} (h : w <+: w₁ ++ [a])
    (hlen : w.length ≤ w₁.length) : w <+: w₁ := by
  have h1 := List.prefix_iff_eq_take.mp h
  rw [List.take_append_of_le_length hlen] at h1
  rw [h1]
  exact List.take_prefix _ _

namespace Inv

variable {A : SuffixAutomaton} {s : List Char} {wit : Nat → List Char}

theorem wit_init (hI : Inv A s wit) {v : Nat} {w₁ : List Char} {a : Char}
    (hv : v < A.states.length) (hw : wit v = w₁ ++ [a]) :
    ∃ x : Nat, walkFrom A.states 0 w₁ = some x ∧ wit x = w₁ := by
  have hreach : walkFrom A.states 0 (w₁ ++ [a]) = some v := by
    rw [← hw]
    exact hI.witReach v hv
  obtain ⟨x, stx, hx, hstx, hedge⟩ := walk_snoc_some hreach
  refine ⟨x, hx, ?_⟩
  have h1 : w₁ <:+ wit x := hI.reachSuffix _ _ hx
  have h2 : walkFrom A.states 0 (wit x ++ [a]) = some v :=
    walk_snoc_of (hI.witReach x (hI.reach_lt hx)) hstx hedge
  have h3 : wit x ++ [a] <:+ wit v := hI.reachSuffix _ _ h2
  have h4 := h3.length_le
  rw [hw] at h4
  simp only [List.length_append, List.length_cons, List.length_nil] at h4
  have h5 := h1.length_le
  exact (h1.eq_of_length (by omega)).symm

/-- Solid path property: every prefix of a state's longest string is the
longest string of the state it reaches. -/
theorem wit_prefix (hI : Inv A s wit) :
    ∀ (n : Nat) (v : Nat) (w : List Char), v < A.states.length → w <+: wit v →
    (wit v).length ≤ n →
    ∃ x : Nat, walkFrom A.states 0 w = some x ∧ wit x = w := by
  intro n
  induction n with
  | zero =>
    intro v w hv hw hn
    have h1 : wit v = [] := List.length_eq_zero.mp (by omega)
    rw [h1] at hw
    have h2 : w = [] := List.prefix_nil.mp hw
    subst h2
    exact ⟨0, by rw [walk_nil], hI.wit_zero⟩
  | succ n ih =>
    intro v w hv hw hn
    by_cases heq : w = wit v
    · subst heq
      exact ⟨v, hI.witReach v hv, rfl⟩
    · have hlt : w.length < (wit v).length := by
        have h1 := hw.length_le
        rcases lt_or_eq_of_le h1 with h | h
        · exact h
        · exact absurd (hw.eq_of_length h) heq
      cases hwv : wit v using List.reverseRecOn with
      | nil =>
        rw [hwv] at hlt
        simp at hlt
      | append_singleton w₁ a =>
        obtain ⟨x, hx, hwx⟩ := hI.wit_init hv hwv
        rw [hwv] at hw hlt
        simp only [List.length_append, List.length_cons, List.length_nil] at hlt
        have hw1 : w <+: w₁ := prefix_snoc_shorten hw (by omega)
        refine ih x w (hI.reach_lt hx) (by rw [hwx]; exact hw1) ?_
        rw [hwx]
        have h5 : (w₁ ++ [a]).length ≤ n + 1 := by
          rw [← hwv]
          exact hn
        simp only [List.length_append, List.length_cons, List.length_nil] at h5
        omega

theorem wit_prefix' (hI : Inv A s wit) {v : Nat} {w : List Char}
    (hv : v < A.states.length) (hw : w <+: wit v) :
    ∃ x : Nat, walkFrom A.states 0 w = some x ∧ wit x = w :=
  hI.wit_prefix (wit v).length v w hv hw (le_refl _)

end Inv

/-- The least `r` such that `w` occurs in `s` ending at position `r`
(defaults to `s.length` when there is no occurrence). -/
def firstEnd (s w : List Char) : Nat :=
  Nat.find (p := fun r => w <:+ List.take r s ∨ r = s.length) ⟨s.length, Or.inr rfl⟩

theorem firstEnd_le (s w : List Char) : firstEnd s w ≤ s.length :=
  Nat.find_le (Or.inr rfl)

theorem firstEnd_suffix {s w : List Char} (h : w <:+: s) :
    w <:+ List.take (firstEnd s w) s := by
  obtain ⟨u, v, huv⟩ := h
  have htake : List.take (u.length + w.length) s = u ++ w := by
    rw [← huv]
    exact List.take_left' (by simp)
  have hP : w <:+ List.take (u.length + w.length) s := by
    rw [htake]
    exact List.suffix_append u w
  have hle : firstEnd s w ≤ u.length + w.length := Nat.find_le (Or.inl hP)
  have hsl : u.length + w.length ≤ s.length := by
    rw [← huv]
    simp
  have hspec : w <:+ List.take (firstEnd s w) s ∨ firstEnd s w = s.length :=
    Nat.find_spec (p := fun r => w <:+ List.take r s ∨ r = s.length)
      ⟨s.length, Or.inr rfl⟩
  rcases hspec with h1 | h1
  · exact h1
  · have h2 : u.length + w.length = s.length := by omega
    rw [h1, ← h2, htake]
    exact List.suffix_append u w

theorem firstEnd_min {s w : List Char} {r : Nat} (hr : r < firstEnd s w) :
    ¬ w <:+ List.take r s := by
  have h1 := Nat.find_min (p := fun r => w <:+ List.take r s ∨ r = s.length)
    ⟨s.length, Or.inr rfl⟩ (m := r) hr
  intro h
  exact h1 (Or.inl h)

theorem firstEnd_ge {s w : List Char} (h : w <:+: s) : w.length ≤ firstEnd s w := by
  have h1 := (firstEnd_suffix h).length_le
  rw [List.length_take] at h1
  omega

theorem firstEnd_drop {s w : List Char} (h : w <:+: s) :
    w <+: List.drop (firstEnd s w - w.length) s := by
  obtain ⟨u, hu⟩ := firstEnd_suffix h
  have hlen : u.length + w.length = min (firstEnd s w) s.length := by
    have h1 := congrArg List.length hu
    simp only [List.length_append, List.length_take] at h1
    omega
  have hfle := firstEnd_le s w
  have hsplit : s = u ++ (w ++ List.drop (firstEnd s w) s) := by
    conv_lhs => rw [← List.take_append_drop (firstEnd s w) s]
    rw [← hu]
    simp [List.append_assoc]
  have hdrop : List.drop u.length s = w ++ List.drop (firstEnd s w) s := by
    conv_lhs => rw [hsplit]
    exact List.drop_left u _
  have hul : u.length = firstEnd s w - w.length := by omega
  rw [← hul, hdrop]
  exact List.prefix_append w _

/-- All transition edges of the automaton as (source, symbol, target). -/
def edges (A : SuffixAutomaton) : List (Nat × Char × Nat) :=
  A.states.enum.flatMap (fun p => p.2.next.map (fun e => (p.1, e.1, e.2)))

theorem length_edges (A : SuffixAutomaton) : (edges A).length = edgeCount A := by
  rw [edges, List.length_flatMap, edgeCount]
  have h1 : List.map (List.length ∘ fun p : Nat × State =>
      p.2.next.map (fun e => (p.1, e.1, e.2))) A.states.enum
      = List.map ((fun st : State => st.next.length) ∘ Prod.snd) A.states.enum := by
    refine List.map_congr_left ?_
    intro p hp
    simp [Function.comp]
  rw [h1, ← List.map_map, List.enum_map_snd]

theorem mem_edges {A : SuffixAutomaton} {e : Nat × Char × Nat} :
    e ∈ edges A ↔ ∃ st : State, A.states[e.1]? = some st ∧ (e.2.1, e.2.2) ∈ st.next := by
  rw [edges, List.mem_flatMap]
  constructor
  · rintro ⟨p, hp, he⟩
    rw [List.mem_map] at he
    obtain ⟨ab, hab, habe⟩ := he
    rw [List.mem_enum_iff_getElem?] at hp
    rw [← habe]
    exact ⟨p.2, hp, by simpa using hab⟩
  · rintro ⟨st, hst, hmem⟩
    refine ⟨(e.1, st), ?_, ?_⟩
    · rw [List.mem_enum_iff_getElem?]
      exact hst
    · rw [List.mem_map]
      exact ⟨(e.2.1, e.2.2), hmem, by simp⟩

theorem findTr_of_mem {m : List (Char × Nat)} (hnd : (m.map Prod.fst).Nodup)
    {c : Char} {v : Nat} (h : (c, v) ∈ m) : findTr m c = some v := by
  induction m with
  | nil => simp at h
  | cons e m ih =>
    obtain ⟨a, w⟩ := e
    rw [findTr]
    simp only [List.map_cons, List.nodup_cons] at hnd
    rcases List.mem_cons.mp h with h1 | h1
    · simp only [Prod.mk.injEq] at h1
      rw [if_pos h1.1.symm, h1.2]
    · by_cases hac : a = c
      · exfalso
        apply hnd.1
        rw [hac]
        exact List.mem_map.mpr ⟨(c, v), h1, rfl⟩
      · rw [if_neg hac]
        exact ih hnd.2 h1

theorem nodup_edges {A : SuffixAutomaton} {s : List Char} {wit : Nat → List Char}
    (hI : Inv A s wit) : (edges A).Nodup := by
  rw [edges, List.nodup_flatMap]
  constructor
  · intro p hp
    rw [List.mem_enum_iff_getElem?] at hp
    refine List.Nodup.map_on ?_ ?_
    · intro x hx y hy hxy
      simp only [Prod.mk.injEq] at hxy
      obtain ⟨x1, x2⟩ := x
      obtain ⟨y1, y2⟩ := y
      simp only at hxy
      simp [hxy.2.1, hxy.2.2]
    · exact List.Nodup.of_map _ (hI.nodupNext p.1 p.2 hp)
  · have h1 : (A.states.enum.map Prod.fst).Nodup := by
      rw [List.enum_map_fst]
      exact List.nodup_range _
    rw [List.Nodup, List.pairwise_map] at h1
    refine h1.imp ?_
    intro p q hpq
    intro x hxp hxq
    rw [List.mem_map] at hxp hxq
    obtain ⟨a, _, ha⟩ := hxp
    obtain ⟨b, _, hb⟩ := hxq
    apply hpq
    have h2 : p.1 = x.1 := by rw [← ha]
    have h3 : q.1 = x.1 := by rw [← hb]
    rw [h2, h3]

theorem edges_findTr {A : SuffixAutomaton} {s : List Char} {wit : Nat → List Char}
    (hI : Inv A s wit) {e : Nat × Char × Nat} (he : e ∈ edges A) :
    ∃ st : State, A.states[e.1]? = some st ∧ findTr st.next e.2.1 = some e.2.2 := by
  obtain ⟨st, hst, hmem⟩ := mem_edges.mp he
  exact ⟨st, hst, findTr_of_mem (hI.nodupNext e.1 st hst) hmem⟩

/-- The transition count is bounded by the state count plus the number of
proper nonempty suffixes of `s`: every edge is either the last step of a
longest-string path (injectively indexed by its target) or maps injectively
to the start position of the first occurrence of its word. -/
theorem edge_bound {A : SuffixAutomaton} {s : List Char} {wit : Nat → List Char}
    (hI : Inv A s wit) (hs : 1 ≤ s.length) :
    edgeCount A ≤ (A.states.length - 1) + (s.length - 1) := by
  classical
  set F : Nat × Char × Nat → Nat ⊕ Nat := fun e =>
    if wit e.1 ++ [e.2.1] = wit e.2.2 then Sum.inl e.2.2
    else Sum.inr (firstEnd s (wit e.1 ++ [e.2.1]) - (wit e.1 ++ [e.2.1]).length) with hF
  have hiN : ∀ e ∈ edges A, e.1 < A.states.length ∧ e.2.2 < A.states.length := by
    intro e he
    obtain ⟨st, hst, hf⟩ := edges_findTr hI he
    exact ⟨(List.getElem?_eq_some_iff.mp hst).1, hI.edgeValid e.1 st e.2.1 e.2.2 hst hf⟩
  have hgwalk : ∀ e ∈ edges A, walkFrom A.states 0 (wit e.1 ++ [e.2.1]) = some e.2.2 := by
    intro e he
    obtain ⟨st, hst, hf⟩ := edges_findTr hI he
    exact walk_snoc_of (hI.witReach e.1 (hiN e he).1) hst hf
  have hginf : ∀ e ∈ edges A, (wit e.1 ++ [e.2.1]) <:+: s := fun e he =>
    hI.reach_infix (hgwalk e he)
  -- if the word is a prefix of some longest string, the edge is a tree edge
  have hprefix_tree : ∀ e ∈ edges A, ∀ v : Nat, v < A.states.length →
      wit e.1 ++ [e.2.1] <+: wit v → wit e.1 ++ [e.2.1] = wit e.2.2 := by
    intro e he v hv hpre
    obtain ⟨x, hx, hwx⟩ := hI.wit_prefix' hv hpre
    rw [hgwalk e he] at hx
    simp only [Option.some.injEq] at hx
    rw [← hx] at hwx
    exact hwx.symm
  -- start positions of non-tree edges
  have hstart : ∀ e ∈ edges A, ¬ (wit e.1 ++ [e.2.1] = wit e.2.2) →
      1 ≤ firstEnd s (wit e.1 ++ [e.2.1]) - (wit e.1 ++ [e.2.1]).length ∧
      firstEnd s (wit e.1 ++ [e.2.1]) - (wit e.1 ++ [e.2.1]).length ≤ s.length - 1 := by
    intro e he hnt
    have hge := firstEnd_ge (hginf e he)
    have hle := firstEnd_le s (wit e.1 ++ [e.2.1])
    have hglen : 1 ≤ (wit e.1 ++ [e.2.1]).length := by simp
    constructor
    · by_contra hz
      push_neg at hz
      have hz0 : firstEnd s (wit e.1 ++ [e.2.1]) = (wit e.1 ++ [e.2.1]).length := by
        omega
      have hsuf := firstEnd_suffix (hginf e he)
      have htlen : (List.take (firstEnd s (wit e.1 ++ [e.2.1])) s).length
          = (wit e.1 ++ [e.2.1]).length := by
        rw [List.length_take]
        omega
      have heq := hsuf.eq_of_length (by rw [htlen])
      have hpre : wit e.1 ++ [e.2.1] <+: s := by
        rw [heq]
        exact List.take_prefix _ _
      have hlastpre : wit e.1 ++ [e.2.1] <+: wit A.last := by
        rw [hI.wit_last]
        exact hpre
      exact hnt (hprefix_tree e he A.last hI.lastValid hlastpre)
    · omega
  -- non-tree edges with the same start position coincide
  have haux : ∀ e ∈ edges A, ∀ e' ∈ edges A,
      ¬ (wit e.1 ++ [e.2.1] = wit e.2.2) → ¬ (wit e'.1 ++ [e'.2.1] = wit e'.2.2) →
      firstEnd s (wit e.1 ++ [e.2.1]) - (wit e.1 ++ [e.2.1]).length
        = firstEnd s (wit e'.1 ++ [e'.2.1]) - (wit e'.1 ++ [e'.2.1]).length →
      (wit e.1 ++ [e.2.1]).length ≤ (wit e'.1 ++ [e'.2.1]).length → e = e' := by
    intro e he e' he' hnt hnt' hst hlen
    have hd := firstEnd_drop (hginf e he)
    have hd' := firstEnd_drop (hginf e' he')
    rw [hst] at hd
    have hpp : wit e.1 ++ [e.2.1] <+: wit e'.1 ++ [e'.2.1] :=
      List.prefix_of_prefix_length_le hd hd' hlen
    rcases lt_or_eq_of_le hlen with hlt | heq
    · exfalso
      have hpre : wit e.1 ++ [e.2.1] <+: wit e'.1 := by
        refine prefix_snoc_shorten hpp ?_
        simp at hlt ⊢
        omega
      exact hnt (hprefix_tree e he e'.1 (hiN e' he').1 hpre)
    · have hgg : wit e.1 ++ [e.2.1] = wit e'.1 ++ [e'.2.1] := hpp.eq_of_length heq
      obtain ⟨hww, haa⟩ := snoc_inj hgg
      have hii : e.1 = e'.1 := by
        have h1 := hI.witReach e.1 (hiN e he).1
        have h2 := hI.witReach e'.1 (hiN e' he').1
        rw [hww] at h1
        rw [h1] at h2
        simp only [Option.some.injEq] at h2
        exact h2
      have hjj : e.2.2 = e'.2.2 := by
        have h1 := hgwalk e he
        have h2 := hgwalk e' he'
        rw [hgg] at h1
        rw [h1] at h2
        simp only [Option.some.injEq] at h2
        exact h2
      obtain ⟨i, a, j⟩ := e
      obtain ⟨i', a', j'⟩ := e'
      simp only at hii haa hjj
      rw [hii, haa, hjj]
  -- the classification map is injective on the edge list
  have hmapnodup : ((edges A).map F).Nodup := by
    refine (nodup_edges hI).map_on ?_
    intro e he e' he' hFe
    rw [hF] at hFe
    simp only at hFe
    by_cases ht : wit e.1 ++ [e.2.1] = wit e.2.2 <;>
      by_cases ht' : wit e'.1 ++ [e'.2.1] = wit e'.2.2
    · rw [if_pos ht, if_pos ht'] at hFe
      simp only [Sum.inl.injEq] at hFe
      -- tree edges with equal targets coincide
      have hgg : wit e.1 ++ [e.2.1] = wit e'.1 ++ [e'.2.1] := by
        rw [ht, ht', hFe]
      obtain ⟨hww, haa⟩ := snoc_inj hgg
      have hii : e.1 = e'.1 := by
        have h1 := hI.witReach e.1 (hiN e he).1
        have h2 := hI.witReach e'.1 (hiN e' he').1
        rw [hww] at h1
        rw [h1] at h2
        simp only [Option.some.injEq] at h2
        exact h2
      obtain ⟨i, a, j⟩ := e
      obtain ⟨i', a', j'⟩ := e'
      simp only at hii haa hFe
      rw [hii, haa, hFe]
    · rw [if_pos ht, if_neg ht'] at hFe
      cases hFe
    · rw [if_neg ht, if_pos ht'] at hFe
      cases hFe
    · rw [if_neg ht, if_neg ht'] at hFe
      simp only [Sum.inr.injEq] at hFe
      rcases Nat.le_total (wit e.1 ++ [e.2.1]).length (wit e'.1 ++ [e'.2.1]).length with h | h
      · exact haux e he e' he' ht ht' hFe h
      · exact (haux e' he' e he ht' ht hFe.symm h).symm
  -- every classified edge lands in a small finite set
  have hmem : ∀ x ∈ (edges A).map F,
      x ∈ (Finset.Icc 1 (A.states.length - 1)).image Sum.inl ∪
        (Finset.Icc 1 (s.length - 1)).image Sum.inr := by
    intro x hx
    rw [List.mem_map] at hx
    obtain ⟨e, he, hxe⟩ := hx
    rw [hF] at hxe
    simp only at hxe
    by_cases ht : wit e.1 ++ [e.2.1] = wit e.2.2
    · rw [if_pos ht] at hxe
      rw [Finset.mem_union]
      left
      rw [Finset.mem_image]
      refine ⟨e.2.2, ?_, hxe⟩
      rw [Finset.mem_Icc]
      have hj0 : e.2.2 ≠ 0 := by
        intro hz
        rw [hz, hI.wit_zero] at ht
        simp at ht
      have := (hiN e he).2
      omega
    · rw [if_neg ht] at hxe
      rw [Finset.mem_union]
      right
      rw [Finset.mem_image]
      refine ⟨_, ?_, hxe⟩
      rw [Finset.mem_Icc]
      exact hstart e he ht
  have h1 : ((edges A).map F).toFinset.card = ((edges A).map F).length :=
    List.toFinset_card_of_nodup hmapnodup
  have h2 : ((edges A).map F).toFinset ⊆
      (Finset.Icc 1 (A.states.length - 1)).image Sum.inl ∪
        (Finset.Icc 1 (s.length - 1)).image Sum.inr := by
    intro x hx
    rw [List.mem_toFinset] at hx
    exact hmem x hx
  have h3 := Finset.card_le_card h2
  have h4 := Finset.card_union_le
    ((Finset.Icc 1 (A.states.length - 1)).image Sum.inl)
    ((Finset.Icc 1 (s.length - 1)).image Sum.inr)
  have h5 : ((Finset.Icc 1 (A.states.length - 1)).image
      (Sum.inl : Nat → Nat ⊕ Nat)).card = A.states.length - 1 := by
    rw [Finset.card_image_of_injective _ Sum.inl_injective, Nat.card_Icc]
    omega
  have h6 : ((Finset.Icc 1 (s.length - 1)).image
      (Sum.inr : Nat → Nat ⊕ Nat)).card = s.length - 1 := by
    rw [Finset.card_image_of_injective _ Sum.inr_injective, Nat.card_Icc]
    omega
  have h7 : ((edges A).map F).length = edgeCount A := by
    rw [List.length_map, length_edges]
  omega

/-- Claim C4 (corrected): after building from a string of length `n ≥ 2`,
the state count is at most `2n - 1`, as claimed; the transition count is at
most `3n - 3`. The claimed transition bound `3n - 4` is false at `n = 2`
(see the counterexample), where 3 transitions are created. -/
theorem claim4_counts {s : List Char} {A : SuffixAutomaton}
    (hA : build s = some A) (hs : 2 ≤ s.length) :
    A.states.length ≤ 2 * s.length - 1 ∧ edgeCount A ≤ 3 * s.length - 3 := by
  obtain ⟨A₀, wit, hb, hI, hcnt⟩ := build_inv s
  rw [hb] at hA
  simp only [Option.some.injEq] at hA
  subst hA
  have hV : A₀.states.length ≤ 2 * s.length - 1 := by
    rcases hcnt with ⟨h1, h2⟩ | ⟨h1, h2⟩ | ⟨h1, h2⟩ <;> omega
  refine ⟨hV, ?_⟩
  have hE := edge_bound hI (by omega)
  omega

/-- Claim C4, counterexample to the transition bound as stated: for
`s = "ab"` (length 2, within the claim's `n ≥ 2` scope) the automaton has
3 states — meeting the claimed `2n - 1 = 3` — but 3 transition entries,
exceeding the claimed `3n - 4 = 2`. -/
theorem claim4_counterexample :
    ∃ A : SuffixAutomaton, build ['a', 'b'] = some A ∧
      (['a', 'b'] : List Char).length = 2 ∧
      A.states.length = 3 ∧ edgeCount A = 3 ∧
      ¬ (edgeCount A ≤ 3 * (['a', 'b'] : List Char).length - 4) :=
  ⟨samAB, build_ab, rfl, rfl, by decide, by decide⟩

theorem claim4_counts_witness :
    samAB.states.length ≤ 2 * (['a', 'b'] : List Char).length - 1 ∧
      edgeCount samAB ≤ 3 * (['a', 'b'] : List Char).length - 3 :=
  claim4_counts build_ab (by decide)

end SufAuto
